import Mathlib

/-!
# Inverted-index build, spill, merge and lookup of `infinity`

A shallow embedding of
`src/storage/invertedindex/column_inverter.cpp`,
`src/storage/invertedindex/column_index_merger.cpp` and
`src/storage/invertedindex/column_index_reader.cpp`.

Conventions.
* A byte is a `Fin 256`; `u32`/`u64` values are natural numbers and wrap-around is written
  `% 2 ^ 32` / `% 2 ^ 64` where the source computes in that width.
* A pointer into `terms_` is the byte offset it points at. An access outside the vector it
  indexes, and a call through a null `PostingPtr`, make the embedded function return `none`.
* The host is little-endian: a native `u32` store writes the low byte first.
-/

namespace infinity

/-! ## Bytes and buffers -/

/-- One byte (`char`) of a buffer or of a file. -/
abbrev Byte := Fin 256

/-- Truncation of a machine integer to its low byte. -/
def byteOf (v : Nat) : Byte := ⟨v % 256, Nat.mod_lt _ (by decide)⟩

/-- The four bytes a native store of a `u32` writes (low byte first). -/
def le32 (v : Nat) : List Byte :=
  [byteOf v, byteOf (v / 2 ^ 8), byteOf (v / 2 ^ 16), byteOf (v / 2 ^ 24)]

/-- The eight bytes a native store of a `u64` writes. -/
def le64 (v : Nat) : List Byte := le32 v ++ le32 (v / 2 ^ 32)

/-- The two bytes a native store of a `u16` writes. -/
def le16 (v : Nat) : List Byte := [byteOf v, byteOf (v / 2 ^ 8)]

/-- Value of a byte string read as a native (little-endian) unsigned integer. -/
def leVal : List Byte → Nat
  | [] => 0
  | b :: bs => b.val + 256 * leVal bs

/-- Value of a byte string read as a big-endian unsigned integer (what `ntohl` of a native
load yields for four bytes). -/
def beVal (bs : List Byte) : Nat := bs.foldl (fun acc b => acc * 256 + b.val) 0

/-- The bytes `[off, off + n)` of a buffer; `none` when the range leaves the buffer. -/
def readBytes (buf : List Byte) (off n : Nat) : Option (List Byte) :=
  if off + n ≤ buf.length then some ((buf.drop off).take n) else none

/-- Overwrite the bytes `[off, off + bs.length)` of a buffer (`memcpy`/`memset` into it);
`none` when the range leaves the buffer. -/
def writeBytes (buf : List Byte) (off : Nat) (bs : List Byte) : Option (List Byte) :=
  if off + bs.length ≤ buf.length then
    some (buf.take off ++ bs ++ buf.drop (off + bs.length))
  else none

/-- The call `std::vector<char>::resize(n)`: truncate, or extend with zero bytes. -/
def resizeBytes (buf : List Byte) (n : Nat) : List Byte :=
  buf.take n ++ List.replicate (n - buf.length) 0

/-- The call `std::vector<u32>::resize(n)`. -/
def resizeU32 (v : List Nat) (n : Nat) : List Nat :=
  v.take n ++ List.replicate (n - v.length) 0

/-- The NUL-terminated string that starts at offset `off` of a buffer; `none` when no NUL
byte follows inside the buffer (the read would leave it). -/
def cstrAt (buf : List Byte) (off : Nat) : Option (List Byte) :=
  if (0 : Byte) ∈ buf.drop off then some ((buf.drop off).takeWhile (fun b => b ≠ 0)) else none

/-- The result of `strcmp` on two C strings given by their text (the bytes before the NUL):
negative, zero or positive. Bytes compare as unsigned; the terminator is smaller than every
byte of a text. -/
def strcmp : List Byte → List Byte → Int
  | [], [] => 0
  | [], _ :: _ => -1
  | _ :: _, [] => 1
  | a :: as, b :: bs => if a < b then -1 else if b < a then 1 else strcmp as bs

/-- Apply a fallible function to every element in order; fails at the first failure. -/
def mapOpt {α β : Type} (f : α → Option β) : List α → Option (List β)
  | [] => some []
  | a :: as =>
    match f a with
    | none => none
    | some b =>
      match mapOpt f as with
      | none => none
      | some bs => some (b :: bs)

/-! ## The column inverter: data -/

/-- One analyzer token (`Term`): its text and its word offset in the document. -/
structure Term where
  text_ : List Byte
  word_offset_ : Nat
  deriving DecidableEq, Repr

/-- A position record (`ColumnInverter::PosInfo`); the fields are `u32`. -/
structure PosInfo where
  term_num_ : Nat
  doc_id_ : Nat
  term_pos_ : Nat
  deriving DecidableEq, Repr

/-- The data members of `ColumnInverter` the build path works on. -/
structure ColumnInverter where
  terms_ : List Byte
  positions_ : List PosInfo
  term_refs_ : List Nat
  terms_per_doc_ : List (Nat × List Term)
  deriving DecidableEq, Repr

/-- The state the constructor `ColumnInverter::ColumnInverter` leaves: the three vectors are
constructed from the allocator alone, hence empty. -/
def ColumnInverter.new : ColumnInverter :=
  { terms_ := [], positions_ := [], term_refs_ := [], terms_per_doc_ := [] }

/-- The template function `Align<T>`: `(unaligned + T - 1) & (-T)` in `u32`. -/
def Align (T unaligned : Nat) : Nat :=
  ((unaligned + T - 1) % 2 ^ 32) &&& ((2 ^ 32 - T) % 2 ^ 32)

/-- The overload `InvertColumn(doc_id, val)`, with the analyzer as a function from the column
value to its token list. -/
def InvertColumn {Val : Type} (analyze : Val → List Term) (inv : ColumnInverter)
    (doc_id : Nat) (val : Val) : ColumnInverter :=
  { inv with terms_per_doc_ := inv.terms_per_doc_ ++ [(doc_id, analyze val)] }

/-- The overload `InvertColumn(column_vector, row_offset, row_count, start_doc_id)`; `toStr`
is `ColumnVector::ToString` and `i` the loop counter. -/
def InvertColumnRows {Val : Type} (analyze : Val → List Term) (toStr : Nat → Val)
    (row_offset start_doc_id : Nat) : Nat → Nat → ColumnInverter → ColumnInverter
  | 0, _, inv => inv
  | n + 1, i, inv =>
    InvertColumnRows analyze toStr row_offset start_doc_id n (i + 1)
      (InvertColumn analyze inv ((start_doc_id + i) % 2 ^ 32) (toStr (row_offset + i)))

/-- The member `ColumnInverter::AddTerm`; returns the new state and the term reference. -/
def AddTerm (inv : ColumnInverter) (term : List Byte) : Option (ColumnInverter × Nat) :=
  let terms_size := inv.terms_.length % 2 ^ 32
  let unpadded_size := (terms_size + 4 + term.length + 1) % 2 ^ 32
  let fully_padded_size := Align 4 unpadded_size
  let resized := resizeBytes inv.terms_ fully_padded_size
  match writeBytes resized terms_size (List.replicate 4 0) with
  | none => none
  | some b1 =>
    match writeBytes b1 (terms_size + 4) term with
    | none => none
    | some b2 =>
      match writeBytes b2 (terms_size + 4 + term.length)
          (List.replicate ((fully_padded_size + 2 ^ 32 - unpadded_size + 1) % 2 ^ 32) 0) with
      | none => none
      | some b3 =>
        let term_ref := ((terms_size + 4) % 2 ^ 32) >>> 2
        some ({ inv with terms_ := b3, term_refs_ := inv.term_refs_ ++ [term_ref] }, term_ref)

/-- The inner loop of `Merge`: every token of one document is added as a term and as a
position record. -/
def mergeTerms (doc_id : Nat) : List Term → ColumnInverter → Option ColumnInverter
  | [], inv => some inv
  | it :: rest, inv =>
    match AddTerm inv it.text_ with
    | none => none
    | some (inv1, term_ref) =>
      mergeTerms doc_id rest
        { inv1 with positions_ := inv1.positions_ ++ [⟨term_ref, doc_id, it.word_offset_⟩] }

/-- The outer loop of `Merge` over a staging list. -/
def mergeDocs : List (Nat × List Term) → ColumnInverter → Option ColumnInverter
  | [], inv => some inv
  | doc_terms :: rest, inv =>
    match mergeTerms doc_terms.1 doc_terms.2 inv with
    | none => none
    | some inv1 => mergeDocs rest inv1

/-- The member `ColumnInverter::Merge(rhs)` for two distinct inverters: the new states of
`this` and of `rhs`. -/
def Merge (self rhs : ColumnInverter) : Option (ColumnInverter × ColumnInverter) :=
  let flushed :=
    if self.positions_.isEmpty then
      (mergeDocs self.terms_per_doc_ self).map (fun inv => { inv with terms_per_doc_ := [] })
    else some self
  match flushed with
  | none => none
  | some inv =>
    match mergeDocs rhs.terms_per_doc_ inv with
    | none => none
    | some inv1 => some (inv1, { rhs with terms_per_doc_ := [] })

/-! ## Term accessors and sorters -/

/-- Modelled from the spec: `GetTermFromRef` is declared in the module interface of
`column_inverter`, which is not among the sources. A term reference is the byte offset of the
term text in `terms_` divided by 4, so the accessor returns the pointer `&terms_[term_ref << 2]`
(the shift is a `u32` shift). -/
def GetTermFromRef (term_ref : Nat) : Nat := (term_ref * 4) % 2 ^ 32

/-- Modelled from the spec: `GetTermFromNum` (module interface, not among the sources) is
`GetTermFromRef(term_refs_[term_num])`; `none` when `term_num` is not an index of `term_refs_`. -/
def GetTermFromNum (term_refs : List Nat) (term_num : Nat) : Option Nat :=
  (term_refs.get? term_num).map GetTermFromRef

/-- Offset of the four reserved bytes in front of a term text: `(term_ref - 1) << 2` in `u32`. -/
def termNumOffset (term_ref : Nat) : Nat := (((term_ref + 2 ^ 32 - 1) % 2 ^ 32) * 4) % 2 ^ 32

/-- Modelled from the spec: `GetTermNum` (module interface, not among the sources) reads the
`u32` held in the four bytes immediately before the term text. -/
def GetTermNum (terms : List Byte) (term_ref : Nat) : Option Nat :=
  (readBytes terms (termNumOffset term_ref) 4).map leVal

/-- Modelled from the spec: `UpdateTermNum` (module interface, not among the sources) writes
the term number into the four reserved bytes preceding the term text. -/
def UpdateTermNum (terms : List Byte) (term_ref term_num : Nat) : Option (List Byte) :=
  writeBytes terms (termNumOffset term_ref) (le32 term_num)

/-- The expression `ntohl(*reinterpret_cast<const u32 *>(GetTermFromRef(term_ref)))`: the four
bytes at the term text, read big-endian. -/
def firstFour (terms : List Byte) (term_ref : Nat) : Option Nat :=
  (readBytes terms (GetTermFromRef term_ref) 4).map beVal

/-- The packed key `SortTerms` builds for a term reference: `(first_four << 32) | term_ref`. -/
def packedKey (first_four term_ref : Nat) : Nat := ((first_four <<< 32) % 2 ^ 64) ||| term_ref

/-- The functor `TermRefRadix`: the high 32 bits of a packed key. -/
def TermRefRadix (v : Nat) : Nat := (v >>> 32) % 2 ^ 32

/-- Modelled from the spec: `CompareTermRef::GetTerm` (module interface, not among the sources)
is the C string at `&term_buffer_[term_ref << 2]`, here by its text. A reference whose text is
not NUL-terminated inside the buffer reads as the empty text. -/
def GetTerm (terms : List Byte) (term_ref : Nat) : List Byte :=
  (cstrAt terms (GetTermFromRef term_ref)).getD []

/-- The functor `CompareTermRef`: both arguments are converted to `u32` (the low half of a
packed key, the term reference) and the terms they refer to are compared with `strcmp`. -/
def CompareTermRef (terms : List Byte) (lhs rhs : Nat) : Bool :=
  decide (strcmp (GetTerm terms (lhs % 2 ^ 32)) (GetTerm terms (rhs % 2 ^ 32)) < 0)

/-- The order a radix sort with comparator fallback establishes: by radix key, and among equal
radix keys by the comparator. -/
def radixLe {α : Type} (radix : α → Nat) (compare : α → α → Bool) (a b : α) : Bool :=
  decide (radix a < radix b) || (decide (radix a = radix b) && !compare b a)

/-- Modelled from the spec: `ShiftBasedRadixSorter<...>::RadixSort` of module `radix_sort` is
not among the sources. The spec describes it as a radix sort by the radix key with a final
tie-break through the comparator; the result is the input reordered by radix key and, among
equal radix keys, by the comparator. -/
def RadixSort {α : Type} (radix : α → Nat) (compare : α → α → Bool) (xs : List α) : List α :=
  List.insertionSort (fun a b => radixLe radix compare a b = true) xs

/-- The loop of `SortTerms` that scans the sorted references from the second one on
(`for (++term_ref_begin; term_ref_begin != term_refs_.end(); ++term_ref_begin)`). The first
argument counts the iterations left, `it` is the index the iterator stands at and `last_term`
the offset `last_term` points at. Returns `terms_`, `term_refs_` and `term_num`. -/
def sortTermsLoop : Nat → List Byte → List Nat → Nat → Nat → Nat →
    Option (List Byte × List Nat × Nat)
  | 0, terms, term_refs, term_num, _, _ => some (terms, term_refs, term_num)
  | n + 1, terms, term_refs, term_num, last_term, it =>
    match term_refs.get? it with
    | none => none
    | some r =>
      let term := GetTermFromRef r
      match cstrAt terms last_term, cstrAt terms term with
      | some a, some b =>
        if strcmp a b < 0 then
          if term_num + 1 < term_refs.length then
            match UpdateTermNum terms r (term_num + 1) with
            | none => none
            | some terms1 =>
              sortTermsLoop n terms1 (term_refs.set (term_num + 1) r) (term_num + 1) term (it + 1)
          else none
        else
          match UpdateTermNum terms r term_num with
          | none => none
          | some terms1 => sortTermsLoop n terms1 term_refs term_num last_term (it + 1)
      | _, _ => none

/-- The member `ColumnInverter::SortTerms`. -/
def SortTerms (inv : ColumnInverter) : Option ColumnInverter :=
  -- `first_four_bytes[i]` for `i = 1 .. term_refs_.size() - 1`
  match mapOpt (fun r => (firstFour inv.terms_ r).map (fun p => packedKey p r))
      (inv.term_refs_.drop 1) with
  | none => none
  | some keys =>
    -- `first_four_bytes.size() - 1` elements from `&first_four_bytes[1]` on
    if inv.term_refs_.length = 0 then none
    else
      let sorted := RadixSort TermRefRadix (CompareTermRef inv.terms_) keys
      let term_refs := inv.term_refs_.take 1 ++ sorted.map (fun k => k &&& 0xffffffff)
      -- `*term_ref_begin` with `term_ref_begin = term_refs_.begin() + 1`
      match term_refs.get? 1 with
      | none => none
      | some r1 =>
        match UpdateTermNum inv.terms_ r1 1 with
        | none => none
        | some terms1 =>
          match sortTermsLoop (term_refs.length - 2) terms1 term_refs 1 (GetTermFromRef r1) 2 with
          | none => none
          | some (terms2, term_refs2, term_num) =>
            match mapOpt (fun p : PosInfo =>
                (GetTermNum terms2 p.term_num_).map (fun n => { p with term_num_ := n }))
                inv.positions_ with
            | none => none
            | some positions =>
              some { inv with terms_ := terms2, term_refs_ := resizeU32 term_refs2 (term_num + 1),
                              positions_ := positions }

/-- The functor `FullRadix`: `(u64(term_num_) << 32) | doc_id_`. -/
def FullRadix (p : PosInfo) : Nat := ((p.term_num_ <<< 32) % 2 ^ 64) ||| p.doc_id_

/-- Modelled from the spec: `PosInfo::operator<` (used through `std::less<PosInfo>`) is
declared in the module interface, which is not among the sources; the spec orders position
records by `(term_num, doc_id, term_pos)`. -/
def PosInfo.less (a b : PosInfo) : Bool :=
  if a.term_num_ ≠ b.term_num_ then decide (a.term_num_ < b.term_num_)
  else if a.doc_id_ ≠ b.doc_id_ then decide (a.doc_id_ < b.doc_id_)
  else decide (a.term_pos_ < b.term_pos_)

/-- The order on position records by `(term_num, doc_id, term_pos)`: `a` is not after `b`. -/
def PosInfo.le (a b : PosInfo) : Prop :=
  a.term_num_ < b.term_num_ ∨
    (a.term_num_ = b.term_num_ ∧
      (a.doc_id_ < b.doc_id_ ∨ (a.doc_id_ = b.doc_id_ ∧ a.term_pos_ ≤ b.term_pos_)))

/-- The member `ColumnInverter::Sort` (`Sort` alone is a reserved word). On an empty
`positions_` the sorter is handed no element. -/
def ColumnInverter.Sort (inv : ColumnInverter) : Option ColumnInverter :=
  match SortTerms inv with
  | none => none
  | some inv1 => some { inv1 with positions_ := RadixSort FullRadix PosInfo.less inv1.positions_ }

/-! ## Committing to the in-memory indexer -/

/-- A call `GeneratePosting` issues on a posting. -/
inductive PostingCall
  | EndDocument (doc_id : Nat) (tf : Nat)
  | AddPosition (pos : Nat)
  deriving DecidableEq, Repr

/-- Modelled from the spec: `MemoryIndexer` (module `memory_indexer`) is not among the sources.
It maps a term to its posting; a posting is represented by the calls issued on it, oldest
first. Postings are kept in the order of their creation. -/
structure MemoryIndexer where
  postings : List (List Byte × List PostingCall)
  deriving DecidableEq, Repr

/-- Modelled from the spec: `MemoryIndexer::GetOrAddPosting(term)` looks the posting of the term
up or creates it; the `PostingPtr` it returns is represented by the term the posting belongs
to. -/
def MemoryIndexer.GetOrAddPosting (m : MemoryIndexer) (term : List Byte) :
    MemoryIndexer × List Byte :=
  if m.postings.any (fun e => e.1 = term) then (m, term)
  else ({ postings := m.postings ++ [(term, [])] }, term)

/-- A member call through a `PostingPtr`; `none` is the null pointer, through which no call
can be made. -/
def MemoryIndexer.call (m : MemoryIndexer) (posting : Option (List Byte)) (c : PostingCall) :
    Option MemoryIndexer :=
  match posting with
  | none => none
  | some term =>
    some { postings := m.postings.map (fun e => if e.1 = term then (e.1, e.2 ++ [c]) else e) }

/-- The calls issued so far on the posting of a term (empty when there is no such posting). -/
def MemoryIndexer.calls (m : MemoryIndexer) (term : List Byte) : List PostingCall :=
  match m.postings.find? (fun e => e.1 = term) with
  | none => []
  | some e => e.2

/-- Modelled from the spec: the posting writer is not among the sources. `AddPosition` adds a
position to the document being written and `EndDocument(doc_id, _)` closes that document under
`doc_id`; the posting lists the closed documents, each with the positions added since the
previous `EndDocument`. The second argument is the list of positions not yet closed. -/
def postingDocs : List PostingCall → List Nat → List (Nat × List Nat)
  | [], _ => []
  | PostingCall.AddPosition p :: cs, pending => postingDocs cs (pending ++ [p])
  | PostingCall.EndDocument d _ :: cs, pending => (d, pending) :: postingDocs cs []

/-- Modelled from the spec: the constant `INVALID_DOCID` of module `index_defines` (not among
the sources) is the `u32` of all ones. -/
def INVALID_DOCID : Nat := 2 ^ 32 - 1

/-- The local variables of `GeneratePosting` together with the indexer. -/
structure GenState where
  last_term_num : Nat
  last_term_pos : Nat
  last_doc_id : Nat
  posting : Option (List Byte)
  indexer : MemoryIndexer
  deriving DecidableEq, Repr

/-- One iteration of the loop of `GeneratePosting` over a record `i` of `positions_`. -/
def generatePostingStep (terms : List Byte) (term_refs : List Nat) (st : GenState)
    (i : PosInfo) : Option GenState :=
  let afterTransition : Option GenState :=
    if st.last_term_num ≠ i.term_num_ ∨ st.last_doc_id ≠ i.doc_id_ then
      let afterTerm : Option GenState :=
        if st.last_term_num ≠ i.term_num_ then
          match GetTermFromNum term_refs i.term_num_ with
          | none => none
          | some off =>
            match cstrAt terms off with
            | none => none
            | some term =>
              let r := st.indexer.GetOrAddPosting term
              some { st with last_term_num := i.term_num_, posting := some r.2, indexer := r.1 }
        else some st
      match afterTerm with
      | none => none
      | some st1 =>
        let st2 : GenState := { st1 with last_doc_id := i.doc_id_ }
        if st2.last_doc_id ≠ INVALID_DOCID then
          match st2.indexer.call st2.posting (PostingCall.EndDocument st2.last_doc_id 0) with
          | none => none
          | some m => some { st2 with indexer := m }
        else some st2
    else some st
  match afterTransition with
  | none => none
  | some st2 =>
    if i.term_pos_ ≠ st2.last_term_pos then
      match st2.indexer.call st2.posting (PostingCall.AddPosition i.term_pos_) with
      | none => none
      | some m => some { st2 with last_term_pos := i.term_pos_, indexer := m }
    else some st2

/-- The loop of `GeneratePosting`. -/
def generatePostingLoop (terms : List Byte) (term_refs : List Nat) :
    List PosInfo → GenState → Option GenState
  | [], st => some st
  | i :: rest, st =>
    match generatePostingStep terms term_refs st i with
    | none => none
    | some st1 => generatePostingLoop terms term_refs rest st1

/-- The member `ColumnInverter::GeneratePosting`, on the indexer the inverter is bound to. -/
def GeneratePosting (inv : ColumnInverter) (memory_indexer : MemoryIndexer) :
    Option MemoryIndexer :=
  (generatePostingLoop inv.terms_ inv.term_refs_ inv.positions_
    { last_term_num := 0, last_term_pos := 0, last_doc_id := INVALID_DOCID,
      posting := none, indexer := memory_indexer }).map (fun st => st.indexer)

/-! ## Committing to a spill file -/

/-- A `FILE` opened for random-access writing: its bytes by offset, its size and the file
position. -/
structure FILE where
  data : Nat → Byte
  size : Nat
  pos : Nat

/-- An empty file. -/
def FILE.empty : FILE := { data := fun _ => 0, size := 0, pos := 0 }

/-- The call `ftell`. -/
def ftell (f : FILE) : Nat := f.pos

/-- The call `fseek(f, off, SEEK_SET)`. -/
def fseek (f : FILE) (off : Nat) : FILE := { f with pos := off }

/-- The call `fwrite` of a byte string at the file position; writing no byte leaves the file as
it is. -/
def fwrite (f : FILE) (bs : List Byte) : FILE :=
  { data := fun i => if f.pos ≤ i ∧ i < f.pos + bs.length then bs.getD (i - f.pos) 0 else f.data i,
    size := if bs.length = 0 then f.size else max f.size (f.pos + bs.length),
    pos := f.pos + bs.length }

/-- The bytes `[off, off + n)` of a file; `none` past the end of the file. -/
def FILE.read (f : FILE) (off n : Nat) : Option (List Byte) :=
  if off + n ≤ f.size then some ((List.range n).map (fun i => f.data (off + i))) else none

/-- The record loop of `SpillSortResults`; `term` is the `StringRef` local, by its text. -/
def spillRecords (terms : List Byte) (term_refs : List Nat) :
    List PosInfo → Nat → List Byte → FILE → Option FILE
  | [], _, _, f => some f
  | i :: rest, last_term_num, term, f =>
    let looked : Option (List Byte) :=
      if last_term_num ≠ i.term_num_ then
        match GetTermFromNum term_refs i.term_num_ with
        | none => none
        | some off => cstrAt terms off
      else some term
    match looked with
    | none => none
    | some term1 =>
      let record_length := (term1.length + 4 + 4 + 1) % 2 ^ 16
      let f1 := fwrite f (le16 record_length)
      let f2 := fwrite f1 term1
      let f3 := fwrite f2 [0]
      let f4 := fwrite f3 (le32 i.doc_id_)
      let f5 := fwrite f4 (le32 i.term_pos_)
      spillRecords terms term_refs rest i.term_num_ term1 f5

/-- The member `ColumnInverter::SpillSortResults`: the file and `tuple_count` afterwards. -/
def SpillSortResults (inv : ColumnInverter) (spill_file : FILE) (tuple_count : Nat) :
    Option (FILE × Nat) :=
  let data_size_pos := ftell spill_file % 2 ^ 32
  let f1 := fwrite spill_file (le32 0)
  let num_of_tuples := inv.positions_.length % 2 ^ 32
  let tuple_count1 := (tuple_count + num_of_tuples) % 2 ^ 64
  let f2 := fwrite f1 (le32 num_of_tuples)
  let next_start_offset_pos := ftell f2 % 2 ^ 64
  let f3 := fwrite f2 (le64 0)
  let data_start_offset := ftell f3 % 2 ^ 32
  match spillRecords inv.terms_ inv.term_refs_ inv.positions_ 0 [] f3 with
  | none => none
  | some f4 =>
    let next_start_offset := ftell f4 % 2 ^ 64
    let data_size := ((next_start_offset + 2 ^ 64 - data_start_offset) % 2 ^ 64) % 2 ^ 32
    let f5 := fwrite (fseek f4 data_size_pos) (le32 data_size)
    let f6 := fwrite (fseek f5 next_start_offset_pos) (le64 next_start_offset)
    some (fseek f6 next_start_offset, tuple_count1)

/-- A spill run as a reader sees it. -/
structure SpillRun where
  data_size : Nat
  n_rec : Nat
  next_off : Nat
  records : List (List Byte × Nat × Nat)
  deriving DecidableEq, Repr

/-- Modelled from the spec: the reader of spill records is not among the sources. A record is
`u16 rec_len`, then `rec_len` bytes: the term bytes, a NUL, `u32 doc_id`, `u32 term_pos`. Reads
`n` records from offset `off`. -/
def parseRecords (f : FILE) : Nat → Nat → Option (List (List Byte × Nat × Nat))
  | 0, _ => some []
  | n + 1, off =>
    match f.read off 2 with
    | none => none
    | some lenBytes =>
      let rec_len := leVal lenBytes
      if rec_len < 9 then none
      else
        match f.read (off + 2) rec_len with
        | none => none
        | some body =>
          let term := body.take (rec_len - 9)
          if body.get? (rec_len - 9) = some 0 then
            match parseRecords f n (off + 2 + rec_len) with
            | none => none
            | some rest =>
              some ((term, leVal ((body.drop (rec_len - 8)).take 4),
                leVal ((body.drop (rec_len - 4)).take 4)) :: rest)
          else none

/-- Modelled from the spec: the reader of a spill run is not among the sources. The run at
offset `off` is `u32 data_size`, `u32 n_rec`, `u64 next_off`, then `n_rec` records. -/
def parseRun (f : FILE) (off : Nat) : Option SpillRun :=
  match f.read off 16 with
  | none => none
  | some hdr =>
    let n_rec := leVal ((hdr.drop 4).take 4)
    match parseRecords f n_rec (off + 16) with
    | none => none
    | some recs =>
      some { data_size := leVal (hdr.take 4), n_rec := n_rec,
             next_off := leVal ((hdr.drop 8).take 8), records := recs }

/-- The bytes of one spill record as the layout gives them: `u16 rec_len`, the term bytes, a
NUL, `u32 doc_id`, `u32 term_pos`. -/
def recordBytes (text : List Byte) (doc_id term_pos : Nat) : List Byte :=
  le16 (text.length + 4 + 4 + 1) ++ (text ++ [0] ++ (le32 doc_id ++ le32 term_pos))

/-- The bytes of the records of a run, the term text of a record being `txt` of its term
number. -/
def recordsBytes (txt : Nat → List Byte) (ps : List PosInfo) : List Byte :=
  ps.flatMap (fun p => recordBytes (txt p.term_num_) p.doc_id_ p.term_pos_)

/-- The file holds the byte string `bs` from offset `off` on. -/
def FILE.holds (f : FILE) (off : Nat) (bs : List Byte) : Prop :=
  ∀ k, k < bs.length → f.data (off + k) = bs.getD k 0

/-! ## The column index merger -/

/-- The option bitmask `optionflag_t`. -/
abbrev optionflag_t := Nat

/-- A document id `docid_t` (`u32`). -/
abbrev docid_t := Nat

/-- The postings of one term: documents with their positions. -/
abbrev PostingList := List (docid_t × List Nat)

/-- Modelled from the spec: `TermMeta` of module `term_meta` (not among the sources), with the
fields the spec lists. -/
structure TermMeta where
  doc_freq : Nat
  total_tf : Nat
  posting_offset : Nat
  posting_length : Nat
  deriving DecidableEq, Repr

/-- Modelled from the spec: a segment on disk, by what its files hold: the terms of its
dictionary in ascending order, each with the postings (segment-local document ids) its posting
file holds for it. `flag` is the option flag the segment was built with; no file records it. -/
structure Segment where
  flag : optionflag_t
  dict : List (List Byte × PostingList)
  deriving DecidableEq, Repr

/-- The segments of an index directory, by base name. -/
abbrev IndexDir := String → Segment

/-- Modelled from the spec: `SegmentTermPosting` (module `segment_term_posting`, not among the
sources): the postings one segment holds for the term being merged, with the base document id of
that segment. -/
structure SegmentTermPosting where
  base_doc_id : docid_t
  posting : PostingList
  deriving DecidableEq, Repr

/-- Modelled from the spec: the posting codec and `TermMetaDumper` are not among the sources.
`encodeMeta` is the byte image `TermMetaDumper::Dump` writes for a `TermMeta`, `encodePosting` the
posting block written for a consolidated posting list, both under a given option flag. -/
structure Codec where
  encodeMeta : optionflag_t → TermMeta → List Byte
  encodePosting : optionflag_t → PostingList → List Byte

/-- Insertion of a dictionary entry into the term-ordered groups of the queue. -/
def insertEntry (term : List Byte) (stp : SegmentTermPosting) :
    List (List Byte × List SegmentTermPosting) → List (List Byte × List SegmentTermPosting)
  | [] => [(term, [stp])]
  | g :: gs =>
    if strcmp term g.1 < 0 then (term, [stp]) :: g :: gs
    else if strcmp term g.1 = 0 then (g.1, g.2 ++ [stp]) :: gs
    else g :: insertEntry term stp gs

/-- Modelled from the spec: `SegmentTermPostingQueue` (module `segment_term_posting`, not among
the sources) is a priority queue over the term iterators of the input segments. It is
represented by what it still has to emit: the terms in ascending byte order, each with the
postings of every segment that holds the term, in the order the segments were given. -/
structure SegmentTermPostingQueue where
  pending : List (List Byte × List SegmentTermPosting)
  deriving DecidableEq, Repr

/-- Modelled from the spec: the constructor
`SegmentTermPostingQueue(index_dir, base_names, base_docids, flag)`: it opens every named segment
under the one flag it is given. -/
def SegmentTermPostingQueue.create (index_dir : IndexDir) (base_names : List String)
    (base_docids : List docid_t) (_flag : optionflag_t) : SegmentTermPostingQueue :=
  { pending :=
      ((base_names.zip base_docids).flatMap
        (fun nb => (index_dir nb.1).dict.map (fun e => (e.1, SegmentTermPosting.mk nb.2 e.2)))).foldl
        (fun gs e => insertEntry e.1 e.2 gs) [] }

/-- The data members and locals of `ColumnIndexMerger::Merge` that carry its output: the bytes
written to the `.dict` writer, to the posting file, the pairs inserted into the FST builder, and
the locals `term_meta` and `term_meta_offset`. -/
structure MergeState where
  dict_file : List Byte
  posting_file : List Byte
  fst_inserts : List (List Byte × Nat)
  term_meta : TermMeta
  term_meta_offset : Nat
  deriving DecidableEq, Repr

/-- Modelled from the spec: `PostingMerger::Merge` followed by `PostingMerger::Dump` (module
`posting_merger` is not among the sources): the postings of the segments are re-based by the
base document id of their segment and concatenated in the order given; the consolidated block is
appended to the posting file and described by the `TermMeta`. -/
def postingMergerDump (codec : Codec) (flag : optionflag_t) (posting_file : List Byte)
    (merging_term_postings : List SegmentTermPosting) : List Byte × TermMeta :=
  let merged : PostingList :=
    merging_term_postings.flatMap (fun sp => sp.posting.map (fun e => ((sp.base_doc_id + e.1) % 2 ^ 32, e.2)))
  let block := codec.encodePosting flag merged
  (posting_file ++ block,
   { doc_freq := merged.length, total_tf := (merged.map (fun e => e.2.length)).sum,
     posting_offset := posting_file.length, posting_length := block.length })

/-- The member `ColumnIndexMerger::MergeTerm`: the posting file and `term_meta` afterwards. -/
def MergeTerm (codec : Codec) (flag_ : optionflag_t) (st : MergeState)
    (merging_term_postings : List SegmentTermPosting) : MergeState :=
  let r := postingMergerDump codec flag_ st.posting_file merging_term_postings
  { st with posting_file := r.1, term_meta := r.2 }

/-- The `while (!term_posting_queue.Empty())` loop of `ColumnIndexMerger::Merge`, on what the
queue has pending: the queue is `Empty` when nothing is pending, `GetCurrentMerging` yields the
first pending term with its segment postings, `MoveToNextTerm` leaves the rest. -/
def mergeLoop (codec : Codec) (flag_ : optionflag_t) :
    List (List Byte × List SegmentTermPosting) → MergeState → MergeState
  | [], st => st
  | cur :: rest, st =>
    let st1 := MergeTerm codec flag_ st cur.2
    let st2 := { st1 with dict_file := st1.dict_file ++ codec.encodeMeta flag_ st1.term_meta }
    let st3 := { st2 with fst_inserts := st2.fst_inserts ++ [(cur.1, st2.term_meta_offset)] }
    let st4 := { st3 with term_meta_offset := st3.dict_file.length }
    mergeLoop codec flag_ rest st4

/-- The files of a merged segment: `.dict`, the posting file, and the `.dict.fst` as the pairs
inserted into its builder. -/
structure MergedSegment where
  dict : List Byte
  pos : List Byte
  fst : List (List Byte × Nat)
  deriving DecidableEq, Repr

/-- The error kinds of the spec a merge could raise. -/
inductive MergeError
  | FormatMismatch
  | IOFailure
  deriving DecidableEq, Repr

/-- The data members of `ColumnIndexMerger` set by its constructor. -/
structure ColumnIndexMerger where
  index_dir_ : IndexDir
  flag_ : optionflag_t

/-- The state `ColumnIndexMerger::Merge` starts its loop in: fresh writers, a fresh FST builder,
a default `TermMeta` and `term_meta_offset = 0`. -/
def MergeState.init : MergeState :=
  { dict_file := [], posting_file := [], fst_inserts := [],
    term_meta := { doc_freq := 0, total_tf := 0, posting_offset := 0, posting_length := 0 },
    term_meta_offset := 0 }

/-- The member `ColumnIndexMerger::Merge`. The body has no `throw` and compares no flags: it
always runs to the end and leaves the three files of the target segment. -/
def ColumnIndexMerger.Merge (codec : Codec) (m : ColumnIndexMerger) (base_names : List String)
    (base_docids : List docid_t) : Except MergeError MergedSegment :=
  let term_posting_queue :=
    SegmentTermPostingQueue.create m.index_dir_ base_names base_docids m.flag_
  let st := mergeLoop codec m.flag_ term_posting_queue.pending MergeState.init
  Except.ok { dict := st.dict_file, pos := st.posting_file, fst := st.fst_inserts }

/-! ## The column index reader -/

/-- Modelled from the spec: `SegmentPosting` (module `segment_posting`, not among the sources):
the postings of one segment for a term, with the base document id of the segment. -/
structure SegmentPosting where
  base_doc_id : docid_t
  posting : PostingList
  deriving DecidableEq, Repr

/-- The value a default-constructed `SegmentPosting` holds. -/
def SegmentPosting.default : SegmentPosting := { base_doc_id := 0, posting := [] }

/-- The arguments `CreateDiskSegmentReader` constructs a `DiskIndexSegmentReader` from. -/
structure DiskIndexSegmentReader where
  index_dir : String
  base_name : String
  base_doc_id : docid_t
  flag : optionflag_t
  deriving DecidableEq, Repr

/-- The data members of `ColumnIndexReader`. -/
structure ColumnIndexReader where
  flag_ : optionflag_t
  segment_readers_ : List DiskIndexSegmentReader
  base_doc_ids_ : List docid_t
  deriving DecidableEq, Repr

/-- The state the constructor `ColumnIndexReader::ColumnIndexReader` leaves. -/
def ColumnIndexReader.new : ColumnIndexReader :=
  { flag_ := 0, segment_readers_ := [], base_doc_ids_ := [] }

/-- The member `ColumnIndexReader::CreateDiskSegmentReader`. -/
def CreateDiskSegmentReader (index_dir base_name : String) (base_doc_id : docid_t)
    (flag : optionflag_t) : DiskIndexSegmentReader :=
  { index_dir := index_dir, base_name := base_name, base_doc_id := base_doc_id, flag := flag }

/-- The loop of `ColumnIndexReader::Open` from index `i` on; `none` when `base_docids[i]` is out
of range. -/
def openLoop (index_dir : String) (base_docids : List docid_t) (flag : optionflag_t) :
    List String → Nat → ColumnIndexReader → Option ColumnIndexReader
  | [], _, r => some r
  | base_name :: rest, i, r =>
    match base_docids.get? i with
    | none => none
    | some d =>
      openLoop index_dir base_docids flag rest (i + 1)
        { r with segment_readers_ :=
                   r.segment_readers_ ++ [CreateDiskSegmentReader index_dir base_name d flag],
                 base_doc_ids_ := r.base_doc_ids_ ++ [d] }

/-- The member `ColumnIndexReader::Open`. -/
def ColumnIndexReader.Open (r : ColumnIndexReader) (index_dir : String) (base_names : List String)
    (base_docids : List docid_t) (flag : optionflag_t) : Option ColumnIndexReader :=
  openLoop index_dir base_docids flag base_names 0 { r with flag_ := flag }

/-- The `PostingIterator` after `Init(seg_postings, state_pool_size)`; the memory it is placed
in is not represented. -/
structure PostingIterator where
  option : optionflag_t
  seg_postings : List SegmentPosting
  state_pool_size : Nat
  deriving DecidableEq, Repr

/-- The segment loop of `ColumnIndexReader::Lookup`. `getSegmentPosting` stands for
`DiskIndexSegmentReader::GetSegmentPosting(term, seg_posting, session_pool)`, which is not among
the sources: applied to a reader, the term and the default-constructed `seg_posting` it yields
the returned flag and the `seg_posting` afterwards. -/
def lookupLoop {T : Type}
    (getSegmentPosting : DiskIndexSegmentReader → T → SegmentPosting → Bool × SegmentPosting)
    (term : T) : List DiskIndexSegmentReader → List SegmentPosting → List SegmentPosting
  | [], seg_postings => seg_postings
  | reader :: rest, seg_postings =>
    let r := getSegmentPosting reader term SegmentPosting.default
    if r.1 then lookupLoop getSegmentPosting term rest (seg_postings ++ [r.2])
    else lookupLoop getSegmentPosting term rest seg_postings

/-- The member `ColumnIndexReader::Lookup`; `none` is the null pointer. -/
def ColumnIndexReader.Lookup {T : Type}
    (getSegmentPosting : DiskIndexSegmentReader → T → SegmentPosting → Bool × SegmentPosting)
    (r : ColumnIndexReader) (term : T) : Option PostingIterator :=
  let seg_postings := lookupLoop getSegmentPosting term r.segment_readers_ []
  if seg_postings.isEmpty then none
  else some { option := r.flag_, seg_postings := seg_postings, state_pool_size := 0 }

/-! ## Build cycles -/

/-- Staging of a batch: one call `InvertColumn(doc_id, val)` per document, in order. -/
def stageDocs {Val : Type} (analyze : Val → List Term) (inv : ColumnInverter)
    (docs : List (Nat × Val)) : ColumnInverter :=
  docs.foldl (fun s d => InvertColumn analyze s d.1 d.2) inv

/-- The tokens of a staged batch in staging order, each with the id of its document. -/
def stagedTokens {Val : Type} (analyze : Val → List Term) (docs : List (Nat × Val)) :
    List (Nat × Term) :=
  docs.flatMap (fun d => (analyze d.2).map (fun t => (d.1, t)))

/-- A build up to the sorted state: the batch is staged on `inv`, flushed by `Merge` with a
freshly constructed sibling that staged nothing, and sorted by `Sort`. The analyzer is given by
its output: a document is the token list the analyzer yields for it. -/
def buildCycle (inv : ColumnInverter) (docs : List (Nat × List Term)) : Option ColumnInverter :=
  match Merge (stageDocs id inv docs) ColumnInverter.new with
  | none => none
  | some r => r.1.Sort

/-! ## The layout of `terms_` -/

/-- The number of bytes `AddTerm` appends for a term of `n` bytes: 4 reserved bytes, the text
and its NUL, rounded up to a multiple of 4. -/
def storedSize (n : Nat) : Nat := n + 8 - n % 4

/-- The bytes a term occupies in `terms_`: the 4 reserved bytes holding `num`, the text, the
NUL, and zero bytes up to a multiple of 4. -/
def storedTerm (num : Nat) (t : List Byte) : List Byte :=
  le32 num ++ (t ++ 0 :: List.replicate (3 - t.length % 4) 0)

/-- The total number of bytes the given terms occupy in `terms_`. -/
def termsSize (ts : List (List Byte)) : Nat := (ts.map (fun t => storedSize t.length)).sum

/-- The term references of terms stored one after the other from byte offset `base` on. -/
def termRefs (base : Nat) : List (List Byte) → List Nat
  | [] => []
  | t :: ts => (base + 4) / 4 :: termRefs (base + storedSize t.length) ts

/-- The bytes of terms stored one after the other from byte offset `base` on, the reserved
bytes of the term with reference `r` holding `hdr r`. -/
def termsLayout (hdr : Nat → Nat) (base : Nat) : List (List Byte) → List Byte
  | [] => []
  | t :: ts => storedTerm (hdr ((base + 4) / 4)) t ++ termsLayout hdr (base + storedSize t.length) ts

/-- Big-endian value of the first `k` bytes of a text, a text shorter than `k` bytes being
continued with zero bytes. -/
def bePrefix : Nat → List Byte → Nat
  | 0, _ => 0
  | _ + 1, [] => 0
  | k + 1, x :: xs => x.val * 256 ^ k + bePrefix k xs

/-- Successive calls of `AddTerm`, one per term: the final state and the references returned. -/
def addTerms : ColumnInverter → List (List Byte) → Option (ColumnInverter × List Nat)
  | inv, [] => some (inv, [])
  | inv, t :: ts =>
    match AddTerm inv t with
    | none => none
    | some (inv1, r) =>
      match addTerms inv1 ts with
      | none => none
      | some (inv2, rs) => some (inv2, r :: rs)

/-- The postings the indexer holds after `GeneratePosting` on an indexer without postings: for
every term, in creation order, the documents and positions of its posting. -/
def generatedPostings (inv : ColumnInverter) : Option (List (List Byte × List (Nat × List Nat))) :=
  (GeneratePosting inv { postings := [] }).map
    (fun m => m.postings.map (fun e => (e.1, postingDocs e.2 [])))

/-- The analyzer output for the text `a a b`: `a` at 0, `a` at 1, `b` at 2. -/
def tokens_a_a_b : List Term := [⟨[97], 0⟩, ⟨[97], 1⟩, ⟨[98], 2⟩]

/-- An inverter as the constructor leaves it, but with a sentinel entry in `term_refs_`. -/
def ColumnInverter.withSentinel : ColumnInverter :=
  { ColumnInverter.new with term_refs_ := [0] }

/-! ## Descriptions used in the statements about the merger -/

/-- The `TermMeta` values `ColumnIndexMerger::Merge` dumps for the pending terms of the queue, in
order, when the posting file holds `posting_file` before the first of them is merged. -/
def mergedMetas (codec : Codec) (flag_ : optionflag_t) :
    List (List Byte × List SegmentTermPosting) → List Byte → List TermMeta
  | [], _ => []
  | cur :: rest, posting_file =>
    let r := postingMergerDump codec flag_ posting_file cur.2
    r.2 :: mergedMetas codec flag_ rest r.1

/-- A codec for examples: the fields of a `TermMeta` in the order and widths the spec lists
them, and a posting block as document id, position count and positions. -/
def plainCodec : Codec :=
  { encodeMeta := fun _ tm =>
      le32 tm.doc_freq ++ le64 tm.total_tf ++ le64 tm.posting_offset ++ le32 tm.posting_length,
    encodePosting := fun _ pl => pl.flatMap (fun e => le32 e.1 ++ le32 e.2.length ++ e.2.flatMap le32) }

/-- An index directory for examples: segment `s1` was built with option flag 1 and holds the
term `h` with a position, every other segment was built with option flag 0 and holds the term
`h` without positions. -/
def mixedDir : IndexDir := fun name =>
  if name = "s1" then { flag := 1, dict := [([104], [(0, [0])])] }
  else { flag := 0, dict := [([104], [(0, [])])] }

/-- The directory `mixedDir` with every segment flag set to 1. -/
def uniformDir : IndexDir := fun name => { mixedDir name with flag := 1 }

/-! ## Reuse, repeated merges and further examples -/

/-- The tokens a call `A.Merge(B)` turns into position records, in order: the staged tokens of `A`
when `A.positions_` is empty (the lazy flush of the first branch), then the staged tokens of
`B`. -/
def mergedTokens (self rhs : ColumnInverter) : List (Nat × Term) :=
  (if self.positions_.isEmpty then stagedTokens id self.terms_per_doc_ else [])
    ++ stagedTokens id rhs.terms_per_doc_

/-- Modelled from the spec: `MemoryPool::Reset` and `MemoryPool::Release` (module `memory_pool`,
not among the sources) rewind the bump pointer of the pool, or return its chunks. The vectors
`terms_`, `term_refs_` and `positions_` are members of the inverter and draw their storage from
the pool: a reset of the pool does not reach the vector objects, which keep their `begin` and
`end`, hence their sizes, while the elements lie in pool memory that must not be dereferenced
after `Reset` or `Release`, so that nothing is known about their values. `terms_per_doc_` is not
pool-backed. `inv.poolResetLeaves left` says that `left` is a state a pool reset can leave of
`inv`: the same sizes with any elements, and the same staging list. -/
def ColumnInverter.poolResetLeaves (inv left : ColumnInverter) : Prop :=
  left.terms_.length = inv.terms_.length
    ∧ left.term_refs_.length = inv.term_refs_.length
    ∧ left.positions_.length = inv.positions_.length
    ∧ left.terms_per_doc_ = inv.terms_per_doc_

/-- Whether `left` is a state a pool reset can leave of `inv` is decidable. -/
instance ColumnInverter.decidablePoolResetLeaves (inv left : ColumnInverter) :
    Decidable (inv.poolResetLeaves left) := by
  unfold ColumnInverter.poolResetLeaves
  infer_instance

/-- A complete build cycle on `inv` for a batch: staging, `Merge` with a sibling that staged
nothing, `Sort`, and `GeneratePosting` on an indexer without postings. Yields the inverter
afterwards (`GeneratePosting` assigns to none of its members) and the calls issued on the posting
of every term. -/
def commitCycle (inv : ColumnInverter) (docs : List (Nat × List Term)) :
    Option (ColumnInverter × List (List Byte × List PostingCall)) :=
  match buildCycle inv docs with
  | none => none
  | some s =>
    match GeneratePosting s { postings := [] } with
    | none => none
    | some m => some (s, m.postings)

/-- The batch of an example: one document, with the largest `u32` as its id, and the tokens `a`
at 0 and `b` at 1. -/
def batch_a_b : List (Nat × List Term) := [(4294967295, [⟨[97], 0⟩, ⟨[98], 1⟩])]

/-- The state `Merge` and `Sort` leave of `batch_a_b` on a freshly constructed inverter: the
token `a` keeps term number 0 and `b` has term number 1. -/
def sorted_a_b : ColumnInverter :=
  { terms_ := [0, 0, 0, 0, 97, 0, 0, 0, 1, 0, 0, 0, 98, 0, 0, 0],
    positions_ := [⟨0, 4294967295, 0⟩, ⟨1, 4294967295, 1⟩],
    term_refs_ := [1, 3], terms_per_doc_ := [] }

/-- A state with the sizes of `sorted_a_b` and other elements in `terms_` and `positions_`. -/
def leftover_a_b : ColumnInverter :=
  { terms_ := [0, 0, 0, 0, 97, 0, 0, 0, 0, 0, 0, 0, 98, 0, 0, 0],
    positions_ := [⟨3, 2, 5⟩, ⟨3, 1, 0⟩],
    term_refs_ := [1, 3], terms_per_doc_ := [] }

/-- The term texts of an example with two terms: `a` has term number 1, `bc` every other
number. -/
def texts_a_bc (term_num : Nat) : List Byte := if term_num = 1 then [97] else [98, 99]

/-! # Theorems -/

/-! ## The loop of `ColumnIndexMerger::Merge` -/

theorem mergeLoop_spec (codec : Codec) (flag_ : optionflag_t)
    (pending : List (List Byte × List SegmentTermPosting)) :
    ∀ st : MergeState, st.term_meta_offset = st.dict_file.length →
      (mergeLoop codec flag_ pending st).dict_file
          = st.dict_file ++ (mergedMetas codec flag_ pending st.posting_file).flatMap
              (codec.encodeMeta flag_)
      ∧ (mergeLoop codec flag_ pending st).fst_inserts
          = st.fst_inserts ++ List.zip (pending.map Prod.fst)
              ((List.range pending.length).map (fun k => st.dict_file.length +
                (((mergedMetas codec flag_ pending st.posting_file).take k).flatMap
                  (codec.encodeMeta flag_)).length)) := by
  induction pending with
  | nil => intro st _; simp [mergeLoop, mergedMetas]
  | cons cur rest ih =>
    intro st hst
    have h := ih
      { dict_file := st.dict_file ++
          codec.encodeMeta flag_ (postingMergerDump codec flag_ st.posting_file cur.2).2,
        posting_file := (postingMergerDump codec flag_ st.posting_file cur.2).1,
        fst_inserts := st.fst_inserts ++ [(cur.1, st.term_meta_offset)],
        term_meta := (postingMergerDump codec flag_ st.posting_file cur.2).2,
        term_meta_offset := (st.dict_file ++
          codec.encodeMeta flag_ (postingMergerDump codec flag_ st.posting_file cur.2).2).length }
      rfl
    simp only [mergeLoop, MergeTerm, mergedMetas]
    refine ⟨?_, ?_⟩
    · rw [h.1]; simp [List.append_assoc]
    · rw [h.2]
      simp only [List.length_cons, List.map_cons, List.range_succ_eq_map, List.take_zero,
        List.flatMap_nil, List.length_nil, Nat.add_zero, List.zip_cons_cons, List.map_map,
        List.append_assoc, List.singleton_append, hst]
      congr 3
      apply List.map_congr_left
      intro k _
      simp [Function.comp, Nat.add_assoc]

theorem mergedMetas_length (codec : Codec) (flag_ : optionflag_t)
    (pending : List (List Byte × List SegmentTermPosting)) :
    ∀ pf : List Byte, (mergedMetas codec flag_ pending pf).length = pending.length := by
  induction pending with
  | nil => intro pf; rfl
  | cons cur rest ih => intro pf; simp [mergedMetas, ih]

/-! ## The loops of `ColumnIndexReader` -/

theorem lookupLoop_eq {T : Type}
    (gsp : DiskIndexSegmentReader → T → SegmentPosting → Bool × SegmentPosting) (term : T)
    (readers : List DiskIndexSegmentReader) :
    ∀ acc : List SegmentPosting,
      lookupLoop gsp term readers acc
        = acc ++ (readers.filter (fun rd => (gsp rd term SegmentPosting.default).1)).map
            (fun rd => (gsp rd term SegmentPosting.default).2) := by
  induction readers with
  | nil => intro acc; simp [lookupLoop]
  | cons rd rest ih =>
    intro acc
    cases h : (gsp rd term SegmentPosting.default).1 <;>
      simp [lookupLoop, h, ih, List.filter_cons]

theorem openLoop_eq (index_dir : String) (base_docids : List docid_t) (flag : optionflag_t)
    (base_names : List String) :
    ∀ (i : Nat) (r : ColumnIndexReader), i + base_names.length ≤ base_docids.length →
      openLoop index_dir base_docids flag base_names i r
        = some { r with
            segment_readers_ := r.segment_readers_ ++
              List.zipWith (fun n d => CreateDiskSegmentReader index_dir n d flag) base_names
                (base_docids.drop i),
            base_doc_ids_ := r.base_doc_ids_ ++ (base_docids.drop i).take base_names.length } := by
  induction base_names with
  | nil => intro i r _; simp [openLoop]
  | cons n rest ih =>
    intro i r h
    simp only [List.length_cons] at h
    have hi : i < base_docids.length := by omega
    have hd : base_docids.drop i = base_docids[i] :: base_docids.drop (i + 1) :=
      List.drop_eq_getElem_cons hi
    have hg : base_docids.get? i = some base_docids[i] := by
      simp [List.get?_eq_getElem?, List.getElem?_eq_getElem hi]
    simp only [openLoop, hg]
    rw [ih (i + 1) _ (by omega), hd]
    simp only [List.zipWith_cons_cons, List.length_cons, List.take_succ_cons, List.append_assoc,
      List.singleton_append]

theorem lookup_none_iff {T : Type}
    (gsp : DiskIndexSegmentReader → T → SegmentPosting → Bool × SegmentPosting) (term : T)
    (r : ColumnIndexReader) :
    r.Lookup gsp term = none ↔
      ∀ rd ∈ r.segment_readers_, (gsp rd term SegmentPosting.default).1 = false := by
  simp only [ColumnIndexReader.Lookup, lookupLoop_eq, List.nil_append]
  constructor
  · intro h rd hrd
    by_contra hne
    have hmem : rd ∈ List.filter (fun rd => (gsp rd term SegmentPosting.default).1)
        r.segment_readers_ := by
      rw [List.mem_filter]
      exact ⟨hrd, by simpa using hne⟩
    split at h
    · rename_i hemp
      rw [List.isEmpty_iff] at hemp
      rw [List.map_eq_nil_iff.mp hemp] at hmem
      exact List.not_mem_nil _ hmem
    · cases h
  · intro h
    have hnil : List.filter (fun rd => (gsp rd term SegmentPosting.default).1)
        r.segment_readers_ = [] := by
      rw [List.filter_eq_nil_iff]
      intro rd hrd
      simp [h rd hrd]
    rw [hnil]
    rfl

theorem lookup_some_postings {T : Type}
    (gsp : DiskIndexSegmentReader → T → SegmentPosting → Bool × SegmentPosting) (term : T)
    (r : ColumnIndexReader) (it : PostingIterator) (hit : r.Lookup gsp term = some it) :
    it.seg_postings
      = (r.segment_readers_.filter (fun rd => (gsp rd term SegmentPosting.default).1)).map
          (fun rd => (gsp rd term SegmentPosting.default).2) := by
  simp only [ColumnIndexReader.Lookup, lookupLoop_eq, List.nil_append] at hit
  split at hit
  · cases hit
  · cases hit; rfl

/-! ## The term-posting queue -/

theorem create_congr (d1 d2 : IndexDir) (base_names : List String) (base_docids : List docid_t)
    (f1 f2 : optionflag_t) (hdict : ∀ name, (d1 name).dict = (d2 name).dict) :
    SegmentTermPostingQueue.create d1 base_names base_docids f1
      = SegmentTermPostingQueue.create d2 base_names base_docids f2 := by
  simp [SegmentTermPostingQueue.create, hdict]

/-! ## The layout of `terms_` after `AddTerm` and `Merge` -/

theorem and_mask4 (x : Nat) (hx : x < 2 ^ 32) : x &&& (2 ^ 32 - 4) = 4 * (x / 4) := by
  apply Nat.eq_of_testBit_eq
  intro i
  have h1 : (2 ^ 32 - 4 : Nat) = 2 ^ 2 * (2 ^ 30 - 1) := by norm_num
  have h2 : (4 : Nat) = 2 ^ 2 := by norm_num
  rw [Nat.testBit_and, h1, h2, Nat.testBit_mul_pow_two, Nat.testBit_mul_pow_two,
    Nat.testBit_two_pow_sub_one, ← Nat.shiftRight_eq_div_pow, Nat.testBit_shiftRight]
  by_cases hi : 2 ≤ i
  · by_cases hi2 : i < 32
    · have : i - 2 < 30 := by omega
      simp [hi, this, show 2 + (i - 2) = i by omega]
    · have hlt : x < 2 ^ i := lt_of_lt_of_le hx (Nat.pow_le_pow_right (by decide) (by omega))
      have hb : x.testBit i = false := Nat.testBit_lt_two_pow hlt
      simp [hi, hb, show 2 + (i - 2) = i by omega]
  · simp [hi]

theorem Align4_eq (x : Nat) (hx : x + 3 < 2 ^ 32) : Align 4 x = 4 * ((x + 3) / 4) := by
  unfold Align
  have e1 : (x + 4 - 1) % 2 ^ 32 = x + 3 := by
    omega
  have e2 : (2 ^ 32 - 4) % 2 ^ 32 = 2 ^ 32 - 4 := by norm_num
  rw [e1, e2, and_mask4 _ hx]

theorem le32_zero : le32 0 = List.replicate 4 0 := by decide

theorem storedTerm_length (num : Nat) (t : List Byte) :
    (storedTerm num t).length = storedSize t.length := by
  simp [storedTerm, le32, storedSize]; omega

theorem writeBytes_mid (a b c bs : List Byte) (off : Nat) (hoff : off = a.length)
    (h : bs.length = b.length) :
    writeBytes (a ++ b ++ c) off bs = some (a ++ bs ++ c) := by
  subst hoff
  unfold writeBytes
  rw [if_pos (by simp [h])]
  have e1 : (a ++ b ++ c).take a.length = a := by
    rw [List.append_assoc, List.take_left']; rfl
  have e2 : (a ++ b ++ c).drop (a.length + bs.length) = c := by
    rw [List.drop_left']; simp [h]
  rw [e1, e2]

theorem resizeBytes_grow (buf : List Byte) (n : Nat) (h : buf.length ≤ n) :
    resizeBytes buf n = buf ++ List.replicate (n - buf.length) 0 := by
  unfold resizeBytes
  rw [List.take_of_length_le h]

theorem AddTerm_eq (inv : ColumnInverter) (t : List Byte) (h4 : inv.terms_.length % 4 = 0)
    (hsz : inv.terms_.length + storedSize t.length < 2 ^ 32) :
    AddTerm inv t = some ({ inv with terms_ := inv.terms_ ++ storedTerm 0 t,
                                     term_refs_ := inv.term_refs_ ++ [(inv.terms_.length + 4) / 4] },
                          (inv.terms_.length + 4) / 4) := by
  unfold storedSize at hsz
  have hL : inv.terms_.length % 2 ^ 32 = inv.terms_.length := Nat.mod_eq_of_lt (by omega)
  have hU : (inv.terms_.length + 4 + t.length + 1) % 2 ^ 32 = inv.terms_.length + 4 + t.length + 1 :=
    Nat.mod_eq_of_lt (by omega)
  have hA : Align 4 (inv.terms_.length + 4 + t.length + 1)
      = inv.terms_.length + 4 + t.length + 1 + (3 - t.length % 4) := by
    rw [Align4_eq _ (by omega)]; omega
  have hP : (inv.terms_.length + 4 + t.length + 1 + (3 - t.length % 4) + 2 ^ 32
      - (inv.terms_.length + 4 + t.length + 1) + 1) % 2 ^ 32 = (3 - t.length % 4) + 1 := by
    omega
  have hR : ((inv.terms_.length + 4) % 2 ^ 32) >>> 2 = (inv.terms_.length + 4) / 4 := by
    rw [Nat.mod_eq_of_lt (by omega), Nat.shiftRight_eq_div_pow]
  have hres : resizeBytes inv.terms_
      (inv.terms_.length + 4 + t.length + 1 + (3 - t.length % 4))
      = inv.terms_ ++ List.replicate 4 0 ++
          (List.replicate t.length 0 ++ List.replicate ((3 - t.length % 4) + 1) 0) := by
    rw [resizeBytes_grow _ _ (by omega), List.append_assoc, ← List.replicate_add,
      ← List.replicate_add]
    congr 2
    omega
  have w1 := writeBytes_mid inv.terms_ (List.replicate 4 0)
    (List.replicate t.length 0 ++ List.replicate ((3 - t.length % 4) + 1) 0)
    (List.replicate 4 0) inv.terms_.length rfl rfl
  have w2 := writeBytes_mid (inv.terms_ ++ List.replicate 4 0) (List.replicate t.length 0)
    (List.replicate ((3 - t.length % 4) + 1) 0) t (inv.terms_.length + 4) (by simp) (by simp)
  have w3 := writeBytes_mid (inv.terms_ ++ List.replicate 4 0 ++ t)
    (List.replicate ((3 - t.length % 4) + 1) 0) [] (List.replicate ((3 - t.length % 4) + 1) 0)
    (inv.terms_.length + 4 + t.length) (by simp; omega) rfl
  simp only [List.append_nil] at w3
  simp only [List.append_assoc] at w1 w2 w3 hres
  simp only [AddTerm, hL, hU, hA, hP, hR, hres, w1, w2, w3]
  simp [storedTerm, le32_zero, List.replicate_succ]

theorem storedSize_mod (n : Nat) : storedSize n % 4 = 0 := by unfold storedSize; omega

theorem storedSize_ge (n : Nat) : n + 5 ≤ storedSize n := by unfold storedSize; omega

theorem termsSize_nil : termsSize [] = 0 := rfl

theorem termsSize_cons (t : List Byte) (ts : List (List Byte)) :
    termsSize (t :: ts) = storedSize t.length + termsSize ts := by
  simp [termsSize]

theorem termsSize_append (a b : List (List Byte)) :
    termsSize (a ++ b) = termsSize a + termsSize b := by
  simp [termsSize]

theorem termsSize_mod (ts : List (List Byte)) : termsSize ts % 4 = 0 := by
  induction ts with
  | nil => rfl
  | cons t ts ih => rw [termsSize_cons]; have := storedSize_mod t.length; omega

theorem termsLayout_length (hdr : Nat → Nat) (ts : List (List Byte)) :
    ∀ base, (termsLayout hdr base ts).length = termsSize ts := by
  induction ts with
  | nil => intro base; rfl
  | cons t ts ih =>
    intro base
    simp [termsLayout, termsSize_cons, storedTerm_length, ih]

theorem termsLayout_append (hdr : Nat → Nat) (a b : List (List Byte)) :
    ∀ base, termsLayout hdr base (a ++ b)
      = termsLayout hdr base a ++ termsLayout hdr (base + termsSize a) b := by
  induction a with
  | nil => intro base; simp [termsLayout, termsSize_nil]
  | cons t ts ih =>
    intro base
    simp [termsLayout, ih, termsSize_cons, Nat.add_assoc]

theorem termRefs_append (a b : List (List Byte)) :
    ∀ base, termRefs base (a ++ b) = termRefs base a ++ termRefs (base + termsSize a) b := by
  induction a with
  | nil => intro base; simp [termRefs, termsSize_nil]
  | cons t ts ih =>
    intro base
    simp [termRefs, ih, termsSize_cons, Nat.add_assoc]

theorem termRefs_length (ts : List (List Byte)) : ∀ base, (termRefs base ts).length = ts.length := by
  induction ts with
  | nil => intro base; rfl
  | cons t ts ih => intro base; simp [termRefs, ih]

theorem mergeTerms_eq (doc_id : Nat) (toks : List Term) :
    ∀ inv : ColumnInverter, inv.terms_.length % 4 = 0 →
      inv.terms_.length + termsSize (toks.map Term.text_) < 2 ^ 32 →
      mergeTerms doc_id toks inv
        = some { inv with
            terms_ := inv.terms_ ++
              termsLayout (fun _ => 0) inv.terms_.length (toks.map Term.text_),
            term_refs_ := inv.term_refs_ ++ termRefs inv.terms_.length (toks.map Term.text_),
            positions_ := inv.positions_ ++
              List.zipWith (fun r (tok : Term) => PosInfo.mk r doc_id tok.word_offset_)
                (termRefs inv.terms_.length (toks.map Term.text_)) toks } := by
  induction toks with
  | nil => intro inv _ _; simp [mergeTerms, termsLayout, termRefs]
  | cons tok rest ih =>
    intro inv h4 hsz
    simp only [List.map_cons, termsSize_cons] at hsz
    simp only [mergeTerms, AddTerm_eq inv tok.text_ h4 (by omega)]
    have hlen : (inv.terms_ ++ storedTerm 0 tok.text_).length
        = inv.terms_.length + storedSize tok.text_.length := by
      simp [storedTerm_length]
    rw [ih _ (by simp only [hlen]; have := storedSize_mod tok.text_.length; omega)
      (by simp only [hlen]; omega)]
    simp [termsLayout, termRefs, hlen, List.append_assoc]

theorem addTerms_eq (ts : List (List Byte)) :
    ∀ inv : ColumnInverter, inv.terms_.length % 4 = 0 →
      inv.terms_.length + termsSize ts < 2 ^ 32 →
      addTerms inv ts
        = some ({ inv with
            terms_ := inv.terms_ ++ termsLayout (fun _ => 0) inv.terms_.length ts,
            term_refs_ := inv.term_refs_ ++ termRefs inv.terms_.length ts },
          termRefs inv.terms_.length ts) := by
  induction ts with
  | nil => intro inv _ _; simp [addTerms, termsLayout, termRefs]
  | cons t rest ih =>
    intro inv h4 hsz
    simp only [termsSize_cons] at hsz
    simp only [addTerms, AddTerm_eq inv t h4 (by omega)]
    have hlen : (inv.terms_ ++ storedTerm 0 t).length = inv.terms_.length + storedSize t.length := by
      simp [storedTerm_length]
    rw [ih _ (by simp only [hlen]; have := storedSize_mod t.length; omega)
      (by simp only [hlen]; omega)]
    simp [termsLayout, termRefs, hlen, List.append_assoc]

theorem termRefs_bound (ts : List (List Byte)) :
    ∀ base r, base % 4 = 0 → r ∈ termRefs base ts →
      base + 4 ≤ 4 * r ∧ 4 * r < base + termsSize ts := by
  induction ts with
  | nil => intro base r _ h; simp [termRefs] at h
  | cons t ts ih =>
    intro base r hb h
    have hm := storedSize_mod t.length
    have hg := storedSize_ge t.length
    simp only [termRefs, List.mem_cons] at h
    rw [termsSize_cons]
    rcases h with h | h
    · subst h; omega
    · have := ih (base + storedSize t.length) r (by omega) h
      omega

theorem termsLayout_congr (ts : List (List Byte)) :
    ∀ (base : Nat) (h1 h2 : Nat → Nat), (∀ r ∈ termRefs base ts, h1 r = h2 r) →
      termsLayout h1 base ts = termsLayout h2 base ts := by
  induction ts with
  | nil => intro base h1 h2 _; rfl
  | cons t ts ih =>
    intro base h1 h2 h
    simp only [termsLayout]
    rw [h _ (by simp [termRefs]), ih _ h1 h2 (fun r hr => h r (by simp [termRefs, hr]))]

theorem layout_split (hdr : Nat → Nat) (ts : List (List Byte)) :
    ∀ base, base % 4 = 0 → ∀ r t, (r, t) ∈ List.zip (termRefs base ts) ts →
      ∃ a c, termsLayout hdr base ts = a ++ storedTerm (hdr r) t ++ c
        ∧ base + a.length + 4 = 4 * r := by
  induction ts with
  | nil => intro base _ r t h; simp [termRefs] at h
  | cons t0 ts ih =>
    intro base hb r t h
    simp only [termRefs, List.zip_cons_cons, List.mem_cons, Prod.mk.injEq] at h
    rcases h with ⟨hr, ht⟩ | h
    · subst hr; subst ht
      exact ⟨[], termsLayout hdr (base + storedSize t.length) ts, by simp [termsLayout], by
        simp; omega⟩
    · have hm := storedSize_mod t0.length
      obtain ⟨a, c, he, hl⟩ := ih (base + storedSize t0.length) (by omega) r t h
      refine ⟨storedTerm (hdr ((base + 4) / 4)) t0 ++ a, c, ?_, ?_⟩
      · simp [termsLayout, he, List.append_assoc]
      · simp [storedTerm_length]; omega

theorem layout_update (ts : List (List Byte)) :
    ∀ base (hdr : Nat → Nat), base % 4 = 0 → ∀ r, r ∈ termRefs base ts → ∀ v,
      ∃ a c, termsLayout hdr base ts = a ++ le32 (hdr r) ++ c
        ∧ termsLayout (Function.update hdr r v) base ts = a ++ le32 v ++ c
        ∧ base + a.length + 4 = 4 * r := by
  induction ts with
  | nil => intro base hdr _ r h; simp [termRefs] at h
  | cons t0 ts ih =>
    intro base hdr hb r h v
    have hm := storedSize_mod t0.length
    have hg := storedSize_ge t0.length
    simp only [termRefs, List.mem_cons] at h
    by_cases hr : r = (base + 4) / 4
    · subst hr
      refine ⟨[], (t0 ++ 0 :: List.replicate (3 - t0.length % 4) 0)
        ++ termsLayout hdr (base + storedSize t0.length) ts, ?_, ?_, ?_⟩
      · simp [termsLayout, storedTerm, List.append_assoc]
      · have hc : termsLayout (Function.update hdr ((base + 4) / 4) v)
            (base + storedSize t0.length) ts
            = termsLayout hdr (base + storedSize t0.length) ts := by
          apply termsLayout_congr
          intro r' hr'
          have := termRefs_bound ts _ r' (by omega) hr'
          rw [Function.update_noteq]
          omega
        simp only [termsLayout, storedTerm, hc, Function.update_same, List.append_assoc,
          List.nil_append]
      · simp; omega
    · have h' : r ∈ termRefs (base + storedSize t0.length) ts := by
        rcases h with h | h
        · exact absurd h hr
        · exact h
      obtain ⟨a, c, he, hu, hl⟩ := ih (base + storedSize t0.length) hdr (by omega) r h' v
      refine ⟨storedTerm (hdr ((base + 4) / 4)) t0 ++ a, c, ?_, ?_, ?_⟩
      · simp [termsLayout, he, List.append_assoc]
      · have hne : (base + 4) / 4 ≠ r := fun h => hr h.symm
        simp [termsLayout, hu, List.append_assoc, Function.update_noteq hne]
      · simp [storedTerm_length]; omega

theorem readBytes_mid (a b c : List Byte) (off n : Nat) (hoff : off = a.length)
    (hn : n = b.length) : readBytes (a ++ b ++ c) off n = some b := by
  subst hoff; subst hn
  unfold readBytes
  rw [if_pos (by simp)]
  congr 1
  rw [List.append_assoc, List.drop_left', List.take_left']
  · rfl
  · rfl

theorem cstrAt_mid (a t c : List Byte) (off : Nat) (hoff : off = a.length)
    (hnul : (0 : Byte) ∉ t) : cstrAt (a ++ t ++ 0 :: c) off = some t := by
  subst hoff
  unfold cstrAt
  have hd : (a ++ t ++ 0 :: c).drop a.length = t ++ 0 :: c := by
    rw [List.append_assoc, List.drop_left']; rfl
  rw [hd, if_pos (by simp)]
  congr 1
  rw [List.takeWhile_append_of_pos]
  · simp
  · intro b hb
    simp only [ne_eq, decide_not, Bool.not_eq_eq_eq_not, Bool.not_true, decide_eq_false_iff_not]
    intro h0
    exact hnul (h0 ▸ hb)

theorem GetTermFromRef_eq (r : Nat) (h : 4 * r < 2 ^ 32) : GetTermFromRef r = 4 * r := by
  unfold GetTermFromRef; omega

theorem termNumOffset_eq (r : Nat) (h1 : 4 ≤ 4 * r) (h : 4 * r < 2 ^ 32) :
    termNumOffset r = 4 * r - 4 := by
  unfold termNumOffset; omega

theorem stagedTokens_cons {Val : Type} (analyze : Val → List Term) (d : Nat × Val)
    (docs : List (Nat × Val)) :
    stagedTokens analyze (d :: docs)
      = (analyze d.2).map (fun t => (d.1, t)) ++ stagedTokens analyze docs := by
  simp [stagedTokens]

theorem mergeDocs_eq (docs : List (Nat × List Term)) :
    ∀ inv : ColumnInverter, inv.terms_.length % 4 = 0 →
      inv.terms_.length + termsSize ((stagedTokens id docs).map (fun dt => dt.2.text_)) < 2 ^ 32 →
      mergeDocs docs inv
        = some { inv with
            terms_ := inv.terms_ ++ termsLayout (fun _ => 0) inv.terms_.length
              ((stagedTokens id docs).map (fun dt => dt.2.text_)),
            term_refs_ := inv.term_refs_ ++ termRefs inv.terms_.length
              ((stagedTokens id docs).map (fun dt => dt.2.text_)),
            positions_ := inv.positions_ ++
              List.zipWith (fun r (dt : Nat × Term) => PosInfo.mk r dt.1 dt.2.word_offset_)
                (termRefs inv.terms_.length ((stagedTokens id docs).map (fun dt => dt.2.text_)))
                (stagedTokens id docs) } := by
  induction docs with
  | nil => intro inv _ _; simp [mergeDocs, stagedTokens, termsLayout, termRefs]
  | cons d rest ih =>
    intro inv h4 hsz
    have hmap : (stagedTokens id (d :: rest)).map (fun dt => dt.2.text_)
        = d.2.map Term.text_ ++ (stagedTokens id rest).map (fun dt => dt.2.text_) := by
      rw [stagedTokens_cons]; simp [Function.comp]
    rw [hmap] at hsz ⊢
    rw [termsSize_append] at hsz
    simp only [mergeDocs]
    rw [mergeTerms_eq d.1 d.2 inv h4 (by omega)]
    have hlen : (inv.terms_ ++ termsLayout (fun _ => 0) inv.terms_.length
        (d.2.map Term.text_)).length = inv.terms_.length + termsSize (d.2.map Term.text_) := by
      simp [termsLayout_length]
    have hmod := termsSize_mod (d.2.map Term.text_)
    simp only []
    rw [ih _ (by simp only [hlen]; omega) (by simp only [hlen]; omega)]
    simp only [hlen, termsLayout_append, termRefs_append, stagedTokens_cons, id]
    rw [List.zipWith_append _ _ _ _ _ (by simp [termRefs_length])]
    simp [List.append_assoc, List.zipWith_map_right]

theorem stageDocs_eq {Val : Type} (analyze : Val → List Term) (docs : List (Nat × Val)) :
    ∀ inv : ColumnInverter, stageDocs analyze inv docs
      = { inv with terms_per_doc_ :=
            inv.terms_per_doc_ ++ docs.map (fun d => (d.1, analyze d.2)) } := by
  induction docs with
  | nil => intro inv; simp [stageDocs]
  | cons d rest ih =>
    intro inv
    have := ih (InvertColumn analyze inv d.1 d.2)
    simp only [stageDocs, List.foldl_cons] at this ⊢
    rw [this]
    simp [InvertColumn, List.append_assoc]

theorem stagedTokens_map {Val : Type} (analyze : Val → List Term) (docs : List (Nat × Val)) :
    stagedTokens id (docs.map (fun d => (d.1, analyze d.2))) = stagedTokens analyze docs := by
  simp [stagedTokens, List.flatMap_map]

theorem forall₂_zipWith_of_mem {α β γ : Type} (f : α → β → γ) (R : γ → β → Prop) :
    ∀ (as : List α) (bs : List β), as.length = bs.length →
      (∀ a b, (a, b) ∈ List.zip as bs → R (f a b) b) →
      List.Forall₂ R (List.zipWith f as bs) bs := by
  intro as
  induction as with
  | nil =>
    intro bs hl _
    cases bs with
    | nil => exact List.Forall₂.nil
    | cons b bs => simp at hl
  | cons a as ih =>
    intro bs hl h
    cases bs with
    | nil => simp at hl
    | cons b bs =>
      simp only [List.zipWith_cons_cons]
      refine List.Forall₂.cons (h a b (by simp)) (ih bs (by simpa using hl) ?_)
      intro a' b' hm
      exact h a' b' (by simp [hm])

theorem layout_reads (hdr : Nat → Nat) (ts : List (List Byte)) (hsz : termsSize ts < 2 ^ 32)
    (r : Nat) (t : List Byte) (h : (r, t) ∈ List.zip (termRefs 0 ts) ts) :
    readBytes (termsLayout hdr 0 ts) (GetTermFromRef r) (t.length + 1) = some (t ++ [0])
    ∧ ((0 : Byte) ∉ t → cstrAt (termsLayout hdr 0 ts) (GetTermFromRef r) = some t)
    ∧ GetTermNum (termsLayout hdr 0 ts) r = some (hdr r % 2 ^ 32) := by
  obtain ⟨a, c, he, hl⟩ := layout_split hdr ts 0 rfl r t h
  have hb := termRefs_bound ts 0 r rfl (List.of_mem_zip h).1
  have hr : GetTermFromRef r = 4 * r := GetTermFromRef_eq r (by omega)
  rw [he, hr]
  refine ⟨?_, ?_, ?_⟩
  · have : a ++ storedTerm (hdr r) t ++ c
        = (a ++ le32 (hdr r)) ++ (t ++ [0]) ++ (List.replicate (3 - t.length % 4) 0 ++ c) := by
      simp [storedTerm, List.append_assoc]
    rw [this]
    exact readBytes_mid _ _ _ _ _ (by simp [le32]; omega) (by simp)
  · intro hnul
    have : a ++ storedTerm (hdr r) t ++ c
        = (a ++ le32 (hdr r)) ++ t ++ 0 :: (List.replicate (3 - t.length % 4) 0 ++ c) := by
      simp [storedTerm, List.append_assoc]
    rw [this]
    exact cstrAt_mid _ _ _ _ (by simp [le32]; omega) hnul
  · unfold GetTermNum
    rw [termNumOffset_eq r (by omega) (by omega)]
    have : a ++ storedTerm (hdr r) t ++ c
        = a ++ le32 (hdr r) ++ ((t ++ 0 :: List.replicate (3 - t.length % 4) 0) ++ c) := by
      simp [storedTerm, List.append_assoc]
    rw [this, readBytes_mid _ _ _ _ _ (by omega) (by simp [le32])]
    simp only [Option.map_some', Option.some.injEq]
    simp only [le32, leVal, byteOf]
    omega

theorem mem_zip_map_right {α β γ : Type} (g : β → γ) :
    ∀ (as : List α) (bs : List β) (a : α) (b : β),
      (a, b) ∈ List.zip as bs → (a, g b) ∈ List.zip as (bs.map g) := by
  intro as
  induction as with
  | nil => intro bs a b h; simp at h
  | cons a0 as ih =>
    intro bs a b h
    cases bs with
    | nil => simp at h
    | cons b0 bs =>
      simp only [List.zip_cons_cons, List.mem_cons, Prod.mk.injEq, List.map_cons] at h ⊢
      rcases h with ⟨h1, h2⟩ | h
      · exact Or.inl ⟨h1, by rw [h2]⟩
      · exact Or.inr (ih bs a b h)

theorem stagedTokens_append {Val : Type} (analyze : Val → List Term) (a b : List (Nat × Val)) :
    stagedTokens analyze (a ++ b) = stagedTokens analyze a ++ stagedTokens analyze b := by
  simp [stagedTokens]

theorem Merge_fresh_eq (dA dB : List (Nat × List Term)) (refs0 : List Nat)
    (hsz : termsSize ((stagedTokens id (dA ++ dB)).map (fun dt => dt.2.text_)) < 2 ^ 32) :
    Merge { terms_ := [], positions_ := [], term_refs_ := refs0, terms_per_doc_ := dA }
        { terms_ := [], positions_ := [], term_refs_ := [], terms_per_doc_ := dB }
      = some
        ({ terms_ := termsLayout (fun _ => 0) 0
             ((stagedTokens id (dA ++ dB)).map (fun dt => dt.2.text_)),
           positions_ :=
             List.zipWith (fun r (dt : Nat × Term) => PosInfo.mk r dt.1 dt.2.word_offset_)
               (termRefs 0 ((stagedTokens id (dA ++ dB)).map (fun dt => dt.2.text_)))
               (stagedTokens id (dA ++ dB)),
           term_refs_ := refs0 ++
             termRefs 0 ((stagedTokens id (dA ++ dB)).map (fun dt => dt.2.text_)),
           terms_per_doc_ := [] },
         { terms_ := [], positions_ := [], term_refs_ := [], terms_per_doc_ := [] }) := by
  rw [stagedTokens_append, List.map_append, termsSize_append] at hsz
  have hA := mergeDocs_eq dA
    { terms_ := [], positions_ := [], term_refs_ := refs0, terms_per_doc_ := dA } rfl
    (by simp only [List.length_nil]; omega)
  simp only [List.length_nil, List.nil_append] at hA
  have hmodA := termsSize_mod ((stagedTokens id dA).map (fun dt => dt.2.text_))
  have hB := mergeDocs_eq dB
    { terms_ := termsLayout (fun _ => 0) 0 ((stagedTokens id dA).map (fun dt => dt.2.text_)),
      positions_ :=
        List.zipWith (fun r (dt : Nat × Term) => PosInfo.mk r dt.1 dt.2.word_offset_)
          (termRefs 0 ((stagedTokens id dA).map (fun dt => dt.2.text_))) (stagedTokens id dA),
      term_refs_ := refs0 ++ termRefs 0 ((stagedTokens id dA).map (fun dt => dt.2.text_)),
      terms_per_doc_ := [] }
    (by simp only [termsLayout_length]; exact hmodA)
    (by simp only [termsLayout_length]; omega)
  simp only [termsLayout_length] at hB
  simp only [Merge, List.isEmpty_nil, if_true, hA, Option.map_some', hB]
  simp only [stagedTokens_append, List.map_append, termsLayout_append, termRefs_append,
    Nat.zero_add, List.append_assoc]
  rw [List.zipWith_append _ _ _ _ _ (by simp [termRefs_length])]

theorem Merge_eq (A B : ColumnInverter) (h4 : A.terms_.length % 4 = 0)
    (hsz : A.terms_.length + termsSize ((mergedTokens A B).map (fun dt => dt.2.text_)) < 2 ^ 32) :
    Merge A B
      = some
        ({ terms_ := A.terms_ ++ termsLayout (fun _ => 0) A.terms_.length
             ((mergedTokens A B).map (fun dt => dt.2.text_)),
           positions_ := A.positions_ ++
             List.zipWith (fun r (dt : Nat × Term) => PosInfo.mk r dt.1 dt.2.word_offset_)
               (termRefs A.terms_.length ((mergedTokens A B).map (fun dt => dt.2.text_)))
               (mergedTokens A B),
           term_refs_ := A.term_refs_ ++
             termRefs A.terms_.length ((mergedTokens A B).map (fun dt => dt.2.text_)),
           terms_per_doc_ := if A.positions_.isEmpty then [] else A.terms_per_doc_ },
         { B with terms_per_doc_ := [] }) := by
  by_cases hE : A.positions_.isEmpty = true
  · simp only [mergedTokens, hE, if_true] at hsz ⊢
    rw [List.map_append, termsSize_append] at hsz
    have hA := mergeDocs_eq A.terms_per_doc_ A h4 (by omega)
    have hmodA := termsSize_mod ((stagedTokens id A.terms_per_doc_).map (fun dt => dt.2.text_))
    have hB := mergeDocs_eq B.terms_per_doc_
      { terms_ := A.terms_ ++ termsLayout (fun _ => 0) A.terms_.length
          ((stagedTokens id A.terms_per_doc_).map (fun dt => dt.2.text_)),
        positions_ := A.positions_ ++
          List.zipWith (fun r (dt : Nat × Term) => PosInfo.mk r dt.1 dt.2.word_offset_)
            (termRefs A.terms_.length
              ((stagedTokens id A.terms_per_doc_).map (fun dt => dt.2.text_)))
            (stagedTokens id A.terms_per_doc_),
        term_refs_ := A.term_refs_ ++ termRefs A.terms_.length
          ((stagedTokens id A.terms_per_doc_).map (fun dt => dt.2.text_)),
        terms_per_doc_ := [] }
      (by simp only [List.length_append, termsLayout_length]; omega)
      (by simp only [List.length_append, termsLayout_length]; omega)
    simp only [List.length_append, termsLayout_length] at hB
    simp only [Merge, hE, if_true, hA, Option.map_some', hB]
    simp only [List.map_append, termsLayout_append, termRefs_append, List.append_assoc]
    rw [List.zipWith_append _ _ _ _ _ (by simp [termRefs_length])]
  · simp only [mergedTokens, hE, if_false, List.nil_append, Bool.false_eq_true] at hsz ⊢
    have hB := mergeDocs_eq B.terms_per_doc_ A h4 hsz
    simp only [Merge, hE, if_false, hB, Bool.false_eq_true]

theorem layout_reads_from (pre : List Byte) (hdr : Nat → Nat) (ts : List (List Byte))
    (h4 : pre.length % 4 = 0) (hsz : pre.length + termsSize ts < 2 ^ 32)
    (r : Nat) (t : List Byte) (h : (r, t) ∈ List.zip (termRefs pre.length ts) ts) :
    readBytes (pre ++ termsLayout hdr pre.length ts) (GetTermFromRef r) (t.length + 1)
        = some (t ++ [0])
    ∧ ((0 : Byte) ∉ t →
        cstrAt (pre ++ termsLayout hdr pre.length ts) (GetTermFromRef r) = some t) := by
  obtain ⟨a, c, he, hl⟩ := layout_split hdr ts pre.length h4 r t h
  have hb := termRefs_bound ts pre.length r h4 (List.of_mem_zip h).1
  have hr : GetTermFromRef r = 4 * r := GetTermFromRef_eq r (by omega)
  rw [he, hr]
  refine ⟨?_, ?_⟩
  · have : pre ++ (a ++ storedTerm (hdr r) t ++ c)
        = (pre ++ a ++ le32 (hdr r)) ++ (t ++ [0])
          ++ (List.replicate (3 - t.length % 4) 0 ++ c) := by
      simp [storedTerm, List.append_assoc]
    rw [this]
    exact readBytes_mid _ _ _ _ _ (by simp [le32]; omega) (by simp)
  · intro hnul
    have : pre ++ (a ++ storedTerm (hdr r) t ++ c)
        = (pre ++ a ++ le32 (hdr r)) ++ t ++ 0 :: (List.replicate (3 - t.length % 4) 0 ++ c) := by
      simp [storedTerm, List.append_assoc]
    rw [this]
    exact cstrAt_mid _ _ _ _ (by simp [le32]; omega) hnul

/-! ## Order properties of `strcmp` and of the four-byte prefix -/

theorem strcmp_self (a : List Byte) : strcmp a a = 0 := by
  induction a with
  | nil => rfl
  | cons x xs ih => simp [strcmp, ih]

theorem strcmp_eq_zero : ∀ a b : List Byte, strcmp a b = 0 → a = b := by
  intro a
  induction a with
  | nil => intro b h; cases b with
    | nil => rfl
    | cons y ys => simp [strcmp] at h
  | cons x xs ih =>
    intro b h
    cases b with
    | nil => simp [strcmp] at h
    | cons y ys =>
      simp only [strcmp] at h
      by_cases h1 : x < y
      · rw [if_pos h1] at h; omega
      · by_cases h2 : y < x
        · rw [if_neg h1, if_pos h2] at h; omega
        · rw [if_neg h1, if_neg h2] at h
          have hxy : x = y := le_antisymm (not_lt.mp h2) (not_lt.mp h1)
          rw [hxy, ih ys h]

theorem strcmp_swap : ∀ a b : List Byte, strcmp b a = - strcmp a b := by
  intro a
  induction a with
  | nil => intro b; cases b <;> simp [strcmp]
  | cons x xs ih =>
    intro b
    cases b with
    | nil => simp [strcmp]
    | cons y ys =>
      simp only [strcmp]
      split_ifs with h1 h2 h3
      · exact absurd h1 (not_lt.mpr (le_of_lt h2))
      · rfl
      · rfl
      · exact ih ys

theorem strcmp_trans : ∀ a b c : List Byte, strcmp a b ≤ 0 → strcmp b c ≤ 0 →
    strcmp a c ≤ 0 ∧ (strcmp a b < 0 ∨ strcmp b c < 0 → strcmp a c < 0) := by
  intro a
  induction a with
  | nil =>
    intro b c hab hbc
    cases b with
    | nil => cases c <;> simp [strcmp]
    | cons y ys =>
      cases c with
      | nil => simp [strcmp] at hbc
      | cons z zs => simp [strcmp]
  | cons x xs ih =>
    intro b c hab hbc
    cases b with
    | nil => simp [strcmp] at hab
    | cons y ys =>
      cases c with
      | nil => simp [strcmp] at hbc
      | cons z zs =>
        simp only [strcmp] at hab hbc ⊢
        by_cases hxy : x < y
        · have hyz : y ≤ z := by
            by_contra hc
            rw [if_neg (not_lt.mpr (le_of_lt (not_le.mp hc))), if_pos (not_le.mp hc)] at hbc
            omega
          simp [lt_of_lt_of_le hxy hyz]
        · rw [if_neg hxy] at hab
          have hyx : ¬ y < x := by
            intro hc; rw [if_pos hc] at hab; omega
          rw [if_neg hyx] at hab
          have hxeq : x = y := le_antisymm (not_lt.mp hyx) (not_lt.mp hxy)
          subst hxeq
          by_cases hxz : x < z
          · simp [hxz]
          · have hzx : ¬ z < x := by
              intro hc; rw [if_neg hxz, if_pos hc] at hbc; omega
            simp only [hxz, hzx, hxy, if_false] at hbc ⊢
            exact ih ys zs hab hbc

theorem strcmp_le_trans (a b c : List Byte) (h1 : strcmp a b ≤ 0) (h2 : strcmp b c ≤ 0) :
    strcmp a c ≤ 0 := (strcmp_trans a b c h1 h2).1

theorem strcmp_le_lt_trans (a b c : List Byte) (h1 : strcmp a b ≤ 0) (h2 : strcmp b c < 0) :
    strcmp a c < 0 := (strcmp_trans a b c h1 (le_of_lt h2)).2 (Or.inr h2)

theorem bePrefix_lt : ∀ (k : Nat) (t : List Byte), bePrefix k t < 256 ^ k := by
  intro k
  induction k with
  | zero => intro t; simp [bePrefix]
  | succ k ih =>
    intro t
    cases t with
    | nil => simp [bePrefix]
    | cons x xs =>
      simp only [bePrefix]
      have h1 := ih xs
      have h2 : x.val * 256 ^ k ≤ 255 * 256 ^ k := Nat.mul_le_mul_right _ (by omega)
      rw [pow_succ]
      omega

theorem bePrefix_lt_strcmp : ∀ (k : Nat) (a b : List Byte),
    bePrefix k a < bePrefix k b → strcmp a b < 0 := by
  intro k
  induction k with
  | zero => intro a b h; simp [bePrefix] at h
  | succ k ih =>
    intro a b h
    cases a with
    | nil =>
      cases b with
      | nil => simp [bePrefix] at h
      | cons y ys => simp [strcmp]
    | cons x xs =>
      cases b with
      | nil => simp [bePrefix] at h
      | cons y ys =>
        simp only [bePrefix] at h
        simp only [strcmp]
        have hx := bePrefix_lt k xs
        have hy := bePrefix_lt k ys
        by_cases hxy : x < y
        · simp [hxy]
        · have hle : y.val ≤ x.val := not_lt.mp hxy
          by_cases hyx : y < x
          · exfalso
            have h3 : (y.val + 1) * 256 ^ k ≤ x.val * 256 ^ k :=
              Nat.mul_le_mul_right _ hyx
            rw [Nat.add_mul] at h3
            omega
          · have hxeq : x = y := le_antisymm (not_lt.mp hyx) (not_lt.mp hxy)
            subst hxeq
            simp only [lt_self_iff_false, if_false]
            exact ih xs ys (by omega)

theorem beVal_stored_first_four (t pad : List Byte) (hpad : ∀ b ∈ pad, b = 0)
    (hlen : 4 ≤ (t ++ 0 :: pad).length) :
    beVal ((t ++ 0 :: pad).take 4) = bePrefix 4 t := by
  rcases t with _ | ⟨a, _ | ⟨b, _ | ⟨c, _ | ⟨d, rest⟩⟩⟩⟩
  · rcases pad with _ | ⟨p1, _ | ⟨p2, _ | ⟨p3, rest⟩⟩⟩
    · simp at hlen
    · simp at hlen
    · simp at hlen
    · have h1 := hpad p1 (by simp)
      have h2 := hpad p2 (by simp)
      have h3 := hpad p3 (by simp)
      subst h1 h2 h3
      simp [beVal, bePrefix]
  · rcases pad with _ | ⟨p1, _ | ⟨p2, rest⟩⟩
    · simp at hlen
    · simp at hlen
    · have h1 := hpad p1 (by simp)
      have h2 := hpad p2 (by simp)
      subst h1 h2
      (simp [beVal, bePrefix]; omega)
  · rcases pad with _ | ⟨p1, rest⟩
    · simp at hlen
    · have h1 := hpad p1 (by simp)
      subst h1
      (simp [beVal, bePrefix]; omega)
  · (simp [beVal, bePrefix]; omega)
  · (simp [beVal, bePrefix]; omega)

theorem packedKey_eq (p r : Nat) (hp : p < 2 ^ 32) (hr : r < 2 ^ 32) :
    packedKey p r = 2 ^ 32 * p + r := by
  unfold packedKey
  rw [Nat.shiftLeft_eq, Nat.mod_eq_of_lt (by omega), Nat.mul_comm, Nat.mul_add_lt_is_or hr]

theorem packedKey_radix (p r : Nat) (hp : p < 2 ^ 32) (hr : r < 2 ^ 32) :
    TermRefRadix (packedKey p r) = p := by
  rw [packedKey_eq p r hp hr]
  unfold TermRefRadix
  rw [Nat.shiftRight_eq_div_pow]
  omega

theorem packedKey_low (p r : Nat) (hp : p < 2 ^ 32) (hr : r < 2 ^ 32) :
    packedKey p r &&& 0xffffffff = r ∧ packedKey p r % 2 ^ 32 = r := by
  rw [packedKey_eq p r hp hr]
  have h : (0xffffffff : Nat) = 2 ^ 32 - 1 := by norm_num
  rw [h, Nat.and_pow_two_sub_one_eq_mod]
  omega

theorem beVal_lt (bs : List Byte) : beVal bs < 256 ^ bs.length := by
  unfold beVal
  have : ∀ (l : List Byte) (acc : Nat),
      List.foldl (fun acc (b : Byte) => acc * 256 + b.val) acc l < (acc + 1) * 256 ^ l.length := by
    intro l
    induction l with
    | nil => intro acc; simp
    | cons x xs ih =>
      intro acc
      simp only [List.foldl_cons, List.length_cons]
      have h1 := ih (acc * 256 + x.val)
      have hx : x.val < 256 := x.isLt
      have h2 : (acc * 256 + x.val + 1) * 256 ^ xs.length ≤ ((acc + 1) * 256) * 256 ^ xs.length :=
        Nat.mul_le_mul_right _ (by omega)
      rw [pow_succ]
      calc _ < (acc * 256 + x.val + 1) * 256 ^ xs.length := h1
        _ ≤ ((acc + 1) * 256) * 256 ^ xs.length := h2
        _ = (acc + 1) * (256 ^ xs.length * 256) := by ring
  simpa using this bs 0

/-! ## Reading and updating the laid-out buffer -/

theorem mapOpt_eq_map {α β : Type} (f : α → Option β) (g : α → β) :
    ∀ l : List α, (∀ x ∈ l, f x = some (g x)) → mapOpt f l = some (l.map g) := by
  intro l
  induction l with
  | nil => intro _; rfl
  | cons x xs ih =>
    intro h
    simp only [mapOpt, h x (by simp), ih (fun y hy => h y (by simp [hy])), List.map_cons]

theorem mem_termRefs_zip (ts : List (List Byte)) :
    ∀ base r, r ∈ termRefs base ts → ∃ t, (r, t) ∈ List.zip (termRefs base ts) ts := by
  induction ts with
  | nil => intro base r h; simp [termRefs] at h
  | cons t0 ts ih =>
    intro base r h
    simp only [termRefs, List.mem_cons] at h
    rcases h with h | h
    · exact ⟨t0, by simp [termRefs, h]⟩
    · obtain ⟨t, ht⟩ := ih _ r h
      exact ⟨t, by simp [termRefs, ht]⟩

theorem mem_zip_termRefs (ts : List (List Byte)) :
    ∀ base t, t ∈ ts → ∃ r, (r, t) ∈ List.zip (termRefs base ts) ts := by
  induction ts with
  | nil => intro base t h; simp at h
  | cons t0 ts ih =>
    intro base t h
    simp only [List.mem_cons] at h
    rcases h with h | h
    · exact ⟨(base + 4) / 4, by simp [termRefs, h]⟩
    · obtain ⟨r, hr⟩ := ih (base + storedSize t0.length) t h
      exact ⟨r, by simp [termRefs, hr]⟩

theorem termRefs_nodup (ts : List (List Byte)) :
    ∀ base, base % 4 = 0 → (termRefs base ts).Nodup := by
  induction ts with
  | nil => intro base _; simp [termRefs]
  | cons t0 ts ih =>
    intro base hb
    have hm := storedSize_mod t0.length
    have hg := storedSize_ge t0.length
    simp only [termRefs, List.nodup_cons]
    refine ⟨?_, ih _ (by omega)⟩
    intro hmem
    have := termRefs_bound ts _ _ (by omega) hmem
    omega

theorem GetTerm_layout (hdr : Nat → Nat) (ts : List (List Byte)) (hsz : termsSize ts < 2 ^ 32)
    (hnul : ∀ t ∈ ts, (0 : Byte) ∉ t) (r : Nat) (t : List Byte)
    (h : (r, t) ∈ List.zip (termRefs 0 ts) ts) :
    cstrAt (termsLayout hdr 0 ts) (GetTermFromRef r) = some t
    ∧ GetTerm (termsLayout hdr 0 ts) r = t := by
  have h1 := (layout_reads hdr ts hsz r t h).2.1 (hnul t (List.of_mem_zip h).2)
  exact ⟨h1, by simp [GetTerm, h1]⟩

theorem firstFour_layout (hdr : Nat → Nat) (ts : List (List Byte)) (hsz : termsSize ts < 2 ^ 32)
    (r : Nat) (t : List Byte) (h : (r, t) ∈ List.zip (termRefs 0 ts) ts) :
    firstFour (termsLayout hdr 0 ts) r = some (bePrefix 4 t) := by
  obtain ⟨a, c, he, hl⟩ := layout_split hdr ts 0 rfl r t h
  have hb := termRefs_bound ts 0 r rfl (List.of_mem_zip h).1
  have hr : GetTermFromRef r = 4 * r := GetTermFromRef_eq r (by omega)
  have hbody : 4 ≤ (t ++ 0 :: List.replicate (3 - t.length % 4) 0).length := by
    simp; omega
  have hsplit : a ++ storedTerm (hdr r) t ++ c
      = (a ++ le32 (hdr r)) ++ (t ++ 0 :: List.replicate (3 - t.length % 4) 0).take 4
        ++ ((t ++ 0 :: List.replicate (3 - t.length % 4) 0).drop 4 ++ c) := by
    have hb2 : ∀ body : List Byte, a ++ (le32 (hdr r) ++ body) ++ c
        = (a ++ le32 (hdr r)) ++ body.take 4 ++ (body.drop 4 ++ c) := by
      intro body
      conv_lhs => rw [← List.take_append_drop 4 body]
      simp only [List.append_assoc]
    exact hb2 _
  unfold firstFour
  rw [he, hr, hsplit, readBytes_mid _ _ _ _ _ (by simp [le32]; omega)
    (by rw [List.length_take]; omega)]
  simp only [Option.map_some']
  rw [beVal_stored_first_four t _ (fun b hb => List.eq_of_mem_replicate hb) hbody]

theorem UpdateTermNum_layout (hdr : Nat → Nat) (ts : List (List Byte))
    (hsz : termsSize ts < 2 ^ 32) (r v : Nat) (h : r ∈ termRefs 0 ts) :
    UpdateTermNum (termsLayout hdr 0 ts) r v
      = some (termsLayout (Function.update hdr r v) 0 ts) := by
  obtain ⟨a, c, he, hu, hl⟩ := layout_update ts 0 hdr rfl r h v
  have hb := termRefs_bound ts 0 r rfl h
  unfold UpdateTermNum
  rw [termNumOffset_eq r (by omega) (by omega), he, hu]
  exact writeBytes_mid _ _ _ _ _ (by omega) (by simp [le32])

/-! ## The scan of `SortTerms` -/

theorem set_after_reps (sentinel : Nat) (reps junk todo : List Nat) (r : Nat) :
    (sentinel :: (reps ++ junk ++ r :: todo)).set (reps.length + 1) r
      = sentinel :: ((reps ++ [r]) ++ (junk ++ [r]).tail ++ todo) := by
  cases junk with
  | nil => simp [List.set_append]
  | cons j0 js => simp [List.set_append]

theorem get_after_done (sentinel : Nat) (reps junk todo : List Nat) (r d : Nat)
    (hd : reps.length + junk.length = d) :
    (sentinel :: (reps ++ junk ++ r :: todo)).get? (d + 1) = some r := by
  subst hd
  rw [List.get?_eq_getElem?, List.getElem?_cons_succ, List.getElem?_append_right (by simp)]
  simp

theorem sortTermsLoop_spec (sentinel : Nat) (ts : List (List Byte)) (hsz : termsSize ts < 2 ^ 32)
    (hnul : ∀ t ∈ ts, (0 : Byte) ∉ t) (txt : Nat → List Byte)
    (htxt : ∀ r t, (r, t) ∈ List.zip (termRefs 0 ts) ts → txt r = t) :
    ∀ (todo done reps junk : List Nat) (hdr : Nat → Nat) (last : Nat),
      reps.getLast? = some last →
      (∀ r ∈ done ++ todo, r ∈ termRefs 0 ts) →
      (done ++ todo).Nodup →
      (done ++ todo).Pairwise (fun a b => strcmp (txt a) (txt b) ≤ 0) →
      reps.length + junk.length = done.length →
      (∀ r ∈ reps, r ∈ done) →
      reps.Pairwise (fun a b => strcmp (txt a) (txt b) < 0) →
      (∀ r ∈ reps, strcmp (txt r) (txt last) ≤ 0) →
      (∀ r ∈ done, ∃ j rep, hdr r = j + 1 ∧ reps.get? j = some rep ∧ txt rep = txt r) →
      ∃ (hdr1 : Nat → Nat) (reps1 junk1 : List Nat),
        sortTermsLoop todo.length (termsLayout hdr 0 ts) (sentinel :: (reps ++ junk ++ todo))
            reps.length (GetTermFromRef last) (done.length + 1)
          = some (termsLayout hdr1 0 ts, sentinel :: (reps1 ++ junk1), reps1.length)
        ∧ reps1 ≠ []
        ∧ reps1.length ≤ (done ++ todo).length
        ∧ (∀ r ∈ reps1, r ∈ done ++ todo)
        ∧ reps1.Pairwise (fun a b => strcmp (txt a) (txt b) < 0)
        ∧ (∀ r ∈ done ++ todo,
            ∃ j rep, hdr1 r = j + 1 ∧ reps1.get? j = some rep ∧ txt rep = txt r)
        ∧ (∀ r, r ∉ done ++ todo → hdr1 r = hdr r) := by
  intro todo
  induction todo with
  | nil =>
    intro done reps junk hdr last hlast _ _ _ hlen hsub hpw _ hhdr
    refine ⟨hdr, reps, junk, ?_, ?_, ?_, ?_, hpw, ?_, fun _ _ => rfl⟩
    · simp [sortTermsLoop]
    · intro h; rw [h] at hlast; simp at hlast
    · simp; omega
    · intro r hr; simpa using hsub r hr
    · intro r hr; exact hhdr r (by simpa using hr)
  | cons r todo ih =>
    intro done reps junk hdr last hlast hrefs hnd hsorted hlen hsub hpw hle hhdr
    have hlast_mem : last ∈ reps := List.mem_of_getLast?_eq_some hlast
    have hr_refs : r ∈ termRefs 0 ts := hrefs r (by simp)
    have hlast_refs : last ∈ termRefs 0 ts := hrefs last (by simp [hsub last hlast_mem])
    obtain ⟨tr, htr⟩ := mem_termRefs_zip ts 0 r hr_refs
    obtain ⟨tl, htl⟩ := mem_termRefs_zip ts 0 last hlast_refs
    have hc_r := (GetTerm_layout hdr ts hsz hnul r tr htr).1
    have hc_l := (GetTerm_layout hdr ts hsz hnul last tl htl).1
    rw [← htxt r tr htr] at hc_r
    rw [← htxt last tl htl] at hc_l
    have hget := get_after_done sentinel reps junk todo r done.length hlen
    have hr_notin : r ∉ done := by
      intro hmem
      have := List.nodup_append.mp hnd
      exact this.2.2 hmem (by simp)
    have hdone_le : ∀ x ∈ done, strcmp (txt x) (txt r) ≤ 0 := by
      intro x hx
      have := List.pairwise_append.mp hsorted
      exact this.2.2 x hx r (by simp)
    have hperm_eq : done ++ r :: todo = (done ++ [r]) ++ todo := by simp
    simp only [sortTermsLoop, List.length_cons, hget, hc_r, hc_l]
    by_cases hlt : strcmp (txt last) (txt r) < 0
    · rw [if_pos hlt, if_pos (by simp),
        UpdateTermNum_layout hdr ts hsz r (reps.length + 1) hr_refs]
      simp only []
      rw [set_after_reps]
      have hih := ih (done ++ [r]) (reps ++ [r]) (junk ++ [r]).tail
        (Function.update hdr r (reps.length + 1)) r (by simp)
        (by rw [← hperm_eq]; exact hrefs) (by rw [← hperm_eq]; exact hnd)
        (by rw [← hperm_eq]; exact hsorted)
        (by simp; omega)
        (by
          intro x hx
          simp only [List.mem_append, List.mem_singleton] at hx ⊢
          rcases hx with hx | hx
          · exact Or.inl (hsub x hx)
          · exact Or.inr hx)
        (by
          rw [List.pairwise_append]
          refine ⟨hpw, by simp, ?_⟩
          intro a ha b hb
          simp only [List.mem_singleton] at hb
          subst hb
          exact strcmp_le_lt_trans _ _ _ (hle a ha) hlt)
        (by
          intro x hx
          simp only [List.mem_append, List.mem_singleton] at hx
          rcases hx with hx | hx
          · exact le_of_lt (strcmp_le_lt_trans _ _ _ (hle x hx) hlt)
          · subst hx; rw [strcmp_self])
        (by
          intro x hx
          simp only [List.mem_append, List.mem_singleton] at hx
          rcases hx with hx | hx
          · obtain ⟨j, rep, h1, h2, h3⟩ := hhdr x hx
            have hne : x ≠ r := fun h => hr_notin (h ▸ hx)
            refine ⟨j, rep, ?_, ?_, h3⟩
            · rw [Function.update_noteq hne]; exact h1
            · rw [List.get?_eq_getElem?] at h2 ⊢
              rw [List.getElem?_append_left (by
                have := (List.getElem?_eq_some_iff.mp h2).1; exact this)]
              exact h2
          · subst hx
            refine ⟨reps.length, x, by simp, ?_, rfl⟩
            rw [List.get?_eq_getElem?]
            simp)
      simp only [List.length_append, List.length_singleton] at hih
      obtain ⟨hdr1, reps1, junk1, h1, h2, h3, h4, h5, h6, h7⟩ := hih
      refine ⟨hdr1, reps1, junk1, h1, h2, ?_, ?_, h5, ?_, ?_⟩
      · simp at h3 ⊢; omega
      · rw [hperm_eq]; exact h4
      · rw [hperm_eq]; exact h6
      · intro x hx
        rw [hperm_eq] at hx
        rw [h7 x hx, Function.update_noteq]
        intro hxr
        exact hx (by simp [hxr])
    · have heq : txt last = txt r := by
        have h1 := hdone_le last (hsub last hlast_mem)
        exact strcmp_eq_zero _ _ (by omega)
      rw [if_neg hlt, UpdateTermNum_layout hdr ts hsz r reps.length hr_refs]
      simp only []
      have harr : sentinel :: (reps ++ junk ++ r :: todo)
          = sentinel :: (reps ++ (junk ++ [r]) ++ todo) := by simp
      rw [harr]
      have hih := ih (done ++ [r]) reps (junk ++ [r])
        (Function.update hdr r reps.length) last hlast
        (by rw [← hperm_eq]; exact hrefs) (by rw [← hperm_eq]; exact hnd)
        (by rw [← hperm_eq]; exact hsorted)
        (by simp; omega)
        (by intro x hx; simp [hsub x hx])
        hpw hle
        (by
          intro x hx
          simp only [List.mem_append, List.mem_singleton] at hx
          rcases hx with hx | hx
          · obtain ⟨j, rep, h1, h2, h3⟩ := hhdr x hx
            have hne : x ≠ r := fun h => hr_notin (h ▸ hx)
            exact ⟨j, rep, by rw [Function.update_noteq hne]; exact h1, h2, h3⟩
          · subst hx
            have hpos : 0 < reps.length := List.length_pos_of_mem hlast_mem
            refine ⟨reps.length - 1, last, by simp; omega, ?_, heq⟩
            rw [List.get?_eq_getElem?, ← hlast, List.getLast?_eq_getElem?])
      simp only [List.length_append, List.length_singleton] at hih
      obtain ⟨hdr1, reps1, junk1, h1, h2, h3, h4, h5, h6, h7⟩ := hih
      refine ⟨hdr1, reps1, junk1, h1, h2, ?_, ?_, h5, ?_, ?_⟩
      · simp at h3 ⊢; omega
      · rw [hperm_eq]; exact h4
      · rw [hperm_eq]; exact h6
      · intro x hx
        rw [hperm_eq] at hx
        rw [h7 x hx, Function.update_noteq]
        intro hxr
        exact hx (by simp [hxr])

theorem radixLe_iff (terms : List Byte) (a b : Nat) :
    radixLe TermRefRadix (CompareTermRef terms) a b = true ↔
      TermRefRadix a < TermRefRadix b ∨
        (TermRefRadix a = TermRefRadix b ∧
          strcmp (GetTerm terms (a % 2 ^ 32)) (GetTerm terms (b % 2 ^ 32)) ≤ 0) := by
  have hs := strcmp_swap (GetTerm terms (a % 2 ^ 32)) (GetTerm terms (b % 2 ^ 32))
  simp only [radixLe, CompareTermRef, Bool.or_eq_true, Bool.and_eq_true, decide_eq_true_eq,
    Bool.not_eq_true', decide_eq_false_iff_not]
  constructor
  · rintro (h | ⟨h1, h2⟩)
    · exact Or.inl h
    · exact Or.inr ⟨h1, by omega⟩
  · rintro (h | ⟨h1, h2⟩)
    · exact Or.inl h
    · exact Or.inr ⟨h1, by omega⟩

theorem radixSort_termRefs (ts : List (List Byte)) (hsz : termsSize ts < 2 ^ 32)
    (L : List Nat) (hL : ∀ r ∈ L, r ∈ termRefs 0 ts) :
    ((RadixSort TermRefRadix (CompareTermRef (termsLayout (fun _ => 0) 0 ts))
        (L.map
          (fun r => packedKey (bePrefix 4 (GetTerm (termsLayout (fun _ => 0) 0 ts) r)) r))).map
        (fun k => k &&& 0xffffffff)).Perm L
    ∧ ((RadixSort TermRefRadix (CompareTermRef (termsLayout (fun _ => 0) 0 ts))
        (L.map
          (fun r => packedKey (bePrefix 4 (GetTerm (termsLayout (fun _ => 0) 0 ts) r)) r))).map
        (fun k => k &&& 0xffffffff)).Pairwise
        (fun a b => strcmp (GetTerm (termsLayout (fun _ => 0) 0 ts) a)
          (GetTerm (termsLayout (fun _ => 0) 0 ts) b) ≤ 0) := by
  generalize hT : termsLayout (fun _ => 0) 0 ts = T0
  have hkey : ∀ r ∈ termRefs 0 ts,
      TermRefRadix (packedKey (bePrefix 4 (GetTerm T0 r)) r) = bePrefix 4 (GetTerm T0 r)
      ∧ packedKey (bePrefix 4 (GetTerm T0 r)) r &&& 0xffffffff = r
      ∧ packedKey (bePrefix 4 (GetTerm T0 r)) r % 2 ^ 32 = r := by
    intro r hr
    have hb := termRefs_bound ts 0 r rfl hr
    have hp : bePrefix 4 (GetTerm T0 r) < 2 ^ 32 := by
      have := bePrefix_lt 4 (GetTerm T0 r); norm_num at this ⊢; exact this
    have hr32 : r < 2 ^ 32 := by omega
    exact ⟨packedKey_radix _ _ hp hr32, (packedKey_low _ _ hp hr32).1,
      (packedKey_low _ _ hp hr32).2⟩
  haveI : IsTotal Nat (fun a b => radixLe TermRefRadix (CompareTermRef T0) a b = true) := by
    constructor
    intro a b
    rw [radixLe_iff, radixLe_iff]
    have hs := strcmp_swap (GetTerm T0 (a % 2 ^ 32)) (GetTerm T0 (b % 2 ^ 32))
    rcases Nat.lt_trichotomy (TermRefRadix a) (TermRefRadix b) with h | h | h
    · exact Or.inl (Or.inl h)
    · by_cases hc : strcmp (GetTerm T0 (a % 2 ^ 32)) (GetTerm T0 (b % 2 ^ 32)) ≤ 0
      · exact Or.inl (Or.inr ⟨h, hc⟩)
      · exact Or.inr (Or.inr ⟨h.symm, by omega⟩)
    · exact Or.inr (Or.inl h)
  haveI : IsTrans Nat (fun a b => radixLe TermRefRadix (CompareTermRef T0) a b = true) := by
    constructor
    intro a b c hab hbc
    rw [radixLe_iff] at hab hbc ⊢
    rcases hab with h1 | ⟨h1, h2⟩
    · rcases hbc with h3 | ⟨h3, _⟩
      · exact Or.inl (lt_trans h1 h3)
      · exact Or.inl (by omega)
    · rcases hbc with h3 | ⟨h3, h4⟩
      · exact Or.inl (by omega)
      · exact Or.inr ⟨by omega, strcmp_le_trans _ _ _ h2 h4⟩
  have hperm := List.perm_insertionSort
    (fun a b => radixLe TermRefRadix (CompareTermRef T0) a b = true)
    (L.map (fun r => packedKey (bePrefix 4 (GetTerm T0 r)) r))
  have hsorted := List.sorted_insertionSort
    (fun a b => radixLe TermRefRadix (CompareTermRef T0) a b = true)
    (L.map (fun r => packedKey (bePrefix 4 (GetTerm T0 r)) r))
  unfold RadixSort
  constructor
  · have h1 := hperm.map (fun k => k &&& 0xffffffff)
    rw [List.map_map] at h1
    have h2 : List.map ((fun k => k &&& 0xffffffff) ∘
        fun r => packedKey (bePrefix 4 (GetTerm T0 r)) r) L = L := by
      conv_rhs => rw [← List.map_id L]
      apply List.map_congr_left
      intro r hr
      exact (hkey r (hL r hr)).2.1
    rw [h2] at h1
    exact h1
  · rw [List.pairwise_map]
    refine List.Pairwise.imp_of_mem ?_ hsorted
    intro a b ha hb hab
    have ha' := hperm.subset ha
    have hb' := hperm.subset hb
    simp only [List.mem_map] at ha' hb'
    obtain ⟨ra, hra, rfl⟩ := ha'
    obtain ⟨rb, hrb, rfl⟩ := hb'
    rw [radixLe_iff] at hab
    have hka := hkey ra (hL ra hra)
    have hkb := hkey rb (hL rb hrb)
    rw [hka.1, hkb.1, hka.2.2, hkb.2.2] at hab
    rw [hka.2.1, hkb.2.1]
    rcases hab with h | ⟨_, h⟩
    · exact le_of_lt (bePrefix_lt_strcmp 4 _ _ h)
    · exact h

theorem length_le_termsSize (ts : List (List Byte)) : ts.length ≤ termsSize ts := by
  induction ts with
  | nil => simp [termsSize]
  | cons t ts ih => rw [termsSize_cons]; have := storedSize_ge t.length; simp; omega

theorem SortTerms_spec_gen (first : Nat) (L : List Nat) (ts : List (List Byte))
    (ps : List PosInfo) (tpd : List (Nat × List Term)) (hL : ∀ r ∈ L, r ∈ termRefs 0 ts)
    (hLnd : L.Nodup) (hLne : L ≠ []) (hsz : termsSize ts < 2 ^ 32)
    (hnul : ∀ t ∈ ts, (0 : Byte) ∉ t) (hps : ∀ p ∈ ps, p.term_num_ ∈ termRefs 0 ts) :
    ∃ (hdr1 : Nat → Nat) (reps : List Nat),
      SortTerms { terms_ := termsLayout (fun _ => 0) 0 ts, positions_ := ps,
                  term_refs_ := first :: L, terms_per_doc_ := tpd }
        = some { terms_ := termsLayout hdr1 0 ts,
                 positions_ := ps.map (fun p => { p with term_num_ := hdr1 p.term_num_ }),
                 term_refs_ := first :: reps, terms_per_doc_ := tpd }
      ∧ reps ≠ []
      ∧ reps.length ≤ L.length
      ∧ (∀ r ∈ reps, r ∈ L)
      ∧ reps.Pairwise (fun a b => strcmp (GetTerm (termsLayout (fun _ => 0) 0 ts) a)
          (GetTerm (termsLayout (fun _ => 0) 0 ts) b) < 0)
      ∧ (∀ r ∈ L, ∃ j rep, hdr1 r = j + 1 ∧ reps.get? j = some rep
          ∧ GetTerm (termsLayout (fun _ => 0) 0 ts) rep
            = GetTerm (termsLayout (fun _ => 0) 0 ts) r)
      ∧ (∀ r, r ∉ L → hdr1 r = 0)
      ∧ (∀ r, hdr1 r < 2 ^ 32) := by
  have htxt : ∀ r t, (r, t) ∈ List.zip (termRefs 0 ts) ts →
      GetTerm (termsLayout (fun _ => 0) 0 ts) r = t :=
    fun r t h => (GetTerm_layout _ ts hsz hnul r t h).2
  have hkeys : mapOpt (fun r => (firstFour (termsLayout (fun _ => 0) 0 ts) r).map
      (fun p => packedKey p r)) L
      = some (L.map
          (fun r => packedKey (bePrefix 4 (GetTerm (termsLayout (fun _ => 0) 0 ts) r)) r)) := by
    apply mapOpt_eq_map
    intro r hr
    obtain ⟨t, ht⟩ := mem_termRefs_zip ts 0 r (hL r hr)
    rw [firstFour_layout _ ts hsz r t ht, htxt r t ht]
    rfl
  obtain ⟨hperm, hsorted⟩ := radixSort_termRefs ts hsz L hL
  generalize hS : (RadixSort TermRefRadix (CompareTermRef (termsLayout (fun _ => 0) 0 ts))
      (L.map
        (fun r => packedKey (bePrefix 4 (GetTerm (termsLayout (fun _ => 0) 0 ts) r)) r))).map
      (fun k => k &&& 0xffffffff) = S at hperm hsorted
  have hlenS : S.length = L.length := hperm.length_eq
  have hLts : L.length ≤ ts.length := by
    have h1 : L.Subperm (termRefs 0 ts) := List.subperm_of_subset hLnd hL
    have h2 := h1.length_le
    rwa [termRefs_length] at h2
  cases S with
  | nil =>
    exfalso
    simp only [List.length_nil] at hlenS
    exact hLne (List.length_eq_zero.mp hlenS.symm)
  | cons r1 todo =>
    have hr1L : r1 ∈ L := hperm.subset (by simp)
    have hr1 : r1 ∈ termRefs 0 ts := hL r1 hr1L
    have hnd : (r1 :: todo).Nodup := hperm.nodup_iff.mpr hLnd
    obtain ⟨hdr1, reps1, junk1, hloop, hne1, hlen1, hsub1, hpw1, hhdr1, hkeep⟩ :=
      sortTermsLoop_spec first ts hsz hnul (GetTerm (termsLayout (fun _ => 0) 0 ts)) htxt
        todo [r1] [r1] [] (Function.update (fun _ => 0) r1 1) r1 rfl
        (fun r hr => hL r (hperm.subset (by simpa using hr))) (by simpa using hnd)
        (by simpa using hsorted) rfl (fun r hr => hr) (by simp)
        (by intro r hr; simp only [List.mem_singleton] at hr; subst hr; rw [strcmp_self])
        (by
          intro r hr
          simp only [List.mem_singleton] at hr
          subst hr
          exact ⟨0, r, by simp, rfl, rfl⟩)
    have hn32 : ts.length < 2 ^ 32 := lt_of_le_of_lt (length_le_termsSize ts) hsz
    have hall : ∀ r ∈ L, ∃ j rep, hdr1 r = j + 1 ∧ reps1.get? j = some rep
        ∧ GetTerm (termsLayout (fun _ => 0) 0 ts) rep
          = GetTerm (termsLayout (fun _ => 0) 0 ts) r := by
      intro r hr
      exact hhdr1 r (by simpa using hperm.symm.subset hr)
    have hlen1' : reps1.length ≤ L.length := by
      simp only [List.singleton_append] at hlen1
      rw [← hlenS]
      exact hlen1
    have hzero : ∀ r, r ∉ L → hdr1 r = 0 := by
      intro r hr
      have hr' : r ∉ [r1] ++ todo := fun h => hr (hperm.subset (by simpa using h))
      rw [hkeep r hr', Function.update_noteq]
      intro h
      exact hr (h ▸ hr1L)
    have hbound : ∀ r, hdr1 r < 2 ^ 32 := by
      intro r
      by_cases hr : r ∈ L
      · obtain ⟨j, rep, h1, h2, _⟩ := hall r hr
        have hj : j < reps1.length := by
          rw [List.get?_eq_getElem?] at h2
          exact (List.getElem?_eq_some_iff.mp h2).1
        omega
      · rw [hzero r hr]; norm_num
    have hpos : mapOpt (fun p : PosInfo => (GetTermNum (termsLayout hdr1 0 ts) p.term_num_).map
        (fun n => { p with term_num_ := n })) ps
        = some (ps.map (fun p => { p with term_num_ := hdr1 p.term_num_ })) := by
      apply mapOpt_eq_map
      intro p hp
      obtain ⟨t, ht⟩ := mem_termRefs_zip ts 0 p.term_num_ (hps p hp)
      rw [(layout_reads hdr1 ts hsz p.term_num_ t ht).2.2, Nat.mod_eq_of_lt (hbound _)]
      rfl
    refine ⟨hdr1, reps1, ?_, hne1, hlen1', ?_, hpw1, hall, hzero, hbound⟩
    · simp only [SortTerms, List.drop_succ_cons, List.drop_zero, hkeys, hS, List.length_cons,
        List.take_succ_cons, List.take_zero, List.singleton_append, List.get?_cons_succ,
        List.get?_cons_zero, Nat.add_one_ne_zero, if_false,
        UpdateTermNum_layout _ ts hsz r1 1 hr1]
      have hloop' := hloop
      simp only [List.length_singleton, List.append_nil, List.singleton_append] at hloop'
      rw [show todo.length + 1 + 1 - 2 = todo.length by omega, hloop']
      simp only [hpos]
      congr 2
      simp [resizeU32, List.take_append]
    · intro r hr
      exact hperm.subset (by simpa using hsub1 r hr)

theorem SortTerms_spec (sentinel : Nat) (ts : List (List Byte)) (ps : List PosInfo)
    (tpd : List (Nat × List Term)) (hne : ts ≠ []) (hsz : termsSize ts < 2 ^ 32)
    (hnul : ∀ t ∈ ts, (0 : Byte) ∉ t) (hps : ∀ p ∈ ps, p.term_num_ ∈ termRefs 0 ts) :
    ∃ (hdr1 : Nat → Nat) (reps : List Nat),
      SortTerms { terms_ := termsLayout (fun _ => 0) 0 ts, positions_ := ps,
                  term_refs_ := sentinel :: termRefs 0 ts, terms_per_doc_ := tpd }
        = some { terms_ := termsLayout hdr1 0 ts,
                 positions_ := ps.map (fun p => { p with term_num_ := hdr1 p.term_num_ }),
                 term_refs_ := sentinel :: reps, terms_per_doc_ := tpd }
      ∧ reps ≠ []
      ∧ reps.length ≤ ts.length
      ∧ (∀ r ∈ reps, r ∈ termRefs 0 ts)
      ∧ reps.Pairwise (fun a b => strcmp (GetTerm (termsLayout (fun _ => 0) 0 ts) a)
          (GetTerm (termsLayout (fun _ => 0) 0 ts) b) < 0)
      ∧ (∀ r ∈ termRefs 0 ts, ∃ j rep, hdr1 r = j + 1 ∧ reps.get? j = some rep
          ∧ GetTerm (termsLayout (fun _ => 0) 0 ts) rep
            = GetTerm (termsLayout (fun _ => 0) 0 ts) r) := by
  have hLne : termRefs 0 ts ≠ [] := by
    intro h
    have := congrArg List.length h
    rw [termRefs_length] at this
    exact hne (List.length_eq_zero.mp this)
  obtain ⟨hdr1, reps, h1, h2, h3, h4, h5, h6, _, _⟩ :=
    SortTerms_spec_gen sentinel (termRefs 0 ts) ts ps tpd (fun _ h => h)
      (termRefs_nodup ts 0 rfl) hLne hsz hnul hps
  refine ⟨hdr1, reps, h1, h2, ?_, h4, h5, h6⟩
  rw [termRefs_length] at h3
  exact h3

theorem writeBytes_some (buf bs b : List Byte) (off : Nat) (h : writeBytes buf off bs = some b) :
    off + bs.length ≤ buf.length ∧ b.length = buf.length := by
  unfold writeBytes at h
  split at h
  · rename_i hle
    cases h
    refine ⟨hle, ?_⟩
    simp
    omega
  · cases h

theorem resizeBytes_length (buf : List Byte) (n : Nat) : (resizeBytes buf n).length = n := by
  simp [resizeBytes]
  omega

theorem Align4_small (x : Nat) (hx : x < 2 ^ 32) (h3 : 2 ^ 32 ≤ x + 3) : Align 4 x = 0 := by
  unfold Align
  have e2 : (2 ^ 32 - 4) % 2 ^ 32 = 2 ^ 32 - 4 := by norm_num
  rw [e2, and_mask4 _ (Nat.mod_lt _ (by norm_num))]
  omega

theorem AddTerm_some_bound (inv : ColumnInverter) (t : List Byte) (x : ColumnInverter × Nat)
    (h4 : inv.terms_.length % 4 = 0) (hL : inv.terms_.length < 2 ^ 32)
    (h : AddTerm inv t = some x) : inv.terms_.length + storedSize t.length < 2 ^ 32 := by
  unfold AddTerm at h
  simp only [] at h
  split at h
  · cases h
  · rename_i b1 hb1
    split at h
    · cases h
    · rename_i b2 hb2
      have w1 := writeBytes_some _ _ _ _ hb1
      have w2 := writeBytes_some _ _ _ _ hb2
      rw [w1.2, resizeBytes_length] at w2
      have hLm : inv.terms_.length % 2 ^ 32 = inv.terms_.length := Nat.mod_eq_of_lt hL
      rw [hLm] at w2
      have hw := w2.1
      by_contra hcon
      unfold storedSize at hcon
      by_cases hc1 : inv.terms_.length + 4 + t.length + 1 < 2 ^ 32
      · rw [Nat.mod_eq_of_lt hc1] at hw
        by_cases hc2 : inv.terms_.length + 4 + t.length + 1 + 3 < 2 ^ 32
        · rw [Align4_eq _ hc2] at hw
          omega
        · rw [Align4_small _ hc1 (by omega)] at hw
          omega
      · have hA : Align 4 ((inv.terms_.length + 4 + t.length + 1) % 2 ^ 32) < 2 ^ 32 := by
          unfold Align
          exact lt_of_le_of_lt Nat.and_le_left (Nat.mod_lt _ (by norm_num))
        by_cases hc3 : inv.terms_.length + 4 + t.length + 1 = 2 ^ 32
        · rw [hc3, Nat.mod_self] at hw
          have : Align 4 0 = 0 := by decide
          rw [this] at hw
          omega
        · omega

theorem addTerms_some_size (ts : List (List Byte)) :
    ∀ (inv : ColumnInverter) (x : ColumnInverter × List Nat), inv.terms_.length % 4 = 0 →
      inv.terms_.length < 2 ^ 32 → addTerms inv ts = some x →
      inv.terms_.length + termsSize ts < 2 ^ 32 := by
  induction ts with
  | nil => intro inv x _ hL _; simpa [termsSize] using hL
  | cons t ts ih =>
    intro inv x h4 hL h
    simp only [addTerms] at h
    split at h
    · cases h
    · rename_i inv1 r hA
      have hb := AddTerm_some_bound inv t _ h4 hL hA
      rw [AddTerm_eq inv t h4 hb] at hA
      simp only [Option.some.injEq, Prod.mk.injEq] at hA
      obtain ⟨hA1, _⟩ := hA
      subst hA1
      split at h
      · cases h
      · rename_i inv2 rs hB
        have hlen : (inv.terms_ ++ storedTerm 0 t).length
            = inv.terms_.length + storedSize t.length := by simp [storedTerm_length]
        have := ih _ _ (by simp only [hlen]; have := storedSize_mod t.length; omega)
          (by simp only [hlen]; exact hb) hB
        simp only [hlen] at this
        rw [termsSize_cons]
        omega

/-! ## `Sort` on states with at least one reference after index 0 -/

theorem PosInfo.less_false_iff (a b : PosInfo) : PosInfo.less b a = false ↔ PosInfo.le a b := by
  unfold PosInfo.less PosInfo.le
  by_cases h1 : b.term_num_ ≠ a.term_num_
  · rw [if_pos h1]; simp only [decide_eq_false_iff_not]; omega
  · rw [if_neg h1]
    by_cases h2 : b.doc_id_ ≠ a.doc_id_
    · rw [if_pos h2]; simp only [decide_eq_false_iff_not]; omega
    · rw [if_neg h2]; simp only [decide_eq_false_iff_not]; omega

theorem PosInfo.le_total (a b : PosInfo) : PosInfo.le a b ∨ PosInfo.le b a := by
  unfold PosInfo.le; omega

theorem PosInfo.le_trans (a b c : PosInfo) (h1 : PosInfo.le a b) (h2 : PosInfo.le b c) :
    PosInfo.le a c := by
  unfold PosInfo.le at *; omega

theorem FullRadix_eq (p : PosInfo) (ht : p.term_num_ < 2 ^ 32) (hd : p.doc_id_ < 2 ^ 32) :
    FullRadix p = 2 ^ 32 * p.term_num_ + p.doc_id_ := by
  unfold FullRadix
  rw [Nat.shiftLeft_eq, Nat.mod_eq_of_lt (by omega), Nat.mul_comm, Nat.mul_add_lt_is_or hd]

theorem radixLe_pos_iff (a b : PosInfo) :
    radixLe FullRadix PosInfo.less a b = true ↔
      FullRadix a < FullRadix b ∨ (FullRadix a = FullRadix b ∧ PosInfo.le a b) := by
  simp only [radixLe, Bool.or_eq_true, Bool.and_eq_true, decide_eq_true_eq, Bool.not_eq_true',
    PosInfo.less_false_iff]

theorem radixSort_positions (ps : List PosInfo)
    (hb : ∀ p ∈ ps, p.term_num_ < 2 ^ 32 ∧ p.doc_id_ < 2 ^ 32) :
    (RadixSort FullRadix PosInfo.less ps).Perm ps
    ∧ (RadixSort FullRadix PosInfo.less ps).Pairwise PosInfo.le := by
  haveI : IsTotal PosInfo (fun a b => radixLe FullRadix PosInfo.less a b = true) := by
    constructor
    intro a b
    rw [radixLe_pos_iff, radixLe_pos_iff]
    rcases Nat.lt_trichotomy (FullRadix a) (FullRadix b) with h | h | h
    · exact Or.inl (Or.inl h)
    · rcases PosInfo.le_total a b with h2 | h2
      · exact Or.inl (Or.inr ⟨h, h2⟩)
      · exact Or.inr (Or.inr ⟨h.symm, h2⟩)
    · exact Or.inr (Or.inl h)
  haveI : IsTrans PosInfo (fun a b => radixLe FullRadix PosInfo.less a b = true) := by
    constructor
    intro a b c hab hbc
    rw [radixLe_pos_iff] at hab hbc ⊢
    rcases hab with h1 | ⟨h1, h2⟩
    · rcases hbc with h3 | ⟨h3, _⟩
      · exact Or.inl (lt_trans h1 h3)
      · exact Or.inl (by omega)
    · rcases hbc with h3 | ⟨h3, h4⟩
      · exact Or.inl (by omega)
      · exact Or.inr ⟨by omega, PosInfo.le_trans a b c h2 h4⟩
  have hperm := List.perm_insertionSort
    (fun a b => radixLe FullRadix PosInfo.less a b = true) ps
  have hsorted := List.sorted_insertionSort
    (fun a b => radixLe FullRadix PosInfo.less a b = true) ps
  unfold RadixSort
  refine ⟨hperm, List.Pairwise.imp_of_mem ?_ hsorted⟩
  intro a b ha hb' hab
  have hba := hb a (hperm.subset ha)
  have hbb := hb b (hperm.subset hb')
  rw [radixLe_pos_iff, FullRadix_eq a hba.1 hba.2, FullRadix_eq b hbb.1 hbb.2] at hab
  rcases hab with h | ⟨_, h⟩
  · unfold PosInfo.le; omega
  · exact h

theorem Sort_spec_gen (first : Nat) (L : List Nat) (ts : List (List Byte))
    (ps : List PosInfo) (tpd : List (Nat × List Term)) (hL : ∀ r ∈ L, r ∈ termRefs 0 ts)
    (hLnd : L.Nodup) (hLne : L ≠ []) (hsz : termsSize ts < 2 ^ 32)
    (hnul : ∀ t ∈ ts, (0 : Byte) ∉ t) (hps : ∀ p ∈ ps, p.term_num_ ∈ termRefs 0 ts)
    (hdoc : ∀ p ∈ ps, p.doc_id_ < 2 ^ 32) :
    ∃ (inv1 : ColumnInverter) (num : Nat → Nat),
      ColumnInverter.Sort { terms_ := termsLayout (fun _ => 0) 0 ts, positions_ := ps,
                            term_refs_ := first :: L, terms_per_doc_ := tpd } = some inv1
      ∧ (∀ p ∈ ps, GetTermNum inv1.terms_ p.term_num_ = some (num p.term_num_))
      ∧ inv1.positions_.Perm (ps.map (fun p => { p with term_num_ := num p.term_num_ }))
      ∧ inv1.positions_.Pairwise PosInfo.le := by
  obtain ⟨hdr1, reps, hsort, _, _, _, _, _, _, hbound⟩ :=
    SortTerms_spec_gen first L ts ps tpd hL hLnd hLne hsz hnul hps
  have hb : ∀ p ∈ ps.map (fun p : PosInfo => { p with term_num_ := hdr1 p.term_num_ }),
      p.term_num_ < 2 ^ 32 ∧ p.doc_id_ < 2 ^ 32 := by
    intro p hp
    simp only [List.mem_map] at hp
    obtain ⟨q, hq, rfl⟩ := hp
    exact ⟨hbound _, hdoc q hq⟩
  obtain ⟨hperm, hpw⟩ := radixSort_positions _ hb
  refine ⟨{ terms_ := termsLayout hdr1 0 ts,
            positions_ := RadixSort FullRadix PosInfo.less
              (ps.map (fun p => { p with term_num_ := hdr1 p.term_num_ })),
            term_refs_ := first :: reps, terms_per_doc_ := tpd }, hdr1, ?_, ?_, hperm, hpw⟩
  · simp only [ColumnInverter.Sort, hsort]
  · intro p hp
    obtain ⟨t, ht⟩ := mem_termRefs_zip ts 0 p.term_num_ (hps p hp)
    rw [(layout_reads hdr1 ts hsz p.term_num_ t ht).2.2, Nat.mod_eq_of_lt (hbound _)]

theorem mem_zipWith_positions :
    ∀ (refs : List Nat) (toks : List (Nat × Term)) (p : PosInfo),
      p ∈ List.zipWith (fun r (dt : Nat × Term) => PosInfo.mk r dt.1 dt.2.word_offset_) refs toks →
      p.term_num_ ∈ refs ∧ ∃ dt ∈ toks, p.doc_id_ = dt.1 := by
  intro refs
  induction refs with
  | nil => intro toks p h; simp at h
  | cons r refs ih =>
    intro toks p h
    cases toks with
    | nil => simp at h
    | cons dt toks =>
      simp only [List.zipWith_cons_cons, List.mem_cons] at h
      rcases h with h | h
      · subst h
        exact ⟨by simp, dt, by simp, rfl⟩
      · obtain ⟨h1, dt', h2, h3⟩ := ih toks p h
        exact ⟨by simp [h1], dt', by simp [h2], h3⟩

theorem Sort_after_Merge {Val : Type} (analyze : Val → List Term)
    (docsA docsB : List (Nat × Val))
    (h2 : 2 ≤ (stagedTokens analyze docsA ++ stagedTokens analyze docsB).length)
    (hnul : ∀ dt ∈ stagedTokens analyze docsA ++ stagedTokens analyze docsB,
      (0 : Byte) ∉ dt.2.text_)
    (hdoc : ∀ dt ∈ stagedTokens analyze docsA ++ stagedTokens analyze docsB, dt.1 < 2 ^ 32)
    (hsize : termsSize ((stagedTokens analyze docsA ++ stagedTokens analyze docsB).map
      (fun dt => dt.2.text_)) < 2 ^ 32) :
    ∃ (A1 B1 A2 : ColumnInverter) (num : Nat → Nat),
      Merge (stageDocs analyze ColumnInverter.new docsA)
          (stageDocs analyze ColumnInverter.new docsB) = some (A1, B1)
      ∧ A1.Sort = some A2
      ∧ (∀ p ∈ A1.positions_, GetTermNum A2.terms_ p.term_num_ = some (num p.term_num_))
      ∧ A2.positions_.Perm (A1.positions_.map (fun p => { p with term_num_ := num p.term_num_ }))
      ∧ A2.positions_.Pairwise PosInfo.le := by
  have hcat : stagedTokens analyze docsA ++ stagedTokens analyze docsB
      = stagedTokens id (docsA.map (fun d => (d.1, analyze d.2))
          ++ docsB.map (fun d => (d.1, analyze d.2))) := by
    rw [stagedTokens_append, stagedTokens_map, stagedTokens_map]
  rw [hcat] at hsize h2 hnul hdoc
  have hM := Merge_fresh_eq (docsA.map (fun d => (d.1, analyze d.2)))
    (docsB.map (fun d => (d.1, analyze d.2))) [] hsize
  generalize stagedTokens id (docsA.map (fun d => (d.1, analyze d.2))
      ++ docsB.map (fun d => (d.1, analyze d.2))) = toks at hsize h2 hnul hdoc hM
  have hnul' : ∀ t ∈ toks.map (fun dt => dt.2.text_), (0 : Byte) ∉ t := by
    intro t ht
    simp only [List.mem_map] at ht
    obtain ⟨dt, hdt, rfl⟩ := ht
    exact hnul dt hdt
  have hlen : (toks.map (fun dt => dt.2.text_)).length = toks.length := by simp
  generalize htexts : toks.map (fun dt => dt.2.text_) = texts at hsize hM hnul' hlen
  rcases texts with _ | ⟨t0, _ | ⟨t1, rest⟩⟩
  · simp only [List.length_nil] at hlen; omega
  · simp only [List.length_singleton] at hlen; omega
  · have hnd := termRefs_nodup (t0 :: t1 :: rest) 0 rfl
    have hrefs : termRefs 0 (t0 :: t1 :: rest)
        = (0 + 4) / 4 :: termRefs (0 + storedSize t0.length) (t1 :: rest) := rfl
    have hps : ∀ p ∈ List.zipWith
        (fun r (dt : Nat × Term) => PosInfo.mk r dt.1 dt.2.word_offset_)
        (termRefs 0 (t0 :: t1 :: rest)) toks, p.term_num_ ∈ termRefs 0 (t0 :: t1 :: rest) :=
      fun p hp => (mem_zipWith_positions _ _ p hp).1
    have hdoc' : ∀ p ∈ List.zipWith
        (fun r (dt : Nat × Term) => PosInfo.mk r dt.1 dt.2.word_offset_)
        (termRefs 0 (t0 :: t1 :: rest)) toks, p.doc_id_ < 2 ^ 32 := by
      intro p hp
      obtain ⟨_, dt, hdt, he⟩ := mem_zipWith_positions _ _ p hp
      rw [he]
      exact hdoc dt hdt
    obtain ⟨A2, num, hS, hnum, hperm, hpw⟩ :=
      Sort_spec_gen ((0 + 4) / 4) (termRefs (0 + storedSize t0.length) (t1 :: rest))
        (t0 :: t1 :: rest) _ [] (fun r hr => by rw [hrefs]; exact List.mem_cons_of_mem _ hr)
        (by rw [hrefs] at hnd; exact (List.nodup_cons.mp hnd).2) (by simp [termRefs]) hsize
        hnul' hps hdoc'
    simp only [stageDocs_eq, ColumnInverter.new, List.nil_append]
    simp only [List.nil_append] at hM
    refine ⟨_, _, A2, num, hM, ?_, hnum, hperm, hpw⟩
    rw [← hS, hrefs]

/-! ## The spill run written by `SpillSortResults` -/

theorem FILE.holds_nil (f : FILE) (off : Nat) : f.holds off [] := by
  intro k hk; simp at hk

theorem FILE.holds_append (f : FILE) (off : Nat) (a b : List Byte) :
    f.holds off (a ++ b) ↔ f.holds off a ∧ f.holds (off + a.length) b := by
  constructor
  · intro h
    constructor
    · intro k hk
      have := h k (by simp; omega)
      rw [this, List.getD_append _ _ _ _ hk]
    · intro k hk
      have := h (a.length + k) (by simp; omega)
      rw [← Nat.add_assoc] at this
      rw [this, List.getD_append_right _ _ _ _ (by omega)]
      simp
  · rintro ⟨ha, hb⟩ k hk
    by_cases hka : k < a.length
    · rw [ha k hka, List.getD_append _ _ _ _ hka]
    · have hk' : k - a.length < b.length := by simp at hk; omega
      have := hb (k - a.length) hk'
      rw [show off + a.length + (k - a.length) = off + k by omega] at this
      rw [this, List.getD_append_right _ _ _ _ (by omega)]

theorem FILE.holds_fwrite_self (f : FILE) (bs : List Byte) : (fwrite f bs).holds f.pos bs := by
  intro k hk
  simp only [fwrite]
  rw [if_pos (by omega)]
  simp

theorem FILE.holds_fwrite_other (f : FILE) (ws bs : List Byte) (off : Nat)
    (h : f.holds off bs) (hd : off + bs.length ≤ f.pos ∨ f.pos + ws.length ≤ off) :
    (fwrite f ws).holds off bs := by
  intro k hk
  simp only [fwrite]
  rw [if_neg (by omega)]
  exact h k hk

theorem FILE.holds_fseek (f : FILE) (q off : Nat) (bs : List Byte) :
    (fseek f q).holds off bs ↔ f.holds off bs := Iff.rfl

theorem FILE.read_of_holds (f : FILE) (off : Nat) (bs : List Byte) (h : f.holds off bs)
    (hs : off + bs.length ≤ f.size) : f.read off bs.length = some bs := by
  unfold FILE.read
  rw [if_pos hs]
  congr 1
  apply List.ext_getElem
  · simp
  · intro k h1 h2
    simp only [List.getElem_map, List.getElem_range]
    rw [h k h2, List.getD_eq_getElem _ _ h2]

theorem leVal_le32 (v : Nat) (h : v < 2 ^ 32) : leVal (le32 v) = v := by
  simp only [le32, leVal, byteOf]; omega

theorem leVal_le16 (v : Nat) (h : v < 2 ^ 16) : leVal (le16 v) = v := by
  simp only [le16, leVal, byteOf]; omega

theorem leVal_le64 (v : Nat) (h : v < 2 ^ 64) : leVal (le64 v) = v := by
  simp only [le64, le32, leVal, byteOf, List.cons_append, List.nil_append]; omega

theorem fwrite_nil (f : FILE) : fwrite f [] = f := by
  cases f with
  | mk data size pos =>
    simp only [fwrite, List.length_nil, Nat.add_zero, if_true, FILE.mk.injEq, and_true]
    funext i
    rw [if_neg (by omega)]

theorem fwrite_append (f : FILE) (a b : List Byte) :
    fwrite (fwrite f a) b = fwrite f (a ++ b) := by
  cases f with
  | mk data size pos =>
    simp only [fwrite, FILE.mk.injEq, List.length_append]
    refine ⟨?_, ?_, by omega⟩
    · funext i
      by_cases h1 : pos + a.length ≤ i ∧ i < pos + a.length + b.length
      · rw [if_pos h1, if_pos (by omega), List.getD_append_right _ _ _ _ (by omega)]
        congr 1
        omega
      · rw [if_neg h1]
        by_cases h2 : pos ≤ i ∧ i < pos + a.length
        · rw [if_pos h2, if_pos (by omega), List.getD_append _ _ _ _ (by omega)]
        · rw [if_neg h2, if_neg (by omega)]
    · by_cases ha : a.length = 0
      · by_cases hb : b.length = 0
        · simp [ha, hb]
        · simp [ha, hb]
      · by_cases hb : b.length = 0
        · simp [ha, hb]
        · rw [if_neg ha, if_neg hb, if_neg (by omega)]
          omega

theorem le16_mod (v : Nat) : le16 (v % 2 ^ 16) = le16 v := by
  simp only [le16, byteOf, List.cons.injEq, Fin.mk.injEq, and_true]
  omega

theorem recordsBytes_cons (txt : Nat → List Byte) (p : PosInfo) (ps : List PosInfo) :
    recordsBytes txt (p :: ps)
      = recordBytes (txt p.term_num_) p.doc_id_ p.term_pos_ ++ recordsBytes txt ps := by
  simp [recordsBytes]

theorem spillRecords_eq (terms : List Byte) (term_refs : List Nat) (txt : Nat → List Byte) :
    ∀ (ps : List PosInfo) (last_term_num : Nat) (term : List Byte) (f : FILE),
      (∀ p ∈ ps, p.term_num_ ≠ 0 ∧
        (match GetTermFromNum term_refs p.term_num_ with
          | none => none
          | some off => cstrAt terms off) = some (txt p.term_num_)) →
      (last_term_num ≠ 0 → term = txt last_term_num) →
      spillRecords terms term_refs ps last_term_num term f
        = some (fwrite f (recordsBytes txt ps)) := by
  intro ps
  induction ps with
  | nil => intro last term f _ _; simp [spillRecords, recordsBytes, fwrite_nil]
  | cons p ps ih =>
    intro last term f hlook hinv
    have hp := hlook p (by simp)
    have hterm : (if last ≠ p.term_num_ then
        (match GetTermFromNum term_refs p.term_num_ with
          | none => none
          | some off => cstrAt terms off)
        else some term) = some (txt p.term_num_) := by
      by_cases h : last ≠ p.term_num_
      · rw [if_pos h]; exact hp.2
      · rw [if_neg h]
        have hl : last = p.term_num_ := not_not.mp h
        rw [hinv (by rw [hl]; exact hp.1), hl]
    simp only [spillRecords, hterm]
    rw [ih p.term_num_ (txt p.term_num_) _ (fun q hq => hlook q (by simp [hq])) (fun _ => rfl)]
    simp only [fwrite_append, le16_mod, recordsBytes_cons, recordBytes, List.append_assoc]

theorem le32_length (v : Nat) : (le32 v).length = 4 := rfl

theorem le64_length (v : Nat) : (le64 v).length = 8 := rfl

theorem le16_length (v : Nat) : (le16 v).length = 2 := rfl

theorem recordBytes_length (text : List Byte) (d t : Nat) :
    (recordBytes text d t).length = text.length + 11 := by
  simp [recordBytes, le16_length, le32_length]
  omega

theorem length_le_recordsBytes (txt : Nat → List Byte) (ps : List PosInfo) :
    ps.length ≤ (recordsBytes txt ps).length := by
  induction ps with
  | nil => simp
  | cons p ps ih =>
    rw [recordsBytes_cons, List.length_append, recordBytes_length, List.length_cons]
    omega

theorem parseRecords_of_holds (f : FILE) (txt : Nat → List Byte) :
    ∀ (ps : List PosInfo) (off : Nat),
      f.holds off (recordsBytes txt ps) →
      off + (recordsBytes txt ps).length ≤ f.size →
      (∀ p ∈ ps, (txt p.term_num_).length + 9 < 2 ^ 16) →
      (∀ p ∈ ps, p.doc_id_ < 2 ^ 32 ∧ p.term_pos_ < 2 ^ 32) →
      parseRecords f ps.length off
        = some (ps.map (fun p => (txt p.term_num_, p.doc_id_, p.term_pos_))) := by
  intro ps
  induction ps with
  | nil => intro off _ _ _ _; rfl
  | cons p ps ih =>
    intro off hh hs hlen hu
    rw [recordsBytes_cons] at hh hs
    rw [List.length_append, recordBytes_length] at hs
    obtain ⟨hrec, hrest⟩ := (FILE.holds_append f off _ _).mp hh
    rw [recordBytes_length] at hrest
    unfold recordBytes at hrec
    obtain ⟨hl16, hbody⟩ := (FILE.holds_append f off _ _).mp hrec
    rw [le16_length] at hbody
    have hbl : ((txt p.term_num_) ++ [0] ++ (le32 p.doc_id_ ++ le32 p.term_pos_)).length
        = (txt p.term_num_).length + 9 := by
      simp [le32_length]
    have hl := hlen p (by simp)
    have hup := hu p (by simp)
    have hr1 := FILE.read_of_holds f off _ hl16 (by rw [le16_length]; omega)
    rw [le16_length] at hr1
    have hr2 := FILE.read_of_holds f (off + 2) _ hbody (by rw [hbl]; omega)
    rw [hbl] at hr2
    have hv : leVal (le16 ((txt p.term_num_).length + 4 + 4 + 1))
        = (txt p.term_num_).length + 9 := by
      rw [leVal_le16 _ (by omega)]
    have htake : ((txt p.term_num_) ++ [0] ++ (le32 p.doc_id_ ++ le32 p.term_pos_)).take
        ((txt p.term_num_).length + 9 - 9) = txt p.term_num_ := by
      rw [List.append_assoc, List.take_left']; omega
    have hget : ((txt p.term_num_) ++ [0] ++ (le32 p.doc_id_ ++ le32 p.term_pos_)).get?
        ((txt p.term_num_).length + 9 - 9) = some 0 := by
      rw [List.get?_eq_getElem?, List.append_assoc,
        List.getElem?_append_right (by omega)]
      simp
    have hdoc : (((txt p.term_num_) ++ [0] ++ (le32 p.doc_id_ ++ le32 p.term_pos_)).drop
        ((txt p.term_num_).length + 9 - 8)).take 4 = le32 p.doc_id_ := by
      rw [List.drop_left' (by simp), List.take_left' (le32_length _)]
    have hpos : (((txt p.term_num_) ++ [0] ++ (le32 p.doc_id_ ++ le32 p.term_pos_)).drop
        ((txt p.term_num_).length + 9 - 4)).take 4 = le32 p.term_pos_ := by
      rw [← List.append_assoc, List.drop_left' (by simp [le32_length]),
        List.take_of_length_le (by rw [le32_length])]
    have hih := ih (off + ((txt p.term_num_).length + 11)) hrest (by omega)
      (fun q hq => hlen q (by simp [hq])) (fun q hq => hu q (by simp [hq]))
    simp only [List.length_cons, parseRecords, hr1, hv, hr2, htake, hget, hdoc, hpos,
      if_neg (show ¬ (txt p.term_num_).length + 9 < 9 by omega), if_true]
    rw [show off + 2 + ((txt p.term_num_).length + 9) = off + ((txt p.term_num_).length + 11) by
      omega, hih]
    simp [leVal_le32 _ hup.1, leVal_le32 _ hup.2]

theorem fwrite_size_ge (f : FILE) (bs : List Byte) (n : Nat) (h : n ≤ f.size) :
    n ≤ (fwrite f bs).size := by
  simp only [fwrite]
  split <;> omega

theorem fwrite_size_end (f : FILE) (bs : List Byte) (h : bs.length ≠ 0) :
    f.pos + bs.length ≤ (fwrite f bs).size := by
  simp only [fwrite, if_neg h]
  omega

/-- On an inverter whose position records all carry a term number other than 0 that
`GetTermFromNum` resolves to a NUL-terminated text `txt`, with texts of at most 65526 bytes,
`u32` document ids and positions, and a run that ends below file offset `2 ^ 32`:
`SpillSortResults` appends a run whose header holds the size of the record data, the number of
records and the offset behind the run, leaves the file position there, adds the number of records
to `tuple_count`, and the run read back holds the records of `positions_` in order. -/
theorem spill_run_spec (inv : ColumnInverter) (f : FILE) (tuple_count : Nat)
    (txt : Nat → List Byte)
    (hlook : ∀ p ∈ inv.positions_, p.term_num_ ≠ 0 ∧
      (match GetTermFromNum inv.term_refs_ p.term_num_ with
        | none => none
        | some off => cstrAt inv.terms_ off) = some (txt p.term_num_))
    (hlen : ∀ p ∈ inv.positions_, (txt p.term_num_).length + 9 < 2 ^ 16)
    (hu32 : ∀ p ∈ inv.positions_, p.doc_id_ < 2 ^ 32 ∧ p.term_pos_ < 2 ^ 32)
    (hend : f.pos + 16 + (recordsBytes txt inv.positions_).length < 2 ^ 32) :
    ∃ f1 : FILE,
      SpillSortResults inv f tuple_count
        = some (f1, (tuple_count + inv.positions_.length) % 2 ^ 64)
      ∧ ftell f1 = f.pos + 16 + (recordsBytes txt inv.positions_).length
      ∧ parseRun f1 f.pos
          = some { data_size := (recordsBytes txt inv.positions_).length,
                   n_rec := inv.positions_.length,
                   next_off := f.pos + 16 + (recordsBytes txt inv.positions_).length,
                   records := inv.positions_.map
                     (fun p => (txt p.term_num_, p.doc_id_, p.term_pos_)) } := by
  have hn := length_le_recordsBytes txt inv.positions_
  generalize hR : recordsBytes txt inv.positions_ = R at hend hn
  have hsp := spillRecords_eq inv.terms_ inv.term_refs_ txt inv.positions_ 0 []
    (fwrite f (le32 0 ++ (le32 inv.positions_.length ++ le64 0)))
    hlook (fun h => absurd rfl h)
  rw [hR, fwrite_append] at hsp
  simp only [List.append_assoc] at hsp
  have e2 : inv.positions_.length % 2 ^ 32 = inv.positions_.length := Nat.mod_eq_of_lt (by omega)
  have hpos : ∀ (g : FILE) (bs : List Byte), (fwrite g bs).pos = g.pos + bs.length :=
    fun _ _ => rfl
  have hS : SpillSortResults inv f tuple_count
      = some (fseek (fwrite (fseek (fwrite (fseek
          (fwrite f (le32 0 ++ (le32 inv.positions_.length ++ (le64 0 ++ R))))
          f.pos) (le32 R.length)) (f.pos + 8)) (le64 (f.pos + 16 + R.length)))
          (f.pos + 16 + R.length),
        (tuple_count + inv.positions_.length) % 2 ^ 64) := by
    simp only [SpillSortResults, ftell, e2, fwrite_append, List.append_assoc, hsp, hpos,
      List.length_append, le32_length, le64_length]
    have a1 : f.pos % 2 ^ 32 = f.pos := by omega
    have a2 : (f.pos + (4 + 4)) % 2 ^ 64 = f.pos + 8 := by omega
    have a3 : (f.pos + (4 + (4 + (8 + R.length)))) % 2 ^ 64 = f.pos + 16 + R.length := by omega
    have a4 : ((f.pos + 16 + R.length + 2 ^ 64 - (f.pos + (4 + (4 + 8))) % 2 ^ 32) % 2 ^ 64)
        % 2 ^ 32 = R.length := by omega
    rw [a1, a2, a3, a4]
  refine ⟨_, hS, rfl, ?_⟩
  -- the contents of the file after the run has been written and patched
  have h4 := FILE.holds_fwrite_self f
    (le32 0 ++ (le32 inv.positions_.length ++ (le64 0 ++ R)))
  obtain ⟨_, h4b⟩ := (FILE.holds_append _ _ _ _).mp h4
  obtain ⟨hB, h4c⟩ := (FILE.holds_append _ _ _ _).mp h4b
  obtain ⟨_, hRh⟩ := (FILE.holds_append _ _ _ _).mp h4c
  simp only [le32_length, le64_length] at hB hRh
  generalize hf4 : fwrite f (le32 0 ++ (le32 inv.positions_.length ++ (le64 0 ++ R))) = f4
    at hB hRh
  have hsz4 : f.pos + 16 + R.length ≤ f4.size := by
    rw [← hf4]
    have := fwrite_size_end f (le32 0 ++ (le32 inv.positions_.length ++ (le64 0 ++ R)))
      (by simp [le32_length])
    simp only [List.length_append, le32_length, le64_length] at this
    omega
  have hA5 : (fwrite (fseek f4 f.pos) (le32 R.length)).holds f.pos (le32 R.length) :=
    FILE.holds_fwrite_self (fseek f4 f.pos) _
  have hB5 : (fwrite (fseek f4 f.pos) (le32 R.length)).holds (f.pos + 4)
      (le32 inv.positions_.length) :=
    FILE.holds_fwrite_other _ _ _ _ hB (Or.inr (by simp [fseek, le32_length]))
  have hR5 : (fwrite (fseek f4 f.pos) (le32 R.length)).holds (f.pos + 4 + 4 + 8) R :=
    FILE.holds_fwrite_other _ _ _ _ hRh (Or.inr (by simp [fseek, le32_length]))
  have hsz5 : f.pos + 16 + R.length ≤ (fwrite (fseek f4 f.pos) (le32 R.length)).size :=
    fwrite_size_ge _ _ _ hsz4
  generalize hf5 : fwrite (fseek f4 f.pos) (le32 R.length) = f5 at hA5 hB5 hR5 hsz5
  have hA6 : (fwrite (fseek f5 (f.pos + 8)) (le64 (f.pos + 16 + R.length))).holds f.pos
      (le32 R.length) :=
    FILE.holds_fwrite_other _ _ _ _ hA5 (Or.inl (by simp [fseek, le32_length]))
  have hB6 : (fwrite (fseek f5 (f.pos + 8)) (le64 (f.pos + 16 + R.length))).holds (f.pos + 4)
      (le32 inv.positions_.length) :=
    FILE.holds_fwrite_other _ _ _ _ hB5 (Or.inl (by simp [fseek, le32_length]))
  have hC6 : (fwrite (fseek f5 (f.pos + 8)) (le64 (f.pos + 16 + R.length))).holds (f.pos + 8)
      (le64 (f.pos + 16 + R.length)) :=
    FILE.holds_fwrite_self (fseek f5 (f.pos + 8)) _
  have hR6 : (fwrite (fseek f5 (f.pos + 8)) (le64 (f.pos + 16 + R.length))).holds
      (f.pos + 4 + 4 + 8) R :=
    FILE.holds_fwrite_other _ _ _ _ hR5 (Or.inr (by simp [fseek, le64_length]))
  have hsz6 : f.pos + 16 + R.length
      ≤ (fwrite (fseek f5 (f.pos + 8)) (le64 (f.pos + 16 + R.length))).size :=
    fwrite_size_ge _ _ _ hsz5
  generalize hf6 : fwrite (fseek f5 (f.pos + 8)) (le64 (f.pos + 16 + R.length)) = f6
    at hA6 hB6 hC6 hR6 hsz6
  have hhdr : (fseek f6 (f.pos + 16 + R.length)).holds f.pos
      (le32 R.length ++ (le32 inv.positions_.length ++ le64 (f.pos + 16 + R.length))) := by
    rw [FILE.holds_fseek, FILE.holds_append, FILE.holds_append]
    exact ⟨hA6, hB6, hC6⟩
  have hread := FILE.read_of_holds _ _ _ hhdr (by
    simp only [List.length_append, le32_length, le64_length, fseek]; omega)
  simp only [List.length_append, le32_length, le64_length] at hread
  have hrecs := parseRecords_of_holds (fseek f6 (f.pos + 16 + R.length)) txt inv.positions_
    (f.pos + 16) (by rw [hR, FILE.holds_fseek]; exact hR6)
    (by rw [hR]; simp only [fseek]; omega) hlen hu32
  have ht1 : (le32 R.length ++ (le32 inv.positions_.length
      ++ le64 (f.pos + 16 + R.length))).take 4 = le32 R.length :=
    List.take_left' (le32_length _)
  have ht2 : ((le32 R.length ++ (le32 inv.positions_.length
      ++ le64 (f.pos + 16 + R.length))).drop 4).take 4 = le32 inv.positions_.length := by
    rw [List.drop_left' (le32_length _), List.take_left' (le32_length _)]
  have ht3 : ((le32 R.length ++ (le32 inv.positions_.length
      ++ le64 (f.pos + 16 + R.length))).drop 8).take 8 = le64 (f.pos + 16 + R.length) := by
    rw [← List.append_assoc, List.drop_left' (by simp [le32_length]),
      List.take_of_length_le (by rw [le64_length])]
  simp only [parseRun, hread, ht1, ht2, ht3, leVal_le32 _ (show R.length < 2 ^ 32 by omega),
    leVal_le32 _ (show inv.positions_.length < 2 ^ 32 by omega),
    leVal_le64 _ (show f.pos + 16 + R.length < 2 ^ 64 by omega), hrecs]

/-! ## The record data of a run at any offset and term length -/

/-- The record data of a run, whatever the file offset and the term lengths: on an inverter
whose position records all carry a term number other than 0 that `GetTermFromNum` resolves to
a NUL-terminated text `txt`, `SpillSortResults` leaves the bytes of the records, in order, from
offset `ftell + 16` on, and the two header patches do not touch them. -/
theorem spill_records_hold (inv : ColumnInverter) (f : FILE) (tuple_count : Nat)
    (txt : Nat → List Byte)
    (hlook : ∀ p ∈ inv.positions_, p.term_num_ ≠ 0 ∧
      (match GetTermFromNum inv.term_refs_ p.term_num_ with
        | none => none
        | some off => cstrAt inv.terms_ off) = some (txt p.term_num_)) :
    ∃ f1 : FILE,
      SpillSortResults inv f tuple_count
        = some (f1, (tuple_count + inv.positions_.length % 2 ^ 32) % 2 ^ 64)
      ∧ ftell f1 = (f.pos + 16 + (recordsBytes txt inv.positions_).length) % 2 ^ 64
      ∧ f1.holds (f.pos + 16) (recordsBytes txt inv.positions_)
      ∧ f.pos + 16 + (recordsBytes txt inv.positions_).length ≤ f1.size := by
  generalize hR : recordsBytes txt inv.positions_ = R
  have hsp := spillRecords_eq inv.terms_ inv.term_refs_ txt inv.positions_ 0 []
    (fwrite f (le32 0 ++ (le32 (inv.positions_.length % 2 ^ 32) ++ le64 0)))
    hlook (fun h => absurd rfl h)
  rw [hR, fwrite_append] at hsp
  simp only [List.append_assoc] at hsp
  have hpos : ∀ (g : FILE) (bs : List Byte), (fwrite g bs).pos = g.pos + bs.length :=
    fun _ _ => rfl
  have h4 := FILE.holds_fwrite_self f
    (le32 0 ++ (le32 (inv.positions_.length % 2 ^ 32) ++ (le64 0 ++ R)))
  obtain ⟨_, h4b⟩ := (FILE.holds_append _ _ _ _).mp h4
  obtain ⟨_, h4c⟩ := (FILE.holds_append _ _ _ _).mp h4b
  obtain ⟨_, hRh⟩ := (FILE.holds_append _ _ _ _).mp h4c
  simp only [le32_length, le64_length] at hRh
  have hsz4 : f.pos + 16 + R.length
      ≤ (fwrite f (le32 0 ++ (le32 (inv.positions_.length % 2 ^ 32) ++ (le64 0 ++ R)))).size := by
    have := fwrite_size_end f (le32 0 ++ (le32 (inv.positions_.length % 2 ^ 32) ++ (le64 0 ++ R)))
      (by simp [le32_length])
    simp only [List.length_append, le32_length, le64_length] at this
    omega
  generalize hf4 : fwrite f (le32 0 ++ (le32 (inv.positions_.length % 2 ^ 32) ++ (le64 0 ++ R)))
    = f4 at hsp hRh hsz4
  have hp4 : f4.pos = f.pos + 16 + R.length := by
    rw [← hf4, hpos]
    simp only [List.length_append, le32_length, le64_length]
    omega
  have hS : SpillSortResults inv f tuple_count
      = some (fseek (fwrite (fseek (fwrite (fseek f4 (f.pos % 2 ^ 32))
          (le32 (((f4.pos % 2 ^ 64 + 2 ^ 64 - (f.pos + 16) % 2 ^ 32) % 2 ^ 64) % 2 ^ 32)))
          ((f.pos + 8) % 2 ^ 64)) (le64 (f4.pos % 2 ^ 64))) (f4.pos % 2 ^ 64),
        (tuple_count + inv.positions_.length % 2 ^ 32) % 2 ^ 64) := by
    simp only [SpillSortResults, ftell, fwrite_append, List.append_assoc, hsp, hpos,
      List.length_append, le32_length, le64_length]
  refine ⟨_, hS, ?_, ?_, ?_⟩
  · simp only [ftell, fseek, hp4]
  · rw [FILE.holds_fseek]
    have e1 := Nat.mod_le f.pos (2 ^ 32)
    have e2 := Nat.mod_le (f.pos + 8) (2 ^ 64)
    refine FILE.holds_fwrite_other _ _ _ _ ?_ (Or.inr ?_)
    · rw [FILE.holds_fseek]
      refine FILE.holds_fwrite_other _ _ _ _ ?_ (Or.inr ?_)
      · rw [FILE.holds_fseek]
        rw [show f.pos + 16 = f.pos + 4 + 4 + 8 by omega]
        exact hRh
      · simp only [fseek, le32_length]
        omega
    · simp only [fseek, le64_length]
      omega
  · have s1 : f.pos + 16 + R.length ≤ (fseek f4 (f.pos % 2 ^ 32)).size := hsz4
    have s2 := fwrite_size_ge _
      (le32 (((f4.pos % 2 ^ 64 + 2 ^ 64 - (f.pos + 16) % 2 ^ 32) % 2 ^ 64) % 2 ^ 32)) _ s1
    have s3 : f.pos + 16 + R.length ≤ (fseek (fwrite (fseek f4 (f.pos % 2 ^ 32))
        (le32 (((f4.pos % 2 ^ 64 + 2 ^ 64 - (f.pos + 16) % 2 ^ 32) % 2 ^ 64) % 2 ^ 32)))
        ((f.pos + 8) % 2 ^ 64)).size := s2
    exact fwrite_size_ge _ (le64 (f4.pos % 2 ^ 64)) _ s3

/-- A single position record referring to a term of `n` bytes `a` with term number 1, spilled
to an empty file: the two bytes of the `rec_len` field at offset 16 and the file position
afterwards. -/
theorem spill_one_long_record (n : Nat) :
    ((SpillSortResults
        { terms_ := storedTerm 1 (List.replicate n 97), positions_ := [⟨1, 0, 0⟩],
          term_refs_ := [0, 1], terms_per_doc_ := [] } FILE.empty 0).bind
        (fun r => (r.1.read 16 2).map (fun bs => (bs, ftell r.1))))
      = some (le16 (n + 4 + 4 + 1), (16 + (n + 11)) % 2 ^ 64) := by
  have hlook : ∀ p ∈ [(⟨1, 0, 0⟩ : PosInfo)], p.term_num_ ≠ 0 ∧
      (match GetTermFromNum [0, 1] p.term_num_ with
        | none => none
        | some off => cstrAt (storedTerm 1 (List.replicate n 97)) off)
        = some ((fun _ => List.replicate n (97 : Byte)) p.term_num_) := by
    intro p hp
    rw [List.mem_singleton] at hp
    subst hp
    refine ⟨by decide, ?_⟩
    have hg : GetTermFromNum [0, 1] 1 = some 4 := by decide
    simp only [hg]
    have hs : storedTerm 1 (List.replicate n (97 : Byte))
        = le32 1 ++ List.replicate n 97
          ++ 0 :: List.replicate (3 - (List.replicate n (97 : Byte)).length % 4) 0 := by
      simp only [storedTerm, List.append_assoc]
    rw [hs]
    refine cstrAt_mid _ _ _ 4 rfl ?_
    intro hm
    have := List.eq_of_mem_replicate hm
    exact absurd this (by decide)
  obtain ⟨f1, hS, htell, hh, hsz⟩ := spill_records_hold
    { terms_ := storedTerm 1 (List.replicate n 97), positions_ := [⟨1, 0, 0⟩],
      term_refs_ := [0, 1], terms_per_doc_ := [] } FILE.empty 0
    (fun _ => List.replicate n 97) hlook
  have hlen : (recordsBytes (fun _ => List.replicate n (97 : Byte)) [⟨1, 0, 0⟩]).length
      = n + 11 := by
    simp only [recordsBytes, List.flatMap_cons, List.flatMap_nil, List.append_nil,
      recordBytes_length, List.length_replicate]
  have hp0 : FILE.empty.pos = 0 := rfl
  simp only [hlen, hp0, Nat.zero_add] at htell hsz
  simp only [recordsBytes, List.flatMap_cons, List.flatMap_nil, List.append_nil, recordBytes,
    hp0, Nat.zero_add, List.length_replicate] at hh
  obtain ⟨h16, _⟩ := (FILE.holds_append _ _ _ _).mp hh
  have hr := FILE.read_of_holds f1 _ _ h16 (by simp only [le16_length]; omega)
  simp only [le16_length] at hr
  rw [hS]
  simp only [Option.some_bind, hr, Option.map_some', htell]

/-! ## The staging list across `SortTerms`, `Sort` and a later `Merge` -/

theorem SortTerms_terms_per_doc (inv inv1 : ColumnInverter) (h : SortTerms inv = some inv1) :
    inv1.terms_per_doc_ = inv.terms_per_doc_ := by
  unfold SortTerms at h
  split at h
  · exact absurd h (by simp)
  · split at h
    · exact absurd h (by simp)
    · dsimp only at h
      repeat' split at h
      all_goals first
        | (simp only [Option.some.injEq] at h; rw [← h])
        | simp at h

theorem Sort_terms_per_doc (inv inv1 : ColumnInverter) (h : inv.Sort = some inv1) :
    inv1.terms_per_doc_ = inv.terms_per_doc_ := by
  unfold ColumnInverter.Sort at h
  split at h
  · exact absurd h (by simp)
  · rename_i s hs
    simp only [Option.some.injEq] at h
    rw [← h]
    exact SortTerms_terms_per_doc inv s hs

theorem Merge_nonempty_positions (s : ColumnInverter) (hpos : s.positions_ ≠ []) :
    Merge s ColumnInverter.new = some (s, ColumnInverter.new) := by
  have hE : s.positions_.isEmpty = false := by
    cases hp : s.positions_ with
    | nil => exact absurd hp hpos
    | cons a as => rfl
  simp [Merge, hE, mergeDocs, ColumnInverter.new]

theorem AddTerm_some_fields (inv inv1 : ColumnInverter) (t : List Byte) (r : Nat)
    (h : AddTerm inv t = some (inv1, r)) :
    inv1.term_refs_ = inv.term_refs_ ++ [r] ∧ inv1.positions_ = inv.positions_
      ∧ inv1.terms_per_doc_ = inv.terms_per_doc_ := by
  unfold AddTerm at h
  dsimp only at h
  repeat' split at h
  all_goals first
    | (simp only [Option.some.injEq, Prod.mk.injEq] at h
       obtain ⟨h1, h2⟩ := h
       subst h1
       subst h2
       exact ⟨rfl, rfl, rfl⟩)
    | simp at h

theorem mergeTerms_some_lengths (doc_id : Nat) (toks : List Term) :
    ∀ inv inv1 : ColumnInverter, mergeTerms doc_id toks inv = some inv1 →
      inv1.positions_.length + inv.term_refs_.length
        = inv1.term_refs_.length + inv.positions_.length := by
  induction toks with
  | nil =>
    intro inv inv1 h
    simp only [mergeTerms, Option.some.injEq] at h
    rw [← h]
    omega
  | cons tok rest ih =>
    intro inv inv1 h
    simp only [mergeTerms] at h
    split at h
    · simp at h
    · rename_i a r hA
      obtain ⟨h1, h2, _⟩ := AddTerm_some_fields inv a tok.text_ r hA
      have := ih _ inv1 h
      simp only [h1, h2, List.length_append, List.length_singleton] at this
      omega

theorem mergeDocs_some_lengths (docs : List (Nat × List Term)) :
    ∀ inv inv1 : ColumnInverter, mergeDocs docs inv = some inv1 →
      inv1.positions_.length + inv.term_refs_.length
        = inv1.term_refs_.length + inv.positions_.length := by
  induction docs with
  | nil =>
    intro inv inv1 h
    simp only [mergeDocs, Option.some.injEq] at h
    rw [← h]
    omega
  | cons d rest ih =>
    intro inv inv1 h
    simp only [mergeDocs] at h
    split at h
    · simp at h
    · rename_i a hA
      have h1 := mergeTerms_some_lengths d.1 d.2 inv a hA
      have h2 := ih a inv1 h
      omega

theorem mapOpt_length {α β : Type} (f : α → Option β) :
    ∀ (l : List α) (l1 : List β), mapOpt f l = some l1 → l1.length = l.length := by
  intro l
  induction l with
  | nil =>
    intro l1 h
    simp only [mapOpt, Option.some.injEq] at h
    subst h
    rfl
  | cons a as ih =>
    intro l1 h
    simp only [mapOpt] at h
    split at h
    · simp at h
    · split at h
      · simp at h
      · rename_i b hb bs hbs
        simp only [Option.some.injEq] at h
        rw [← h, List.length_cons, List.length_cons, ih bs hbs]

theorem SortTerms_some_lengths (inv inv1 : ColumnInverter) (h : SortTerms inv = some inv1) :
    2 ≤ inv.term_refs_.length ∧ inv1.positions_.length = inv.positions_.length := by
  unfold SortTerms at h
  split at h
  · simp at h
  · rename_i keys hkeys
    have hk := mapOpt_length _ _ _ hkeys
    split at h
    · simp at h
    · dsimp only at h
      split at h
      · simp at h
      · rename_i r1 hr1
        have h2 : 2 ≤ inv.term_refs_.length := by
          by_contra hlt
          have hd : inv.term_refs_.drop 1 = [] := by
            apply List.drop_eq_nil_of_le
            omega
          rw [hd] at hkeys
          simp only [mapOpt, Option.some.injEq] at hkeys
          subst hkeys
          simp only [RadixSort, List.insertionSort, List.map_nil, List.append_nil] at hr1
          rw [List.get?_eq_getElem?] at hr1
          obtain ⟨hlt1, _⟩ := List.getElem?_eq_some_iff.mp hr1
          simp only [List.length_take] at hlt1
          omega
        refine ⟨h2, ?_⟩
        split at h
        · simp at h
        · split at h
          · simp at h
          · split at h
            · simp at h
            · rename_i positions hpos
              simp only [Option.some.injEq] at h
              rw [← h]
              exact mapOpt_length _ _ _ hpos

theorem Sort_some_lengths (inv inv1 : ColumnInverter) (h : inv.Sort = some inv1) :
    2 ≤ inv.term_refs_.length ∧ inv1.positions_.length = inv.positions_.length := by
  unfold ColumnInverter.Sort at h
  split at h
  · simp at h
  · rename_i s hs
    obtain ⟨h2, hl⟩ := SortTerms_some_lengths inv s hs
    simp only [Option.some.injEq] at h
    rw [← h]
    refine ⟨h2, ?_⟩
    simp only [RadixSort, List.length_insertionSort]
    exact hl

theorem SortTerms_set_terms_per_doc (inv : ColumnInverter) (d : List (Nat × List Term)) :
    SortTerms { inv with terms_per_doc_ := d }
      = (SortTerms inv).map (fun r => { r with terms_per_doc_ := d }) := by
  unfold SortTerms
  dsimp only
  repeat' split
  all_goals rfl

theorem Sort_set_terms_per_doc (inv : ColumnInverter) (d : List (Nat × List Term)) :
    ColumnInverter.Sort { inv with terms_per_doc_ := d }
      = (ColumnInverter.Sort inv).map (fun r => { r with terms_per_doc_ := d }) := by
  unfold ColumnInverter.Sort
  rw [SortTerms_set_terms_per_doc]
  cases SortTerms inv with
  | none => rfl
  | some s => rfl

theorem GeneratePosting_set_terms_per_doc (inv : ColumnInverter) (d : List (Nat × List Term))
    (m : MemoryIndexer) :
    GeneratePosting { inv with terms_per_doc_ := d } m = GeneratePosting inv m := rfl

theorem Merge_fresh_some (docs : List (Nat × List Term)) (r : ColumnInverter × ColumnInverter)
    (h : Merge (stageDocs id ColumnInverter.new docs) ColumnInverter.new = some r) :
    r.1.positions_.length = r.1.term_refs_.length ∧ r.1.terms_per_doc_ = [] := by
  rw [stageDocs_eq] at h
  simp only [Merge, ColumnInverter.new, List.isEmpty_nil, if_true, List.nil_append] at h
  split at h
  · simp at h
  · rename_i inv hflush
    simp only [mergeDocs, Option.some.injEq] at h
    rw [← h]
    cases hm : mergeDocs (docs.map (fun d => (d.1, id d.2)))
        { terms_ := [], positions_ := [], term_refs_ := [],
          terms_per_doc_ := docs.map (fun d => (d.1, id d.2)) } with
    | none =>
      rw [hm] at hflush
      simp at hflush
    | some a =>
      rw [hm] at hflush
      simp only [Option.map_some', Option.some.injEq] at hflush
      have hl := mergeDocs_some_lengths _ _ a hm
      simp only [List.length_nil, Nat.add_zero] at hl
      rw [← hflush]
      exact ⟨hl, rfl⟩

theorem buildCycle_fresh_some (docs : List (Nat × List Term)) (s : ColumnInverter)
    (h : buildCycle ColumnInverter.new docs = some s) :
    2 ≤ s.positions_.length ∧ s.terms_per_doc_ = [] := by
  unfold buildCycle at h
  split at h
  · simp at h
  · rename_i r hr
    obtain ⟨hl, ht⟩ := Merge_fresh_some docs r hr
    obtain ⟨h2, hp⟩ := Sort_some_lengths r.1 s h
    refine ⟨by omega, ?_⟩
    rw [Sort_terms_per_doc r.1 s h, ht]

/-! ## C1: the build round trip -/

set_option maxRecDepth 100000 in
/-- C1 (evaluation at the witness of the claim): for the documents 0, 1, 2 with text `a a b`
staged on a freshly constructed inverter, `GeneratePosting` after `Merge` and `Sort` calls
`EndDocument` through the null posting pointer (the first token keeps term number 0), so the
indexer receives no posting at all. On an inverter that had a sentinel in `term_refs_` the calls
are issued, but the postings are `a -> [(0,[]),(1,[1]),(2,[0,1])]` and
`b -> [(0,[]),(1,[2]),(2,[])]`, not the documents and positions of the batch. -/
theorem generatePosting_round_trip_witness_fails :
    ((buildCycle ColumnInverter.new
        [(0, tokens_a_a_b), (1, tokens_a_a_b), (2, tokens_a_a_b)]).bind generatedPostings = none)
    ∧ ((buildCycle ColumnInverter.withSentinel
        [(0, tokens_a_a_b), (1, tokens_a_a_b), (2, tokens_a_a_b)]).bind generatedPostings
        = some [([97], [(0, []), (1, [1]), (2, [0, 1])]), ([98], [(0, []), (1, [2]), (2, [])])]) := by
  constructor <;> decide

/-! ## C2: `SortTerms` -/

/-- C2: `term_refs_` is a sentinel followed by the references `AddTerm` returned for the
NUL-free terms `ts` (at least one; duplicates allowed), and every position record holds one of
these references. Then `SortTerms` succeeds; afterwards `term_refs_` is the sentinel followed by
`K` references whose terms are in strictly increasing `strcmp` order, `K` is the number of
distinct texts in `ts`, and the number stored in the four bytes in front of every stored copy
of a term `t` is the one index `j` in `[1, K]` at which `term_refs_[j]` refers to the text `t`. -/
theorem sortTerms_orders_and_numbers (sentinel : Nat) (ts : List (List Byte))
    (ps : List PosInfo) (tpd : List (Nat × List Term)) (inv : ColumnInverter) (refs : List Nat)
    (hne : ts ≠ []) (hnul : ∀ t ∈ ts, (0 : Byte) ∉ t)
    (hadd : addTerms { terms_ := [], positions_ := [], term_refs_ := [sentinel],
                       terms_per_doc_ := tpd } ts = some (inv, refs))
    (hps : ∀ p ∈ ps, p.term_num_ ∈ refs) :
    ∃ (inv1 : ColumnInverter) (reps : List Nat) (texts : List (List Byte)),
      SortTerms { inv with positions_ := ps } = some inv1
      ∧ inv1.term_refs_ = sentinel :: reps
      ∧ reps.length = ts.dedup.length
      ∧ mapOpt (fun r => cstrAt inv1.terms_ (GetTermFromRef r)) reps = some texts
      ∧ texts.Pairwise (fun a b => strcmp a b < 0)
      ∧ ∀ r t, (r, t) ∈ List.zip refs ts →
          ∃ j, GetTermNum inv1.terms_ r = some j ∧ 1 ≤ j ∧ j ≤ reps.length
            ∧ (inv1.term_refs_.get? j).bind (fun rep => cstrAt inv1.terms_ (GetTermFromRef rep))
                = some t
            ∧ ∀ j', 1 ≤ j' → j' ≤ reps.length →
                (inv1.term_refs_.get? j').bind
                    (fun rep => cstrAt inv1.terms_ (GetTermFromRef rep)) = some t →
                j' = j := by
  have hsz0 := addTerms_some_size ts
    { terms_ := [], positions_ := [], term_refs_ := [sentinel], terms_per_doc_ := tpd } _ rfl
    (by simp) hadd
  have hsz : termsSize ts < 2 ^ 32 := by simpa using hsz0
  rw [addTerms_eq ts
    { terms_ := [], positions_ := [], term_refs_ := [sentinel], terms_per_doc_ := tpd } rfl
    (by simpa using hsz)] at hadd
  simp only [List.length_nil, List.nil_append, List.singleton_append, Option.some.injEq,
    Prod.mk.injEq] at hadd
  obtain ⟨hinv, hrefs⟩ := hadd
  subst hinv
  subst hrefs
  obtain ⟨hdr1, reps, hsort, hne1, hlen1, hsub, hpw, hall⟩ :=
    SortTerms_spec sentinel ts ps tpd hne hsz hnul hps
  have hcstr : ∀ r ∈ termRefs 0 ts,
      cstrAt (termsLayout hdr1 0 ts) (GetTermFromRef r)
        = some (GetTerm (termsLayout (fun _ => 0) 0 ts) r) := by
    intro r hr
    obtain ⟨t, ht⟩ := mem_termRefs_zip ts 0 r hr
    rw [(GetTerm_layout hdr1 ts hsz hnul r t ht).1, (GetTerm_layout _ ts hsz hnul r t ht).2]
  have hn32 : ts.length < 2 ^ 32 := lt_of_le_of_lt (length_le_termsSize ts) hsz
  have hpw' : (reps.map (GetTerm (termsLayout (fun _ => 0) 0 ts))).Pairwise
      (fun a b => strcmp a b < 0) := by
    rw [List.pairwise_map]; exact hpw
  have hnodup : (reps.map (GetTerm (termsLayout (fun _ => 0) 0 ts))).Nodup := by
    refine List.Pairwise.imp ?_ hpw'
    intro a b hab heq
    rw [heq, strcmp_self] at hab
    exact absurd hab (by decide)
  have hmem : ∀ t, t ∈ reps.map (GetTerm (termsLayout (fun _ => 0) 0 ts)) ↔ t ∈ ts.dedup := by
    intro t
    rw [List.mem_dedup, List.mem_map]
    constructor
    · rintro ⟨r, hr, rfl⟩
      obtain ⟨t, ht⟩ := mem_termRefs_zip ts 0 r (hsub r hr)
      rw [(GetTerm_layout _ ts hsz hnul r t ht).2]
      exact (List.of_mem_zip ht).2
    · intro ht
      obtain ⟨r, hr⟩ := mem_zip_termRefs ts 0 t ht
      obtain ⟨j, rep, _, h2, h3⟩ := hall r (List.of_mem_zip hr).1
      refine ⟨rep, List.get?_mem h2, ?_⟩
      rw [h3, (GetTerm_layout _ ts hsz hnul r t hr).2]
  refine ⟨_, reps, reps.map (GetTerm (termsLayout (fun _ => 0) 0 ts)), hsort, rfl, ?_, ?_, hpw',
    ?_⟩
  · have := ((List.perm_ext_iff_of_nodup hnodup (List.nodup_dedup ts)).mpr hmem).length_eq
    simpa using this
  · exact mapOpt_eq_map _ _ reps (fun r hr => hcstr r (hsub r hr))
  · intro r t hrt
    have hr := (List.of_mem_zip hrt).1
    obtain ⟨j, rep, h1, h2, h3⟩ := hall r hr
    have hj : j < reps.length := by
      rw [List.get?_eq_getElem?] at h2
      exact (List.getElem?_eq_some_iff.mp h2).1
    have htr : GetTerm (termsLayout (fun _ => 0) 0 ts) r = t :=
      (GetTerm_layout _ ts hsz hnul r t hrt).2
    refine ⟨j + 1, ?_, by omega, by omega, ?_, ?_⟩
    · rw [(layout_reads hdr1 ts hsz r t hrt).2.2, h1, Nat.mod_eq_of_lt (by omega)]
    · simp only [List.get?_cons_succ, h2, Option.some_bind]
      rw [hcstr rep (hsub rep (List.get?_mem h2)), h3, htr]
    · intro j' h1' h2' hj'
      obtain ⟨i, rfl⟩ : ∃ i, j' = i + 1 := ⟨j' - 1, by omega⟩
      have hi : i < reps.length := by omega
      have hgi : (sentinel :: reps).get? (i + 1) = some reps[i] := by
        rw [List.get?_cons_succ, List.get?_eq_getElem?, List.getElem?_eq_getElem hi]
      rw [hgi, Option.some_bind, hcstr _ (hsub _ (List.getElem_mem hi))] at hj'
      simp only [Option.some.injEq] at hj'
      rw [List.get?_eq_getElem?, List.getElem?_eq_getElem hj] at h2
      simp only [Option.some.injEq] at h2
      have hrepj : GetTerm (termsLayout (fun _ => 0) 0 ts) reps[j] = t := by
        rw [h2, h3, htr]
      have hpi := List.pairwise_iff_getElem.mp hpw
      rcases Nat.lt_trichotomy i j with hlt | heq | hgt
      · have := hpi i j hi hj hlt
        rw [hj', hrepj, strcmp_self] at this
        exact absurd this (by decide)
      · rw [heq]
      · have := hpi j i hj hi hgt
        rw [hj', hrepj, strcmp_self] at this
        exact absurd this (by decide)

set_option maxRecDepth 100000 in
/-- C2 (instance): the terms `b`, `a`, `b` were added after the sentinel 0; three position
records refer to them. -/
theorem sortTerms_orders_and_numbers_witness :
    ∃ (inv1 : ColumnInverter) (reps : List Nat) (texts : List (List Byte)),
      SortTerms
          { ({ terms_ := [0, 0, 0, 0, 98, 0, 0, 0, 0, 0, 0, 0, 97, 0, 0, 0, 0, 0, 0, 0, 98, 0, 0, 0],
               positions_ := [], term_refs_ := [0, 1, 3, 5], terms_per_doc_ := [] } :
              ColumnInverter) with
            positions_ := [⟨1, 0, 0⟩, ⟨3, 0, 1⟩, ⟨5, 1, 0⟩] } = some inv1
      ∧ inv1.term_refs_ = 0 :: reps
      ∧ reps.length = [[98], [97], [(98 : Byte)]].dedup.length
      ∧ mapOpt (fun r => cstrAt inv1.terms_ (GetTermFromRef r)) reps = some texts
      ∧ texts.Pairwise (fun a b => strcmp a b < 0)
      ∧ ∀ r t, (r, t) ∈ List.zip [1, 3, 5] [[98], [97], [(98 : Byte)]] →
          ∃ j, GetTermNum inv1.terms_ r = some j ∧ 1 ≤ j ∧ j ≤ reps.length
            ∧ (inv1.term_refs_.get? j).bind (fun rep => cstrAt inv1.terms_ (GetTermFromRef rep))
                = some t
            ∧ ∀ j', 1 ≤ j' → j' ≤ reps.length →
                (inv1.term_refs_.get? j').bind
                    (fun rep => cstrAt inv1.terms_ (GetTermFromRef rep)) = some t →
                j' = j :=
  sortTerms_orders_and_numbers 0 [[98], [97], [98]] [⟨1, 0, 0⟩, ⟨3, 0, 1⟩, ⟨5, 1, 0⟩] []
    { terms_ := [0, 0, 0, 0, 98, 0, 0, 0, 0, 0, 0, 0, 97, 0, 0, 0, 0, 0, 0, 0, 98, 0, 0, 0],
      positions_ := [], term_refs_ := [0, 1, 3, 5], terms_per_doc_ := [] }
    [1, 3, 5] (by decide) (by decide) (by decide) (by decide)

/-! ## C3: `Sort` on a state produced by `Merge` -/

set_option maxRecDepth 100000 in
/-- C3 (evaluation at a failing input): a freshly constructed inverter stages one document with
the single token `a` and is flushed by `Merge`; the state has `term_refs_ = [1]` and one position
record. `Sort` then fails in `SortTerms`, which dereferences `term_refs_.begin() + 1`, the end of
the vector: no sorted `positions_` results. -/
theorem sort_single_token_out_of_range :
    (Merge (stageDocs id ColumnInverter.new [(0, [⟨[97], 0⟩])]) ColumnInverter.new).map
      (fun r => (r.1.term_refs_, r.1.positions_, r.1.Sort))
      = some ([1], [⟨1, 0, 0⟩], none) := by
  decide

/-! ## C4: the spill round trip -/

set_option maxRecDepth 100000 in
/-- C4 (evaluation at the witness of the claim): the documents `a`, `b`, `c` (ids 0, 1, 2) are
built on a freshly constructed inverter and spilled to an empty file. The run read back holds the
records `("",0,0), ("b",1,0), ("c",2,0)`: the first token keeps term number 0, for which
`SpillSortResults` never looks the term text up. -/
theorem spill_round_trip_witness_fails :
    ((buildCycle ColumnInverter.new [(0, [⟨[97], 0⟩]), (1, [⟨[98], 0⟩]), (2, [⟨[99], 0⟩])]).bind
        (fun inv => SpillSortResults inv FILE.empty 0)).bind (fun r => parseRun r.1 0)
      = some { data_size := 35, n_rec := 3, next_off := 51,
               records := [([], 0, 0), ([98], 1, 0), ([99], 2, 0)] } := by
  decide

/-! ## C5: `Merge` -/

/-- C5: two freshly constructed inverters `A` and `B` stage documents; the token texts take less
than `2 ^ 32` bytes of `terms_`. After `A.Merge(B)` both staging lists are empty and
`A.positions_` holds, in this order, one record per staged token of `A` (documents in staging
order, tokens in analyzer order) and then one per staged token of `B`; each record carries the
document id and word offset of its token, and its term reference points in `A.terms_` at the
bytes of the token text followed by a NUL (so that it reads back as the text when the text
has no NUL byte). -/
theorem merge_concatenates_staged_tokens {Val : Type} (analyze : Val → List Term)
    (docsA docsB : List (Nat × Val))
    (hsize : termsSize ((stagedTokens analyze docsA ++ stagedTokens analyze docsB).map
      (fun dt => dt.2.text_)) < 2 ^ 32) :
    ∃ A1 B1 : ColumnInverter,
      Merge (stageDocs analyze ColumnInverter.new docsA)
          (stageDocs analyze ColumnInverter.new docsB) = some (A1, B1)
      ∧ A1.terms_per_doc_ = [] ∧ B1.terms_per_doc_ = []
      ∧ List.Forall₂
          (fun (p : PosInfo) (dt : Nat × Term) =>
            p.doc_id_ = dt.1 ∧ p.term_pos_ = dt.2.word_offset_
            ∧ readBytes A1.terms_ (GetTermFromRef p.term_num_) (dt.2.text_.length + 1)
                = some (dt.2.text_ ++ [0])
            ∧ ((0 : Byte) ∉ dt.2.text_ →
                cstrAt A1.terms_ (GetTermFromRef p.term_num_) = some dt.2.text_))
          A1.positions_ (stagedTokens analyze docsA ++ stagedTokens analyze docsB) := by
  have hcat : stagedTokens analyze docsA ++ stagedTokens analyze docsB
      = stagedTokens id (docsA.map (fun d => (d.1, analyze d.2))
          ++ docsB.map (fun d => (d.1, analyze d.2))) := by
    rw [stagedTokens_append, stagedTokens_map, stagedTokens_map]
  rw [hcat] at hsize ⊢
  have hM := Merge_fresh_eq (docsA.map (fun d => (d.1, analyze d.2)))
    (docsB.map (fun d => (d.1, analyze d.2))) [] hsize
  simp only [stageDocs_eq, ColumnInverter.new, List.nil_append]
  refine ⟨_, _, hM, rfl, rfl, ?_⟩
  · apply forall₂_zipWith_of_mem
    · simp [termRefs_length]
    · intro r dt hm
      have hm2 := mem_zip_map_right (fun dt : Nat × Term => dt.2.text_) _ _ r dt hm
      have hr := layout_reads (fun _ => 0) _ hsize r dt.2.text_ hm2
      exact ⟨rfl, rfl, hr.1, hr.2.1⟩

set_option maxRecDepth 100000 in
/-- C5 (instance): `A` stages document 0 with tokens `x`, `y`; `B` stages document 1 with
tokens `y`, `z`. -/
theorem merge_concatenates_staged_tokens_witness :
    ∃ A1 B1 : ColumnInverter,
      Merge (stageDocs id ColumnInverter.new [(0, [⟨[120], 0⟩, ⟨[121], 1⟩])])
          (stageDocs id ColumnInverter.new [(1, [⟨[121], 0⟩, ⟨[122], 1⟩])]) = some (A1, B1)
      ∧ A1.terms_per_doc_ = [] ∧ B1.terms_per_doc_ = []
      ∧ List.Forall₂
          (fun (p : PosInfo) (dt : Nat × Term) =>
            p.doc_id_ = dt.1 ∧ p.term_pos_ = dt.2.word_offset_
            ∧ readBytes A1.terms_ (GetTermFromRef p.term_num_) (dt.2.text_.length + 1)
                = some (dt.2.text_ ++ [0])
            ∧ ((0 : Byte) ∉ dt.2.text_ →
                cstrAt A1.terms_ (GetTermFromRef p.term_num_) = some dt.2.text_))
          A1.positions_
          (stagedTokens id [(0, [⟨[120], 0⟩, ⟨[121], 1⟩])]
            ++ stagedTokens id [(1, [⟨[121], 0⟩, ⟨[122], 1⟩])]) :=
  merge_concatenates_staged_tokens id [(0, [⟨[120], 0⟩, ⟨[121], 1⟩])]
    [(1, [⟨[121], 0⟩, ⟨[122], 1⟩])] (by decide)

/-! ## C6: dictionary offsets in the FST -/

/-- C6: `ColumnIndexMerger::Merge` dumps one `TermMeta` per term the queue emits, in order, and
inserts into the FST builder the emitted terms in order, the `k`-th with the number of bytes
the `.dict` writer has received before the `k`-th `TermMeta` is dumped, which is the total size
of the first `k` dumped records (0 for the first term). -/
theorem merge_fst_maps_term_to_dict_offset (codec : Codec) (m : ColumnIndexMerger)
    (base_names : List String) (base_docids : List docid_t) :
    ∃ out : MergedSegment,
      m.Merge codec base_names base_docids = Except.ok out
      ∧ (mergedMetas codec m.flag_
          (SegmentTermPostingQueue.create m.index_dir_ base_names base_docids m.flag_).pending
          []).length
        = (SegmentTermPostingQueue.create m.index_dir_ base_names base_docids m.flag_).pending.length
      ∧ out.dict = (mergedMetas codec m.flag_
          (SegmentTermPostingQueue.create m.index_dir_ base_names base_docids m.flag_).pending
          []).flatMap (codec.encodeMeta m.flag_)
      ∧ out.fst = List.zip
          ((SegmentTermPostingQueue.create m.index_dir_ base_names base_docids m.flag_).pending.map
            Prod.fst)
          ((List.range
            (SegmentTermPostingQueue.create m.index_dir_ base_names base_docids
              m.flag_).pending.length).map
            (fun k => (((mergedMetas codec m.flag_
              (SegmentTermPostingQueue.create m.index_dir_ base_names base_docids m.flag_).pending
              []).take k).flatMap (codec.encodeMeta m.flag_)).length)) := by
  have h := mergeLoop_spec codec m.flag_
    (SegmentTermPostingQueue.create m.index_dir_ base_names base_docids m.flag_).pending
    MergeState.init rfl
  refine ⟨_, rfl, mergedMetas_length _ _ _ _, ?_, ?_⟩
  · simpa [MergeState.init] using h.1
  · simpa [MergeState.init] using h.2

/-! ## C7: `Lookup` -/

/-- C7: on a reader opened for the segments `base_names` (with at least as many base document
ids), `Lookup(term)` returns null exactly when `GetSegmentPosting(term)` returns true for none of
the segment readers; otherwise the iterator is initialised with the segment postings of exactly
the readers that returned true, one each, in the order the segments were passed to `Open`. -/
theorem lookup_gathers_segment_postings {T : Type}
    (gsp : DiskIndexSegmentReader → T → SegmentPosting → Bool × SegmentPosting) (term : T)
    (index_dir : String) (base_names : List String) (base_docids : List docid_t)
    (flag : optionflag_t) (hlen : base_names.length ≤ base_docids.length) :
    ∃ r : ColumnIndexReader,
      ColumnIndexReader.new.Open index_dir base_names base_docids flag = some r
      ∧ r.segment_readers_
          = List.zipWith (fun n d => CreateDiskSegmentReader index_dir n d flag) base_names
              base_docids
      ∧ (r.Lookup gsp term = none ↔
          ∀ rd ∈ r.segment_readers_, (gsp rd term SegmentPosting.default).1 = false)
      ∧ ∀ it : PostingIterator, r.Lookup gsp term = some it →
          it.seg_postings
            = (r.segment_readers_.filter (fun rd => (gsp rd term SegmentPosting.default).1)).map
                (fun rd => (gsp rd term SegmentPosting.default).2) := by
  refine ⟨_, openLoop_eq index_dir base_docids flag base_names 0 _ (by simpa using hlen), ?_,
    lookup_none_iff gsp term _, fun it hit => lookup_some_postings gsp term _ it hit⟩
  simp [ColumnIndexReader.new]

/-- C7 (instance): two segments are opened, of which only the second holds the term. -/
theorem lookup_gathers_segment_postings_witness :
    ∃ r : ColumnIndexReader,
      ColumnIndexReader.new.Open "dir" ["s1", "s2"] [0, 100] 1 = some r
      ∧ r.segment_readers_
          = List.zipWith (fun n d => CreateDiskSegmentReader "dir" n d 1) ["s1", "s2"] [0, 100]
      ∧ (r.Lookup (fun rd (_ : Nat) sp => (decide (rd.base_doc_id = 100), sp)) 7 = none ↔
          ∀ rd ∈ r.segment_readers_,
            ((fun rd (_ : Nat) sp => (decide (rd.base_doc_id = 100), sp)) rd 7
              SegmentPosting.default).1 = false)
      ∧ ∀ it : PostingIterator,
          r.Lookup (fun rd (_ : Nat) sp => (decide (rd.base_doc_id = 100), sp)) 7 = some it →
          it.seg_postings
            = (r.segment_readers_.filter
                (fun rd => ((fun rd (_ : Nat) sp => (decide (rd.base_doc_id = 100), sp)) rd 7
                  SegmentPosting.default).1)).map
                (fun rd => ((fun rd (_ : Nat) sp => (decide (rd.base_doc_id = 100), sp)) rd 7
                  SegmentPosting.default).2) :=
  lookup_gathers_segment_postings (fun rd (_ : Nat) sp => (decide (rd.base_doc_id = 100), sp)) 7
    "dir" ["s1", "s2"] [0, 100] 1 (by decide)

/-! ## C8: the run header -/

set_option maxRecDepth 100000 in
/-- C8 (evaluation at a failing input): a run of two records (23 bytes of record data) is
appended at file offset `2 ^ 32`. The header read back at that offset holds `data_size = 0`,
`n_rec = 2` and `next_off = 2 ^ 32 + 39`; the patched `data_size` 23 went to file offset 0, since
`data_size_pos` is the `u32` truncation of the offset. The file position and `tuple_count` are as
claimed. -/
theorem spill_header_offset_truncated :
    ((buildCycle ColumnInverter.new [(0, [⟨[97], 0⟩]), (1, [⟨[98], 0⟩])]).bind
        (fun inv => SpillSortResults inv { data := fun _ => 0, size := 2 ^ 32, pos := 2 ^ 32 } 7)).bind
        (fun r => (parseRun r.1 (2 ^ 32)).map
          (fun run => (run, r.1.read 0 4, ftell r.1, r.2)))
      = some ({ data_size := 0, n_rec := 2, next_off := 2 ^ 32 + 39,
                records := [([], 0, 0), ([98], 1, 0)] },
              some [23, 0, 0, 0], 2 ^ 32 + 39, 9) := by
  decide

/-! ## C9: `AddTerm` -/

/-- C9: starting from an empty `terms_`, after any sequence of `AddTerm` calls the next call
with a term `t` (the buffer staying below `2 ^ 32` bytes) appends exactly 4 zero bytes, the
bytes of `t`, a NUL and `3 - |t| % 4` zero bytes, which makes the size a multiple of 4; the
bytes written before stay as they are; the returned reference is appended to `term_refs_`, is
positive, and four times it is the offset of the first byte of `t`. -/
theorem addTerm_appends_padded_term (init : ColumnInverter) (ts : List (List Byte))
    (t : List Byte) (hinit : init.terms_ = []) (hsize : termsSize (ts ++ [t]) < 2 ^ 32) :
    ∃ (inv : ColumnInverter) (refs : List Nat),
      addTerms init ts = some (inv, refs)
      ∧ inv.term_refs_ = init.term_refs_ ++ refs
      ∧ AddTerm inv t
          = some ({ inv with
              terms_ := inv.terms_ ++
                (List.replicate 4 0 ++ t ++ [0] ++ List.replicate (3 - t.length % 4) 0),
              term_refs_ := inv.term_refs_ ++ [(inv.terms_.length + 4) / 4] },
            (inv.terms_.length + 4) / 4)
      ∧ (inv.terms_.length + (4 + t.length + 1 + (3 - t.length % 4))) % 4 = 0
      ∧ 0 < (inv.terms_.length + 4) / 4
      ∧ 4 * ((inv.terms_.length + 4) / 4) = inv.terms_.length + 4 := by
  rw [termsSize_append, termsSize_cons, termsSize_nil] at hsize
  have h0 : init.terms_.length = 0 := by rw [hinit]; rfl
  have hadd := addTerms_eq ts init (by rw [h0]) (by rw [h0]; omega)
  refine ⟨_, _, hadd, rfl, ?_, ?_, ?_, ?_⟩
  · have hlen : (init.terms_ ++ termsLayout (fun _ => 0) init.terms_.length ts).length
        = termsSize ts := by
      simp [termsLayout_length, h0]
    have hmod := termsSize_mod ts
    rw [AddTerm_eq _ t (by simp only [hlen]; exact hmod) (by simp only [hlen]; omega)]
    simp [storedTerm, le32_zero, List.append_assoc]
  all_goals
    have hlen : (init.terms_ ++ termsLayout (fun _ => 0) init.terms_.length ts).length
        = termsSize ts := by
      simp [termsLayout_length, h0]
    have hmod := termsSize_mod ts
    simp only [hlen]
    omega

/-- C9 (instance): after the terms `a` and the empty term, the term `abcd` is added. -/
theorem addTerm_appends_padded_term_witness :
    ∃ (inv : ColumnInverter) (refs : List Nat),
      addTerms ColumnInverter.new [[97], []] = some (inv, refs)
      ∧ inv.term_refs_ = ColumnInverter.new.term_refs_ ++ refs
      ∧ AddTerm inv [97, 98, 99, 100]
          = some ({ inv with
              terms_ := inv.terms_ ++
                (List.replicate 4 0 ++ [97, 98, 99, 100] ++ [0] ++
                  List.replicate (3 - [97, 98, 99, (100 : Byte)].length % 4) 0),
              term_refs_ := inv.term_refs_ ++ [(inv.terms_.length + 4) / 4] },
            (inv.terms_.length + 4) / 4)
      ∧ (inv.terms_.length +
          (4 + [97, 98, 99, (100 : Byte)].length + 1 + (3 - [97, 98, 99, (100 : Byte)].length % 4)))
          % 4 = 0
      ∧ 0 < (inv.terms_.length + 4) / 4
      ∧ 4 * ((inv.terms_.length + 4) / 4) = inv.terms_.length + 4 :=
  addTerm_appends_padded_term ColumnInverter.new [[97], []] [97, 98, 99, 100] rfl (by decide)

/-! ## C10: option flags of the input segments -/

/-- C10 (counterexample): the segments `s1` and `s2` of `mixedDir` were built with different
option flags, and `Merge` on them reports no error: it emits the merged segment, with one
dictionary record and one FST entry for the term `h`. -/
theorem merge_mixed_flags_emits_segment :
    (mixedDir "s1").flag ≠ (mixedDir "s2").flag
    ∧ ColumnIndexMerger.Merge plainCodec { index_dir_ := mixedDir, flag_ := 1 } ["s1", "s2"] [0, 1]
      = Except.ok
          { dict := [2, 0, 0, 0, 1, 0, 0, 0, 0, 0, 0, 0, 0, 0, 0, 0, 0, 0, 0, 0, 20, 0, 0, 0],
            pos := [0, 0, 0, 0, 1, 0, 0, 0, 0, 0, 0, 0, 1, 0, 0, 0, 0, 0, 0, 0],
            fst := [([104], 0)] } :=
  ⟨by decide, rfl⟩

/-- C10 (amended): `Merge` has no format-mismatch path. It reads every input segment under the
one flag of the merger: two directories whose segments hold the same dictionaries and postings,
whatever flags the segments were built with, give the same result, and that result is a merged
segment, never an error. -/
theorem merge_ignores_segment_flags (codec : Codec) (d1 d2 : IndexDir) (flag_ : optionflag_t)
    (base_names : List String) (base_docids : List docid_t)
    (hdict : ∀ name, (d1 name).dict = (d2 name).dict) :
    ColumnIndexMerger.Merge codec { index_dir_ := d1, flag_ := flag_ } base_names base_docids
      = ColumnIndexMerger.Merge codec { index_dir_ := d2, flag_ := flag_ } base_names base_docids
    ∧ ∃ out : MergedSegment,
        ColumnIndexMerger.Merge codec { index_dir_ := d1, flag_ := flag_ } base_names base_docids
          = Except.ok out := by
  refine ⟨?_, _, rfl⟩
  simp only [ColumnIndexMerger.Merge]
  rw [create_congr d1 d2 base_names base_docids flag_ flag_ hdict]

/-- C10 (instance): the directory with mixed segment flags merges to the same segment as the
directory in which every segment has flag 1. -/
theorem merge_ignores_segment_flags_witness :
    (∀ name, (mixedDir name).dict = (uniformDir name).dict)
    ∧ (ColumnIndexMerger.Merge plainCodec { index_dir_ := mixedDir, flag_ := 1 } ["s1", "s2"]
          [0, 1]
        = ColumnIndexMerger.Merge plainCodec { index_dir_ := uniformDir, flag_ := 1 } ["s1", "s2"]
          [0, 1]
      ∧ ∃ out : MergedSegment,
          ColumnIndexMerger.Merge plainCodec { index_dir_ := mixedDir, flag_ := 1 } ["s1", "s2"]
            [0, 1] = Except.ok out) :=
  ⟨fun _ => rfl, merge_ignores_segment_flags plainCodec mixedDir uniformDir 1 ["s1", "s2"] [0, 1]
    (fun _ => rfl)⟩

/-! ## C11: tokens with an empty text or a NUL byte -/

set_option maxRecDepth 100000 in
/-- C11 (counterexample): document 0 holds a token with empty text at offset 0 and a token with
the text `a`, NUL, `b` at offset 1. `Merge` adds 8 bytes to `terms_`, a term reference and a
position record for each of the two. -/
theorem merge_keeps_empty_and_nul_tokens :
    (Merge (stageDocs id ColumnInverter.new [(0, [⟨[], 0⟩, ⟨[97, 0, 98], 1⟩])])
        ColumnInverter.new).map (fun r => (r.1.terms_, r.1.term_refs_, r.1.positions_))
      = some ([0, 0, 0, 0, 0, 0, 0, 0, 0, 0, 0, 0, 97, 0, 98, 0], [1, 3],
              [⟨1, 0, 0⟩, ⟨3, 0, 1⟩]) := by
  decide

/-- C11 (amended): `Merge` has no test on the token text. Two freshly constructed inverters `A`
and `B` stage documents whose token texts take less than `2 ^ 32` bytes of `terms_`. After
`A.Merge(B)` every staged token, whether its text is empty, holds a NUL byte or neither, has
exactly one position record and one term reference, in staging order, and occupies its 4
reserved bytes, its text, a NUL and the padding in `terms_`, at least 8 bytes. -/
theorem merge_adds_a_record_for_every_token {Val : Type} (analyze : Val → List Term)
    (docsA docsB : List (Nat × Val))
    (hsize : termsSize ((stagedTokens analyze docsA ++ stagedTokens analyze docsB).map
      (fun dt => dt.2.text_)) < 2 ^ 32) :
    ∃ A1 B1 : ColumnInverter,
      Merge (stageDocs analyze ColumnInverter.new docsA)
          (stageDocs analyze ColumnInverter.new docsB) = some (A1, B1)
      ∧ A1.terms_ = termsLayout (fun _ => 0) 0
          ((stagedTokens analyze docsA ++ stagedTokens analyze docsB).map (fun dt => dt.2.text_))
      ∧ A1.term_refs_ = termRefs 0
          ((stagedTokens analyze docsA ++ stagedTokens analyze docsB).map (fun dt => dt.2.text_))
      ∧ A1.positions_ = List.zipWith
          (fun r (dt : Nat × Term) => PosInfo.mk r dt.1 dt.2.word_offset_) A1.term_refs_
          (stagedTokens analyze docsA ++ stagedTokens analyze docsB)
      ∧ A1.positions_.length = (stagedTokens analyze docsA ++ stagedTokens analyze docsB).length
      ∧ A1.term_refs_.length = (stagedTokens analyze docsA ++ stagedTokens analyze docsB).length
      ∧ A1.terms_.length
          = (((stagedTokens analyze docsA ++ stagedTokens analyze docsB).map
              (fun dt => storedSize dt.2.text_.length))).sum
      ∧ ∀ dt ∈ stagedTokens analyze docsA ++ stagedTokens analyze docsB,
          8 ≤ storedSize dt.2.text_.length := by
  have hcat : stagedTokens analyze docsA ++ stagedTokens analyze docsB
      = stagedTokens id (docsA.map (fun d => (d.1, analyze d.2))
          ++ docsB.map (fun d => (d.1, analyze d.2))) := by
    rw [stagedTokens_append, stagedTokens_map, stagedTokens_map]
  rw [hcat] at hsize ⊢
  have hM := Merge_fresh_eq (docsA.map (fun d => (d.1, analyze d.2)))
    (docsB.map (fun d => (d.1, analyze d.2))) [] hsize
  simp only [stageDocs_eq, ColumnInverter.new, List.nil_append]
  refine ⟨_, _, hM, rfl, rfl, rfl, ?_, ?_, ?_, ?_⟩
  · simp [termRefs_length]
  · simp [termRefs_length]
  · simp only [termsLayout_length, termsSize, List.map_map]
    rfl
  · intro dt _
    unfold storedSize
    omega

set_option maxRecDepth 100000 in
/-- C11 (instance): document 0 with a token of empty text and a token whose text holds a NUL
byte. -/
theorem merge_adds_a_record_for_every_token_witness :
    ∃ A1 B1 : ColumnInverter,
      Merge (stageDocs id ColumnInverter.new [(0, [⟨[], 0⟩, ⟨[97, 0, 98], 1⟩])])
          (stageDocs id ColumnInverter.new []) = some (A1, B1)
      ∧ A1.terms_ = termsLayout (fun _ => 0) 0
          ((stagedTokens id [(0, [⟨[], 0⟩, ⟨[97, 0, 98], 1⟩])] ++ stagedTokens id []).map
            (fun dt => dt.2.text_))
      ∧ A1.term_refs_ = termRefs 0
          ((stagedTokens id [(0, [⟨[], 0⟩, ⟨[97, 0, 98], 1⟩])] ++ stagedTokens id []).map
            (fun dt => dt.2.text_))
      ∧ A1.positions_ = List.zipWith
          (fun r (dt : Nat × Term) => PosInfo.mk r dt.1 dt.2.word_offset_) A1.term_refs_
          (stagedTokens id [(0, [⟨[], 0⟩, ⟨[97, 0, 98], 1⟩])] ++ stagedTokens id [])
      ∧ A1.positions_.length
          = (stagedTokens id [(0, [⟨[], 0⟩, ⟨[97, 0, 98], 1⟩])] ++ stagedTokens id []).length
      ∧ A1.term_refs_.length
          = (stagedTokens id [(0, [⟨[], 0⟩, ⟨[97, 0, 98], 1⟩])] ++ stagedTokens id []).length
      ∧ A1.terms_.length
          = (((stagedTokens id [(0, [⟨[], 0⟩, ⟨[97, 0, 98], 1⟩])] ++ stagedTokens id []).map
              (fun dt => storedSize dt.2.text_.length))).sum
      ∧ ∀ dt ∈ stagedTokens id [(0, [⟨[], 0⟩, ⟨[97, 0, 98], 1⟩])] ++ stagedTokens id [],
          8 ≤ storedSize dt.2.text_.length :=
  merge_adds_a_record_for_every_token id [(0, [⟨[], 0⟩, ⟨[97, 0, 98], 1⟩])] [] (by decide)

/-! ## C12: the sentinel of `term_refs_` -/

set_option maxRecDepth 100000 in
/-- C12 (evaluation at a failing input): a freshly constructed inverter stages document 0 with
the tokens `a`, `b` and is flushed by `Merge`; then `SortTerms` runs. Afterwards `term_refs_` is
`[1, 3]`: its entry 0 is the reference `AddTerm` returned for `a`, a term of the batch, not a
sentinel, and it has 2 entries although the batch has 2 distinct terms (3 would be
`term_count + 1`). -/
theorem sortTerms_fresh_inverter_no_sentinel :
    ((Merge (stageDocs id ColumnInverter.new [(0, [⟨[97], 0⟩, ⟨[98], 1⟩])])
        ColumnInverter.new).bind (fun r => SortTerms r.1)).map
      (fun inv => (inv.term_refs_, inv.term_refs_.map (GetTerm inv.terms_)))
      = some ([1, 3], [[97], [98]]) := by
  decide

/-! ## C13: a second build cycle on the same inverter -/

set_option maxRecDepth 100000 in
/-- C13 (counterexample): the batch `batch_a_b` (document `0xFFFFFFFF`, tokens `a` at 0 and `b`
at 1) is staged on a freshly constructed inverter. The first cycle completes, `GeneratePosting`
included, and issues `AddPosition(1)` on the posting of `b`. It leaves `sorted_a_b`: `terms_`
with 16 bytes, `term_refs_ = [1, 3]` and two position records. The state with these bytes in
place, as a rewound bump pointer leaves them while nothing else allocates from the pool, is
among the states a reset can leave. In the second cycle over the same batch `Merge` adds nothing
and leaves the batch in `terms_per_doc_`, `Sort` reads the stale term number 0 as a term
reference, in front of `terms_`, and the cycle issues no sequence of postings. -/
theorem second_build_cycle_fails_after_complete_first :
    commitCycle ColumnInverter.new batch_a_b
      = some (sorted_a_b, [([98], [PostingCall.AddPosition 1])])
    ∧ sorted_a_b.poolResetLeaves sorted_a_b
    ∧ (Merge (stageDocs id sorted_a_b batch_a_b) ColumnInverter.new).map (fun r => r.1)
        = some { terms_ := [0, 0, 0, 0, 97, 0, 0, 0, 1, 0, 0, 0, 98, 0, 0, 0],
                 positions_ := [⟨0, 4294967295, 0⟩, ⟨1, 4294967295, 1⟩],
                 term_refs_ := [1, 3],
                 terms_per_doc_ := [(4294967295, [⟨[97], 0⟩, ⟨[98], 1⟩])] }
    ∧ commitCycle sorted_a_b batch_a_b = none := by
  refine ⟨?_, ?_, ?_, ?_⟩ <;> decide

/-- C13 (amended): a batch was staged on a freshly constructed inverter, flushed by `Merge` and
sorted by `Sort`, which left the state `s`; a complete cycle leaves this state as well, since
`GeneratePosting` changes nothing in the inverter. `left` is any state a pool `Reset` or
`Release` can leave of `s`: the three vectors with their sizes, whatever their elements. Then
`positions_` still has at least two records, and in a second cycle `Merge` adds nothing to
`terms_`, `term_refs_` and `positions_` and leaves the batch staged for it in `terms_per_doc_`.
The postings this cycle issues are those `Sort` and `GeneratePosting` make of `left` alone: they
do not depend on the batch staged for the second cycle. -/
theorem second_cycle_works_on_leftover_state (docs docs1 : List (Nat × List Term))
    (s left : ColumnInverter) (hfirst : buildCycle ColumnInverter.new docs = some s)
    (hleft : s.poolResetLeaves left) :
    (∀ r, commitCycle ColumnInverter.new docs = some r → r.1 = s)
    ∧ 2 ≤ left.positions_.length
    ∧ Merge (stageDocs id left docs1) ColumnInverter.new
        = some ({ left with terms_per_doc_ := docs1 }, ColumnInverter.new)
    ∧ (commitCycle left docs1).map (fun r => r.2)
        = (left.Sort.bind (fun t => GeneratePosting t { postings := [] })).map
            (fun m => m.postings) := by
  obtain ⟨h2, htpd⟩ := buildCycle_fresh_some docs s hfirst
  obtain ⟨_, _, hlp, hlt⟩ := hleft
  have hne : left.positions_ ≠ [] := by
    intro h
    rw [h] at hlp
    simp only [List.length_nil] at hlp
    omega
  have hstage : stageDocs id left docs1 = { left with terms_per_doc_ := docs1 } := by
    rw [stageDocs_eq, hlt, htpd]
    simp
  have hM : Merge (stageDocs id left docs1) ColumnInverter.new
      = some ({ left with terms_per_doc_ := docs1 }, ColumnInverter.new) := by
    rw [hstage]
    exact Merge_nonempty_positions _ hne
  refine ⟨?_, by omega, hM, ?_⟩
  · intro r hr
    unfold commitCycle at hr
    rw [hfirst] at hr
    dsimp only at hr
    split at hr
    · simp at hr
    · simp only [Option.some.injEq] at hr
      rw [← hr]
  · unfold commitCycle buildCycle
    rw [hM]
    dsimp only
    rw [Sort_set_terms_per_doc]
    cases left.Sort with
    | none => rfl
    | some t =>
      simp only [Option.map_some', Option.some_bind, GeneratePosting_set_terms_per_doc]
      cases GeneratePosting t { postings := [] } with
      | none => rfl
      | some m => rfl

set_option maxRecDepth 100000 in
/-- C13 (instance): the first cycle over `batch_a_b` leaves `sorted_a_b`; the pool reset leaves
the vectors with their sizes and with other elements, `leftover_a_b`; the batch of the second
cycle is document 7 with the token `c`. The second cycle issues
`EndDocument(1), EndDocument(2), AddPosition(5)` on the posting of `b`, made of the elements
left over, and nothing for `c` or document 7. -/
theorem second_cycle_works_on_leftover_state_witness :
    (buildCycle ColumnInverter.new batch_a_b = some sorted_a_b
      ∧ sorted_a_b.poolResetLeaves leftover_a_b)
    ∧ ((∀ r, commitCycle ColumnInverter.new batch_a_b = some r → r.1 = sorted_a_b)
      ∧ 2 ≤ leftover_a_b.positions_.length
      ∧ Merge (stageDocs id leftover_a_b [(7, [⟨[99], 0⟩])]) ColumnInverter.new
          = some ({ leftover_a_b with terms_per_doc_ := [(7, [⟨[99], 0⟩])] }, ColumnInverter.new)
      ∧ (commitCycle leftover_a_b [(7, [⟨[99], 0⟩])]).map (fun r => r.2)
          = (leftover_a_b.Sort.bind (fun t => GeneratePosting t { postings := [] })).map
              (fun m => m.postings))
    ∧ (commitCycle leftover_a_b [(7, [⟨[99], 0⟩])]).map (fun r => r.2)
        = some [([98], [PostingCall.EndDocument 1 0, PostingCall.EndDocument 2 0,
                        PostingCall.AddPosition 5])] :=
  ⟨⟨by decide, by decide⟩,
    second_cycle_works_on_leftover_state batch_a_b [(7, [⟨[99], 0⟩])] sorted_a_b leftover_a_b
      (by decide) (by decide),
    by decide⟩

/-! ## C14: the `rec_len` field of a spill record -/

/-- C14 (counterexample): the one term of the inverter has 65527 bytes (the byte `a` repeated)
and term number 1, and one position record refers to it. `SpillSortResults` on an empty file
writes the record at offset 16: its `rec_len` field holds 0, while 65527 + 1 + 4 + 4 = 65536
bytes follow the field (the file position ends at 16 + 2 + 65536). -/
theorem spill_rec_len_wraps_for_long_term :
    ((SpillSortResults
        { terms_ := storedTerm 1 (List.replicate 65527 97), positions_ := [⟨1, 0, 0⟩],
          term_refs_ := [0, 1], terms_per_doc_ := [] } FILE.empty 0).bind
        (fun r => (r.1.read 16 2).map (fun bs => (bs, ftell r.1))))
      = some ([0, 0], 16 + 2 + 65536) := by
  rw [spill_one_long_record 65527]
  decide

/-- C14 (amended): on an inverter whose position records all carry a term number other than 0
that `GetTermFromNum` resolves to a NUL-terminated text of at most 65526 bytes,
`SpillSortResults` leaves from offset `ftell + 16` on the records of `positions_` in order, and
in each of them the `u16` `rec_len` field holds the length of the term text plus `1 + 4 + 4`,
which is the number of bytes of the record that follow the field: the text, the NUL, `doc_id`
and `term_pos`. -/
theorem spill_rec_len_counts_record_bytes (inv : ColumnInverter) (f : FILE) (tuple_count : Nat)
    (txt : Nat → List Byte)
    (hlook : ∀ p ∈ inv.positions_, p.term_num_ ≠ 0 ∧
      (match GetTermFromNum inv.term_refs_ p.term_num_ with
        | none => none
        | some off => cstrAt inv.terms_ off) = some (txt p.term_num_))
    (hlen : ∀ p ∈ inv.positions_, (txt p.term_num_).length ≤ 65526) :
    ∃ (f1 : FILE) (n : Nat),
      SpillSortResults inv f tuple_count = some (f1, n)
      ∧ f1.holds (ftell f + 16)
          (inv.positions_.flatMap (fun p =>
            le16 ((txt p.term_num_).length + 1 + 4 + 4)
              ++ (txt p.term_num_ ++ [0] ++ (le32 p.doc_id_ ++ le32 p.term_pos_))))
      ∧ ∀ p ∈ inv.positions_,
          leVal (le16 ((txt p.term_num_).length + 1 + 4 + 4))
              = (txt p.term_num_).length + 1 + 4 + 4
          ∧ (txt p.term_num_ ++ [0] ++ (le32 p.doc_id_ ++ le32 p.term_pos_)).length
              = (txt p.term_num_).length + 1 + 4 + 4 := by
  obtain ⟨f1, hS, _, hh, _⟩ := spill_records_hold inv f tuple_count txt hlook
  refine ⟨f1, _, hS, ?_, ?_⟩
  · have : (inv.positions_.flatMap (fun p =>
        le16 ((txt p.term_num_).length + 1 + 4 + 4)
          ++ (txt p.term_num_ ++ [0] ++ (le32 p.doc_id_ ++ le32 p.term_pos_))))
        = recordsBytes txt inv.positions_ := by
      unfold recordsBytes recordBytes
      congr 1
    rw [this]
    exact hh
  · intro p hp
    have := hlen p hp
    refine ⟨leVal_le16 _ (by omega), ?_⟩
    simp [le32_length]

set_option maxRecDepth 100000 in
/-- C14 (instance): the terms `a` and `bc` with numbers 1 and 2, three position records, an
empty file. -/
theorem spill_rec_len_counts_record_bytes_witness :
    ∃ (f1 : FILE) (n : Nat),
      SpillSortResults
          { terms_ := [1, 0, 0, 0, 97, 0, 0, 0, 2, 0, 0, 0, 98, 99, 0, 0],
            positions_ := [⟨1, 0, 0⟩, ⟨1, 1, 2⟩, ⟨2, 1, 0⟩], term_refs_ := [0, 1, 3],
            terms_per_doc_ := [] } FILE.empty 0 = some (f1, n)
      ∧ f1.holds (ftell FILE.empty + 16)
          (([⟨1, 0, 0⟩, ⟨1, 1, 2⟩, ⟨2, 1, 0⟩] : List PosInfo).flatMap (fun p =>
            le16 ((texts_a_bc p.term_num_).length + 1 + 4 + 4)
              ++ (texts_a_bc p.term_num_ ++ [0] ++ (le32 p.doc_id_ ++ le32 p.term_pos_))))
      ∧ ∀ p ∈ ([⟨1, 0, 0⟩, ⟨1, 1, 2⟩, ⟨2, 1, 0⟩] : List PosInfo),
          leVal (le16 ((texts_a_bc p.term_num_).length + 1 + 4 + 4))
              = (texts_a_bc p.term_num_).length + 1 + 4 + 4
          ∧ (texts_a_bc p.term_num_ ++ [0] ++ (le32 p.doc_id_ ++ le32 p.term_pos_)).length
              = (texts_a_bc p.term_num_).length + 1 + 4 + 4 :=
  spill_rec_len_counts_record_bytes
    { terms_ := [1, 0, 0, 0, 97, 0, 0, 0, 2, 0, 0, 0, 98, 99, 0, 0],
      positions_ := [⟨1, 0, 0⟩, ⟨1, 1, 2⟩, ⟨2, 1, 0⟩], term_refs_ := [0, 1, 3],
      terms_per_doc_ := [] } FILE.empty 0 texts_a_bc (by decide) (by decide)

/-! ## C15: the `AddPosition` calls of `GeneratePosting` -/

set_option maxRecDepth 100000 in
/-- C15 (evaluation at a failing input): the term `a` has term number 1 and occurs in document 0
at the positions 0 and 3 and in document 1 at position 3. `GeneratePosting` issues
`EndDocument(0), AddPosition(3), EndDocument(1)` on the posting of `a`: position 0 of document 0
is dropped (`last_term_pos` starts at 0) and position 3 of document 1 is dropped (it equals the
last position of the preceding group, and `last_term_pos` is not reset). -/
theorem generatePosting_drops_positions :
    (GeneratePosting
        { terms_ := [1, 0, 0, 0, 97, 0, 0, 0], positions_ := [⟨1, 0, 0⟩, ⟨1, 0, 3⟩, ⟨1, 1, 3⟩],
          term_refs_ := [0, 1], terms_per_doc_ := [] } { postings := [] }).map
      (fun m => m.postings)
      = some [([97], [PostingCall.EndDocument 0 0, PostingCall.AddPosition 3,
                      PostingCall.EndDocument 1 0])] := by
  decide

/-! ## C16: the `EndDocument` calls of `GeneratePosting` -/

set_option maxRecDepth 100000 in
/-- C16 (evaluation at a failing input): the term `a` (number 1) occurs in document 0 at the
positions 1, 2 and in document 1 at position 4; the term `b` (number 2) occurs in document 1 at
position 5. On the posting of `a` the calls are `EndDocument(0), AddPosition(1), AddPosition(2),
EndDocument(1), AddPosition(4)` and on that of `b` `EndDocument(1), AddPosition(5)`: every
`EndDocument(d, 0)` is issued before the `AddPosition` calls of `d`, and no call closes the last
document of a term after its positions. -/
theorem generatePosting_endDocument_opens_document :
    (GeneratePosting
        { terms_ := [1, 0, 0, 0, 97, 0, 0, 0, 2, 0, 0, 0, 98, 0, 0, 0],
          positions_ := [⟨1, 0, 1⟩, ⟨1, 0, 2⟩, ⟨1, 1, 4⟩, ⟨2, 1, 5⟩],
          term_refs_ := [0, 1, 3], terms_per_doc_ := [] } { postings := [] }).map
      (fun m => m.postings)
      = some [([97], [PostingCall.EndDocument 0 0, PostingCall.AddPosition 1,
                      PostingCall.AddPosition 2, PostingCall.EndDocument 1 0,
                      PostingCall.AddPosition 4]),
              ([98], [PostingCall.EndDocument 1 0, PostingCall.AddPosition 5])] := by
  decide

/-! ## C17: the term numbers in `positions_` after `SortTerms` -/

set_option maxRecDepth 100000 in
/-- C17 (counterexample): after the sentinel 0 the texts `a`, NUL, `b` (token 0) and `a`
(token 1) were added, with references 1 and 3, and `positions_` holds the two references. After
`SortTerms` both records hold term number 1 and `term_refs_[1]` is the reference 3, at which
`terms_` holds the bytes `a`, NUL, NUL, NUL: the term the number of token 0 refers to is `a`, not
the text of token 0. -/
theorem sortTerms_nul_token_gets_other_term :
    ((addTerms { terms_ := [], positions_ := [], term_refs_ := [0], terms_per_doc_ := [] }
        [[97, 0, 98], [97]]).bind
      (fun r => SortTerms { r.1 with positions_ := [⟨1, 0, 0⟩, ⟨3, 0, 1⟩] })).map
      (fun inv => (inv.term_refs_, inv.positions_,
        (inv.term_refs_.get? 1).bind (fun rep => readBytes inv.terms_ (GetTermFromRef rep) 4),
        (inv.term_refs_.get? 1).bind (fun rep => cstrAt inv.terms_ (GetTermFromRef rep))))
      = some ([0, 3], [⟨1, 0, 0⟩, ⟨1, 0, 1⟩], some [97, 0, 0, 0], some [97]) := by
  decide

/-- C17 (amended): `term_refs_` is a sentinel followed by the references `AddTerm` returned for
the texts of the tokens `toks` (at least one, none with a NUL byte), and `positions_[i]` holds
the reference, the document id and the word offset of token `i`. Then `SortTerms` succeeds with
some number `K` of terms in `term_refs_[1..K]`, and afterwards `positions_[i]` holds, for every
`i`, a term number in `[1, K]` whose entry of `term_refs_` refers to exactly the text of token
`i`, next to the unchanged document id and word offset; the order of the records is the order of
the tokens. -/
theorem sortTerms_renumbers_positions (sentinel : Nat) (toks : List (Nat × Term))
    (tpd : List (Nat × List Term)) (inv : ColumnInverter) (refs : List Nat)
    (hne : toks ≠ []) (hnul : ∀ dt ∈ toks, (0 : Byte) ∉ dt.2.text_)
    (hadd : addTerms { terms_ := [], positions_ := [], term_refs_ := [sentinel],
                       terms_per_doc_ := tpd } (toks.map (fun dt => dt.2.text_))
              = some (inv, refs)) :
    ∃ (inv1 : ColumnInverter) (K : Nat),
      SortTerms
          { inv with
            positions_ :=
              List.zipWith (fun r (dt : Nat × Term) => PosInfo.mk r dt.1 dt.2.word_offset_)
                refs toks }
        = some inv1
      ∧ inv1.term_refs_.length = K + 1
      ∧ List.Forall₂
          (fun (p : PosInfo) (dt : Nat × Term) =>
            1 ≤ p.term_num_ ∧ p.term_num_ ≤ K
            ∧ (inv1.term_refs_.get? p.term_num_).bind
                (fun rep => cstrAt inv1.terms_ (GetTermFromRef rep)) = some dt.2.text_
            ∧ p.doc_id_ = dt.1 ∧ p.term_pos_ = dt.2.word_offset_)
          inv1.positions_ toks := by
  have hsz0 := addTerms_some_size (toks.map (fun dt => dt.2.text_))
    { terms_ := [], positions_ := [], term_refs_ := [sentinel], terms_per_doc_ := tpd } _ rfl
    (by simp) hadd
  have hsz : termsSize (toks.map (fun dt => dt.2.text_)) < 2 ^ 32 := by simpa using hsz0
  rw [addTerms_eq (toks.map (fun dt => dt.2.text_))
    { terms_ := [], positions_ := [], term_refs_ := [sentinel], terms_per_doc_ := tpd } rfl
    (by simpa using hsz)] at hadd
  simp only [List.length_nil, List.nil_append, List.singleton_append, Option.some.injEq,
    Prod.mk.injEq] at hadd
  obtain ⟨hinv, hrefs⟩ := hadd
  subst hinv
  subst hrefs
  have hne' : toks.map (fun dt => dt.2.text_) ≠ [] := by simpa using hne
  have hnul' : ∀ t ∈ toks.map (fun dt => dt.2.text_), (0 : Byte) ∉ t := by
    intro t ht
    obtain ⟨dt, hdt, rfl⟩ := List.mem_map.mp ht
    exact hnul dt hdt
  obtain ⟨hdr1, reps, hsort, _, _, hsub, _, hall⟩ :=
    SortTerms_spec sentinel (toks.map (fun dt => dt.2.text_))
      (List.zipWith (fun r (dt : Nat × Term) => PosInfo.mk r dt.1 dt.2.word_offset_)
        (termRefs 0 (toks.map (fun dt => dt.2.text_))) toks) tpd hne' hsz hnul'
      (fun p hp => (mem_zipWith_positions _ _ p hp).1)
  refine ⟨_, reps.length, hsort, by simp, ?_⟩
  simp only [List.map_zipWith]
  apply forall₂_zipWith_of_mem
  · simp [termRefs_length]
  · intro r dt hm
    have hm2 := mem_zip_map_right (fun dt : Nat × Term => dt.2.text_) _ _ r dt hm
    obtain ⟨j, rep, h1, h2, h3⟩ := hall r (List.of_mem_zip hm2).1
    have hj : j < reps.length := by
      rw [List.get?_eq_getElem?] at h2
      exact (List.getElem?_eq_some_iff.mp h2).1
    refine ⟨by simp only [h1]; omega, by simp only [h1]; omega, ?_, rfl, rfl⟩
    simp only [h1, List.get?_cons_succ, h2, Option.some_bind]
    obtain ⟨t', ht'⟩ := mem_termRefs_zip _ 0 rep (hsub rep (List.get?_mem h2))
    rw [(GetTerm_layout hdr1 _ hsz hnul' rep t' ht').1]
    rw [(GetTerm_layout (fun _ => 0) _ hsz hnul' rep t' ht').2,
      (GetTerm_layout (fun _ => 0) _ hsz hnul' r dt.2.text_ hm2).2] at h3
    rw [h3]

set_option maxRecDepth 100000 in
/-- C17 (instance): the tokens `b`, `a`, `b` of documents 0, 0, 1 were added after the
sentinel 0. -/
theorem sortTerms_renumbers_positions_witness :
    ∃ (inv1 : ColumnInverter) (K : Nat),
      SortTerms
          { ({ terms_ := [0, 0, 0, 0, 98, 0, 0, 0, 0, 0, 0, 0, 97, 0, 0, 0, 0, 0, 0, 0, 98, 0, 0, 0],
               positions_ := [], term_refs_ := [0, 1, 3, 5], terms_per_doc_ := [] } :
              ColumnInverter) with
            positions_ :=
              List.zipWith (fun r (dt : Nat × Term) => PosInfo.mk r dt.1 dt.2.word_offset_)
                [1, 3, 5] [(0, ⟨[98], 0⟩), (0, ⟨[97], 1⟩), (1, ⟨[98], 0⟩)] }
        = some inv1
      ∧ inv1.term_refs_.length = K + 1
      ∧ List.Forall₂
          (fun (p : PosInfo) (dt : Nat × Term) =>
            1 ≤ p.term_num_ ∧ p.term_num_ ≤ K
            ∧ (inv1.term_refs_.get? p.term_num_).bind
                (fun rep => cstrAt inv1.terms_ (GetTermFromRef rep)) = some dt.2.text_
            ∧ p.doc_id_ = dt.1 ∧ p.term_pos_ = dt.2.word_offset_)
          inv1.positions_ [(0, ⟨[98], 0⟩), (0, ⟨[97], 1⟩), (1, ⟨[98], 0⟩)] :=
  sortTerms_renumbers_positions 0 [(0, ⟨[98], 0⟩), (0, ⟨[97], 1⟩), (1, ⟨[98], 0⟩)] []
    { terms_ := [0, 0, 0, 0, 98, 0, 0, 0, 0, 0, 0, 0, 97, 0, 0, 0, 0, 0, 0, 0, 98, 0, 0, 0],
      positions_ := [], term_refs_ := [0, 1, 3, 5], terms_per_doc_ := [] }
    [1, 3, 5] (by decide) (by decide) (by decide)

/-! ## C18: the four-byte big-endian value of a term -/

/-- C18: the terms `ts` were stored by successive `AddTerm` calls into an empty `terms_`, and `a`,
`b` are two of them without NUL byte, with references `ra`, `rb`. The four bytes `SortTerms`
reads at each of them, taken big-endian, are the first four bytes of the text continued with
zero bytes (`bePrefix 4`), and they are the high 32 bits of the packed key. If the prefix value
of `a` is smaller than that of `b`, then `strcmp(a, b) < 0`; hence whenever `a` is
`strcmp`-smaller than `b` and the prefixes differ, the key of `a` has the smaller radix, so
that an order by the high 32 bits puts `a` first. -/
theorem four_byte_order_implies_strcmp_order (init : ColumnInverter) (ts : List (List Byte))
    (inv : ColumnInverter) (refs : List Nat) (ra rb : Nat) (a b : List Byte)
    (hinit : init.terms_ = []) (hadd : addTerms init ts = some (inv, refs))
    (ha : (ra, a) ∈ List.zip refs ts) (hb : (rb, b) ∈ List.zip refs ts)
    (hna : (0 : Byte) ∉ a) (hnb : (0 : Byte) ∉ b) :
    firstFour inv.terms_ ra = some (bePrefix 4 a)
    ∧ firstFour inv.terms_ rb = some (bePrefix 4 b)
    ∧ GetTerm inv.terms_ ra = a ∧ GetTerm inv.terms_ rb = b
    ∧ TermRefRadix (packedKey (bePrefix 4 a) ra) = bePrefix 4 a
    ∧ TermRefRadix (packedKey (bePrefix 4 b) rb) = bePrefix 4 b
    ∧ (bePrefix 4 a < bePrefix 4 b → strcmp a b < 0)
    ∧ (strcmp a b < 0 → bePrefix 4 a ≠ bePrefix 4 b →
        TermRefRadix (packedKey (bePrefix 4 a) ra)
          < TermRefRadix (packedKey (bePrefix 4 b) rb)) := by
  have h0 : init.terms_.length = 0 := by rw [hinit]; rfl
  have hsz0 := addTerms_some_size ts init _ (by rw [h0]) (by rw [h0]; decide) hadd
  have hsz : termsSize ts < 2 ^ 32 := by rw [h0] at hsz0; omega
  rw [addTerms_eq ts init (by rw [h0]) (by rw [h0]; omega)] at hadd
  simp only [Option.some.injEq, Prod.mk.injEq] at hadd
  obtain ⟨hinv, hrefs⟩ := hadd
  subst hinv
  subst hrefs
  simp only [hinit, List.nil_append, List.length_nil] at ha hb ⊢
  have hra := termRefs_bound ts 0 ra rfl (List.of_mem_zip ha).1
  have hrb := termRefs_bound ts 0 rb rfl (List.of_mem_zip hb).1
  have hpa : bePrefix 4 a < 2 ^ 32 := bePrefix_lt 4 a
  have hpb : bePrefix 4 b < 2 ^ 32 := bePrefix_lt 4 b
  have hta : GetTerm (termsLayout (fun _ => 0) 0 ts) ra = a := by
    unfold GetTerm
    rw [(layout_reads (fun _ => 0) ts hsz ra a ha).2.1 hna]
    rfl
  have htb : GetTerm (termsLayout (fun _ => 0) 0 ts) rb = b := by
    unfold GetTerm
    rw [(layout_reads (fun _ => 0) ts hsz rb b hb).2.1 hnb]
    rfl
  have hka := packedKey_radix (bePrefix 4 a) ra hpa (by omega)
  have hkb := packedKey_radix (bePrefix 4 b) rb hpb (by omega)
  refine ⟨firstFour_layout _ ts hsz ra a ha, firstFour_layout _ ts hsz rb b hb, hta, htb,
    hka, hkb, bePrefix_lt_strcmp 4 a b, ?_⟩
  intro hs hne
  rw [hka, hkb]
  rcases Nat.lt_trichotomy (bePrefix 4 a) (bePrefix 4 b) with h | h | h
  · exact h
  · exact absurd h hne
  · have := bePrefix_lt_strcmp 4 b a h
    rw [strcmp_swap a b] at this
    omega

set_option maxRecDepth 100000 in
/-- C18 (instance): the terms `b`, `ab`, `abcde` stored in this order; `ab` against `b`. -/
theorem four_byte_order_implies_strcmp_order_witness :
    firstFour
        [0, 0, 0, 0, 98, 0, 0, 0, 0, 0, 0, 0, 97, 98, 0, 0, 0, 0, 0, 0, 97, 98, 99, 100, 101, 0,
          0, 0] 3 = some (bePrefix 4 [97, 98])
    ∧ firstFour
        [0, 0, 0, 0, 98, 0, 0, 0, 0, 0, 0, 0, 97, 98, 0, 0, 0, 0, 0, 0, 97, 98, 99, 100, 101, 0,
          0, 0] 1 = some (bePrefix 4 [98])
    ∧ GetTerm
        [0, 0, 0, 0, 98, 0, 0, 0, 0, 0, 0, 0, 97, 98, 0, 0, 0, 0, 0, 0, 97, 98, 99, 100, 101, 0,
          0, 0] 3 = [97, 98]
    ∧ GetTerm
        [0, 0, 0, 0, 98, 0, 0, 0, 0, 0, 0, 0, 97, 98, 0, 0, 0, 0, 0, 0, 97, 98, 99, 100, 101, 0,
          0, 0] 1 = [98]
    ∧ TermRefRadix (packedKey (bePrefix 4 [97, 98]) 3) = bePrefix 4 [97, 98]
    ∧ TermRefRadix (packedKey (bePrefix 4 [98]) 1) = bePrefix 4 [98]
    ∧ (bePrefix 4 [97, 98] < bePrefix 4 [98] → strcmp [97, 98] [98] < 0)
    ∧ (strcmp [97, 98] [98] < 0 → bePrefix 4 [97, 98] ≠ bePrefix 4 [98] →
        TermRefRadix (packedKey (bePrefix 4 [97, 98]) 3)
          < TermRefRadix (packedKey (bePrefix 4 [98]) 1)) :=
  four_byte_order_implies_strcmp_order ColumnInverter.new [[98], [97, 98], [97, 98, 99, 100, 101]]
    { terms_ := [0, 0, 0, 0, 98, 0, 0, 0, 0, 0, 0, 0, 97, 98, 0, 0, 0, 0, 0, 0, 97, 98, 99, 100,
        101, 0, 0, 0],
      positions_ := [], term_refs_ := [1, 3, 5], terms_per_doc_ := [] }
    [1, 3, 5] 3 1 [97, 98] [98] rfl (by decide) (by decide) (by decide) (by decide) (by decide)

/-! ## C19: tokens across `InvertColumn` and `Merge` calls -/

set_option maxRecDepth 100000 in
/-- C19 (counterexample): `A` stages document 0 (`a`) and merges `B`, which staged document 1
(`b`); then `A` stages document 2 (`c`) and merges a third inverter, which staged document 3
(`d`). After the second `Merge` the staging list of `A` still holds document 2, and
`A.positions_` has records for `a`, `b` and `d` but none for `c`. -/
theorem merge_after_merge_leaves_own_tokens_staged :
    ((Merge (InvertColumn id ColumnInverter.new 0 [⟨[97], 0⟩])
        (InvertColumn id ColumnInverter.new 1 [⟨[98], 0⟩])).bind
        (fun r => Merge (InvertColumn id r.1 2 [⟨[99], 0⟩])
          (InvertColumn id ColumnInverter.new 3 [⟨[100], 0⟩]))).map
      (fun r => (r.1.terms_per_doc_, r.1.positions_, r.1.term_refs_.map (GetTerm r.1.terms_)))
      = some ([(2, [⟨[99], 0⟩])], [⟨1, 0, 0⟩, ⟨3, 1, 0⟩, ⟨5, 3, 0⟩], [[97], [98], [100]]) := by
  decide

/-- C19 (amended): one call `A.Merge(B)` on an inverter whose `terms_` holds whole 4-byte words
and stays below `2 ^ 32` bytes. The staging list of `B` is empty afterwards and `A.positions_`
has gained, in order, exactly one record per token of `mergedTokens A B`, each with the document
id and word offset of its token and a reference to the bytes of its text in `A.terms_`. The own
staging list of `A` is drained only when `A.positions_` was empty; otherwise it is left as it
was and none of its tokens is recorded. -/
theorem merge_records_sibling_and_first_own_batch (A B : ColumnInverter)
    (h4 : A.terms_.length % 4 = 0)
    (hsize : A.terms_.length + termsSize ((mergedTokens A B).map (fun dt => dt.2.text_))
      < 2 ^ 32) :
    ∃ (A1 B1 : ColumnInverter) (added : List PosInfo),
      Merge A B = some (A1, B1)
      ∧ B1.terms_per_doc_ = []
      ∧ A1.terms_per_doc_ = (if A.positions_.isEmpty then [] else A.terms_per_doc_)
      ∧ A1.positions_ = A.positions_ ++ added
      ∧ List.Forall₂
          (fun (p : PosInfo) (dt : Nat × Term) =>
            p.doc_id_ = dt.1 ∧ p.term_pos_ = dt.2.word_offset_
            ∧ readBytes A1.terms_ (GetTermFromRef p.term_num_) (dt.2.text_.length + 1)
                = some (dt.2.text_ ++ [0]))
          added (mergedTokens A B)
      ∧ A1.terms_.length % 4 = 0 := by
  refine ⟨_, _, _, Merge_eq A B h4 hsize, rfl, rfl, rfl, ?_, ?_⟩
  · apply forall₂_zipWith_of_mem
    · simp [termRefs_length]
    · intro r dt hm
      have hm2 := mem_zip_map_right (fun dt : Nat × Term => dt.2.text_) _ _ r dt hm
      exact ⟨rfl, rfl, (layout_reads_from A.terms_ (fun _ => 0) _ h4 hsize r dt.2.text_ hm2).1⟩
  · have := termsSize_mod ((mergedTokens A B).map (fun dt => dt.2.text_))
    simp only [List.length_append, termsLayout_length]
    omega

set_option maxRecDepth 100000 in
/-- C19 (instance): `A` has flushed the token `a` of document 0 and then staged document 2 with
the token `c`; `B` staged document 3 with the token `d`. -/
theorem merge_records_sibling_and_first_own_batch_witness :
    ∃ (A1 B1 : ColumnInverter) (added : List PosInfo),
      Merge { terms_ := [0, 0, 0, 0, 97, 0, 0, 0], positions_ := [⟨1, 0, 0⟩], term_refs_ := [1],
              terms_per_doc_ := [(2, [⟨[99], 0⟩])] }
          { terms_ := [], positions_ := [], term_refs_ := [],
            terms_per_doc_ := [(3, [⟨[100], 0⟩])] } = some (A1, B1)
      ∧ B1.terms_per_doc_ = []
      ∧ A1.terms_per_doc_
          = (if ([⟨1, 0, 0⟩] : List PosInfo).isEmpty then [] else [(2, [⟨[99], 0⟩])])
      ∧ A1.positions_ = [⟨1, 0, 0⟩] ++ added
      ∧ List.Forall₂
          (fun (p : PosInfo) (dt : Nat × Term) =>
            p.doc_id_ = dt.1 ∧ p.term_pos_ = dt.2.word_offset_
            ∧ readBytes A1.terms_ (GetTermFromRef p.term_num_) (dt.2.text_.length + 1)
                = some (dt.2.text_ ++ [0]))
          added
          (mergedTokens
            { terms_ := [0, 0, 0, 0, 97, 0, 0, 0], positions_ := [⟨1, 0, 0⟩], term_refs_ := [1],
              terms_per_doc_ := [(2, [⟨[99], 0⟩])] }
            { terms_ := [], positions_ := [], term_refs_ := [],
              terms_per_doc_ := [(3, [⟨[100], 0⟩])] })
      ∧ A1.terms_.length % 4 = 0 :=
  merge_records_sibling_and_first_own_batch
    { terms_ := [0, 0, 0, 0, 97, 0, 0, 0], positions_ := [⟨1, 0, 0⟩], term_refs_ := [1],
      terms_per_doc_ := [(2, [⟨[99], 0⟩])] }
    { terms_ := [], positions_ := [], term_refs_ := [], terms_per_doc_ := [(3, [⟨[100], 0⟩])] }
    (by decide) (by decide)

/-! ## C20: the empty batch -/

set_option maxRecDepth 100000 in
/-- C20 (evaluation at the empty batch): on the inverter the constructor leaves, and on the one
an empty batch staged and flushed by `Merge` leaves, `SortTerms` and `Sort` produce no result:
`term_refs_` is empty, `first_four_bytes.size() - 1` wraps around and `term_refs_.begin() + 1`
lies behind the end of the vector. With a sentinel as the only entry of `term_refs_` the
dereference of `term_refs_.begin() + 1` is the end of the vector all the same. -/
theorem sortTerms_empty_batch_out_of_range :
    SortTerms ColumnInverter.new = none ∧ ColumnInverter.new.Sort = none
    ∧ buildCycle ColumnInverter.new [] = none
    ∧ SortTerms ColumnInverter.withSentinel = none ∧ ColumnInverter.withSentinel.Sort = none := by
  decide

/-! ## C21: the key of `FullRadix` -/

/-- C21: for position records `p` and `q` whose `term_num_` and `doc_id_` are `u32` values, the
key `FullRadix` computes, `(u64(term_num_) << 32) | doc_id_`, orders as the pair
`(term_num_, doc_id_)` does lexicographically: the key of `p` is smaller than that of `q`
exactly when `p.term_num_ < q.term_num_`, or the term numbers are equal and
`p.doc_id_ < q.doc_id_`; and the keys are equal exactly when both fields are equal. -/
theorem fullRadix_orders_by_term_num_then_doc_id (p q : PosInfo)
    (hpt : p.term_num_ < 2 ^ 32) (hpd : p.doc_id_ < 2 ^ 32)
    (hqt : q.term_num_ < 2 ^ 32) (hqd : q.doc_id_ < 2 ^ 32) :
    (FullRadix p < FullRadix q ↔
      (p.term_num_ < q.term_num_ ∨ (p.term_num_ = q.term_num_ ∧ p.doc_id_ < q.doc_id_)))
    ∧ (FullRadix p = FullRadix q ↔ (p.term_num_ = q.term_num_ ∧ p.doc_id_ = q.doc_id_)) := by
  rw [FullRadix_eq p hpt hpd, FullRadix_eq q hqt hqd]
  constructor <;> constructor <;> intro h <;> omega

/-- C21 (instance): the records `(1, 4294967295, 7)` and `(2, 0, 0)`: the larger document id
of the first does not outweigh its smaller term number. -/
theorem fullRadix_orders_by_term_num_then_doc_id_witness :
    (FullRadix ⟨1, 4294967295, 7⟩ < FullRadix ⟨2, 0, 0⟩ ↔
      ((⟨1, 4294967295, 7⟩ : PosInfo).term_num_ < (⟨2, 0, 0⟩ : PosInfo).term_num_
        ∨ ((⟨1, 4294967295, 7⟩ : PosInfo).term_num_ = (⟨2, 0, 0⟩ : PosInfo).term_num_
          ∧ (⟨1, 4294967295, 7⟩ : PosInfo).doc_id_ < (⟨2, 0, 0⟩ : PosInfo).doc_id_)))
    ∧ (FullRadix ⟨1, 4294967295, 7⟩ = FullRadix ⟨2, 0, 0⟩ ↔
        ((⟨1, 4294967295, 7⟩ : PosInfo).term_num_ = (⟨2, 0, 0⟩ : PosInfo).term_num_
          ∧ (⟨1, 4294967295, 7⟩ : PosInfo).doc_id_ = (⟨2, 0, 0⟩ : PosInfo).doc_id_)) :=
  fullRadix_orders_by_term_num_then_doc_id ⟨1, 4294967295, 7⟩ ⟨2, 0, 0⟩ (by decide) (by decide)
    (by decide) (by decide)

end infinity
